import Mathlib

/-!
Verification of the SkyDrive storage backend core: a shallow embedding of
the blob store (`crud_file.py`), chunk sessions (`crud_chunk.py`) and the
upload / namespace endpoints (`files.py`), together with proofs about the
claims of the specification.

Database tables are modelled as Lean lists of rows (list order = insertion
order, `first()` = `List.find?`).  The physical filesystem is an
association list from paths to byte lists.  Wall-clock timestamps are
abstract `Nat` ticks.  The MD5 digest is modelled by an arbitrary function
`hashFn : List Nat → String` passed to the operations that hash content.
Recursive tree walks of the source become fuel-indexed recursions that
return `none` when the fuel runs out.
-/

set_option maxHeartbeats 1000000

namespace SkyDrive

/-- One row of the `file_store` table (models/file.py, `FileStore`). -/
structure FileStoreRec where
  file_hash : String
  real_path : String
  file_size : Nat
  ref_count : Int
  deriving Repr, DecidableEq

/-- One row of the `file_meta` table (models/file.py, `FileMeta`).
`created_at`/`updated_at` book-keeping timestamps are not modelled; the
`deleted_at` trash timestamp is an abstract `Nat` tick. -/
structure FileMetaRec where
  id : Nat
  user_id : Nat
  parent_id : Nat
  file_name : String
  is_folder : Bool
  file_hash : Option String
  is_deleted : Bool
  deleted_at : Option Nat
  deriving Repr, DecidableEq

/-- One row of the `file_chunk` table (models/file.py, `FileChunk`). -/
structure FileChunkRec where
  upload_id : String
  user_id : Nat
  file_hash : String
  chunk_index : Nat
  chunk_size : Nat
  is_uploaded : Bool
  temp_path : Option String
  deriving Repr, DecidableEq

/-- The quota fields of a `sys_user` row (models/user.py). -/
structure UserRec where
  id : Nat
  quota_used : Int
  quota_total : Int
  deriving Repr, DecidableEq

/-- The whole mutable state: the four tables, the physical filesystem
(an association list path ↦ bytes), the configured storage volumes, and
two counters providing fresh autoincrement ids / fresh temp-file names
(the source uses database autoincrement and `uuid4`). -/
structure DB where
  files : List FileMetaRec
  stores : List FileStoreRec
  chunks : List FileChunkRec
  users : List UserRec
  disk : List (String × List Nat)
  storage_paths : List String
  next_id : Nat
  next_tmp : Nat
  deriving Repr, DecidableEq

/-! ### Filesystem primitives -/

/-- Read a file from the modelled filesystem (`os.path.exists` + `open`). -/
def diskGet (d : List (String × List Nat)) (p : String) : Option (List Nat) :=
  (d.find? (fun e => e.1 == p)).map (fun e => e.2)

/-- Create or overwrite a file (`open(..., "wb")`). -/
def diskSet (d : List (String × List Nat)) (p : String) (bs : List Nat) :
    List (String × List Nat) :=
  (p, bs) :: d.filter (fun e => !(e.1 == p))

/-- Delete a file (`os.remove`). -/
def diskDel (d : List (String × List Nat)) (p : String) : List (String × List Nat) :=
  d.filter (fun e => !(e.1 == p))

/-! ### crud_user.py -/

/-- `CRUDUser.update_quota_used`: adds `size_delta` to the user's counter. -/
def update_quota_used (db : DB) (user_id : Nat) (size_delta : Int) : DB :=
  { db with users := db.users.map (fun u =>
      if u.id == user_id then { u with quota_used := u.quota_used + size_delta } else u) }

/-- Current `quota_used` of a user (0 when the row is missing). -/
def quotaUsed (db : DB) (user_id : Nat) : Int :=
  ((db.users.find? (fun u => u.id == user_id)).map (fun u => u.quota_used)).getD 0

/-- Look up a user row (`current_user`). -/
def findUser (db : DB) (user_id : Nat) : Option UserRec :=
  db.users.find? (fun u => u.id == user_id)

/-! ### crud_chunk.py -/

/-- `CRUDChunk.delete_chunks`: removes every slot of one upload session. -/
def delete_chunks (db : DB) (upload_id : String) : DB :=
  { db with chunks := db.chunks.filter (fun c => !(c.upload_id == upload_id)) }

/-- The fresh pending slots inserted by the creation loop of
`create_init_chunks` (`for i in range(total_chunks)`). -/
def mkPendingChunks (upload_id : String) (user_id : Nat) (file_hash : String)
    (total : Nat) : List FileChunkRec :=
  (List.range total).map (fun i =>
    { upload_id := upload_id, user_id := user_id, file_hash := file_hash,
      chunk_index := i, chunk_size := 0, is_uploaded := false, temp_path := none })

/-- `CRUDChunk.create_init_chunks`: reuse an existing session with the same
slot count, discard and recreate it on a count mismatch, create it fresh
otherwise. -/
def create_init_chunks (db : DB) (upload_id : String) (user_id : Nat)
    (file_hash : String) (total_chunks : Nat) : DB × List FileChunkRec :=
  let existing := db.chunks.filter (fun c => c.upload_id == upload_id)
  if existing.isEmpty then
    let fresh := mkPendingChunks upload_id user_id file_hash total_chunks
    ({ db with chunks := db.chunks ++ fresh }, fresh)
  else if existing.length == total_chunks then
    (db, existing)
  else
    let db1 := delete_chunks db upload_id
    let fresh := mkPendingChunks upload_id user_id file_hash total_chunks
    ({ db1 with chunks := db1.chunks ++ fresh }, fresh)

/-- `CRUDChunk.mark_chunk_uploaded`. -/
def mark_chunk_uploaded (db : DB) (upload_id : String) (chunk_index : Nat)
    (chunk_size : Nat) (temp_path : String) : DB :=
  { db with chunks := db.chunks.map (fun c =>
      if c.upload_id == upload_id && c.chunk_index == chunk_index then
        { c with is_uploaded := true, chunk_size := chunk_size, temp_path := some temp_path }
      else c) }

/-- Insertion sort key used to model `order_by(FileChunk.chunk_index)`. -/
def insertByIndex (c : FileChunkRec) : List FileChunkRec → List FileChunkRec
  | [] => [c]
  | d :: ds => if c.chunk_index ≤ d.chunk_index then c :: d :: ds else d :: insertByIndex c ds

/-- Stable sort by `chunk_index`, modelling the SQL `ORDER BY`. -/
def sortByIndex : List FileChunkRec → List FileChunkRec
  | [] => []
  | c :: cs => insertByIndex c (sortByIndex cs)

/-- `CRUDChunk.get_all_chunks`: every slot of a session, by index. -/
def get_all_chunks (db : DB) (upload_id : String) : List FileChunkRec :=
  sortByIndex (db.chunks.filter (fun c => c.upload_id == upload_id))

/-- `CRUDChunk.get_uploaded_chunks`: indices whose slot is uploaded and whose
temp file still exists; vanished slots are reset to pending. -/
def get_uploaded_chunks (db : DB) (upload_id : String) : DB × List Nat :=
  let uploaded := db.chunks.filter (fun c => c.upload_id == upload_id && c.is_uploaded)
  let valid := uploaded.filter (fun c =>
    match c.temp_path with
    | some p => (diskGet db.disk p).isSome
    | none => false)
  let db' := { db with chunks := db.chunks.map (fun c =>
    if c.upload_id == upload_id && c.is_uploaded &&
        !(match c.temp_path with
          | some p => (diskGet db.disk p).isSome
          | none => false) then
      { c with is_uploaded := false }
    else c) }
  (db', valid.map (fun c => c.chunk_index))

/-! ### crud_file.py — blob store -/

/-- `CRUDFileMeta.get_by_hash`. -/
def get_by_hash (db : DB) (file_hash : String) : Option FileStoreRec :=
  db.stores.find? (fun s => s.file_hash == file_hash)

/-- `CRUDFileMeta.increment_ref_count`: SQL `UPDATE ... SET ref_count = ref_count + 1`
on the rows with this hash, then re-read. -/
def increment_ref_count (db : DB) (file_hash : String) : DB × Option FileStoreRec :=
  let db' := { db with stores := db.stores.map (fun s =>
    if s.file_hash == file_hash then { s with ref_count := s.ref_count + 1 } else s) }
  (db', get_by_hash db' file_hash)

/-- `CRUDFileMeta.decrement_ref_count`. -/
def decrement_ref_count (db : DB) (file_hash : String) : DB × Option FileStoreRec :=
  let db' := { db with stores := db.stores.map (fun s =>
    if s.file_hash == file_hash then { s with ref_count := s.ref_count - 1 } else s) }
  (db', get_by_hash db' file_hash)

/-- `CRUDFileMeta.create_file_store`: double-checked insert; a duplicate
insert (the table's uniqueness constraint on `file_hash`) falls back to
`increment_ref_count`. -/
def create_file_store (db : DB) (file_hash real_path : String) (file_size : Nat) :
    DB × Option FileStoreRec :=
  match get_by_hash db file_hash with
  | some _ => increment_ref_count db file_hash
  | none =>
    if db.stores.any (fun s => s.file_hash == file_hash) then
      increment_ref_count db file_hash
    else
      let row : FileStoreRec :=
        { file_hash := file_hash, real_path := real_path,
          file_size := file_size, ref_count := 1 }
      ({ db with stores := db.stores ++ [row] }, some row)

/-- The blob-release step of `permanent_remove` (crud_file.py lines 310-315):
decrement the reference count and, when it has reached zero, remove the
physical bytes and delete the record.  Returns the surviving record. -/
def decrement_and_release (db : DB) (file_hash : String) : DB × Option FileStoreRec :=
  let r := decrement_ref_count db file_hash
  let db1 := r.1
  match r.2 with
  | some s =>
    if s.ref_count ≤ 0 then
      let disk' := if (diskGet db1.disk s.real_path).isSome
        then diskDel db1.disk s.real_path else db1.disk
      ({ db1 with
          disk := disk'
          stores := db1.stores.filter (fun t => !(t.file_hash == file_hash)) }, none)
    else (db1, some s)
  | none => (db1, none)

/-! ### SQL LIKE matching

`_get_unique_filename` filters sibling names with
`FileMeta.file_name.like(f"{name_without_ext}%{ext}")`.  `likeMatch` is the
standard LIKE semantics over character lists: `%` matches any sequence,
`_` any single character, anything else itself. -/

def likeMatchF : Nat → List Char → List Char → Bool
  | 0, _, _ => false
  | _ + 1, [], s => s.isEmpty
  | fuel + 1, p :: ps, s =>
    if p = '%' then
      likeMatchF fuel ps s ||
        (match s with
          | [] => false
          | _ :: s' => likeMatchF fuel (p :: ps) s')
    else
      match s with
      | [] => false
      | c :: s' => (p == '_' || p == c) && likeMatchF fuel ps s'

/-- LIKE matching: `likeMatchF` seeded with enough fuel (the matcher
consumes at least one pattern or subject character per step). -/
def likeMatch (p s : List Char) : Bool :=
  likeMatchF (p.length + s.length + 1) p s

/-! ### crud_file.py — namespace tree -/

/-- `base_name.rsplit(".", 1)` guarded by
`"." in base_name and not base_name.startswith(".")`: splits a file name
into stem and `"." + extension` at the last dot. -/
def crudSplitName (file_name : String) : String × String :=
  let cs := file_name.data
  if cs.contains '.' && !(cs.head? == some '.') then
    let rev := cs.reverse
    let afterRev := rev.takeWhile (fun c => !(c == '.'))
    let beforeRev := (rev.dropWhile (fun c => !(c == '.'))).drop 1
    (⟨beforeRev.reverse⟩, ⟨'.' :: afterRev.reverse⟩)
  else (file_name, "")

/-- The LIKE pattern `f"{name_without_ext}%{ext}"`. -/
def likePattern (pre ext : String) : List Char :=
  pre.data ++ '%' :: ext.data

/-- The candidate `f"{name_without_ext} ({counter}){ext}"`. -/
def candidateName (pre ext : String) (k : Nat) : String :=
  pre ++ " (" ++ toString k ++ ")" ++ ext

/-- The `while True` probing loop of `_get_unique_filename`, with fuel. -/
def uniqueLoop (names : List String) (pre ext : String) : Nat → Nat → Option String
  | _, 0 => none
  | k, fuel + 1 =>
    let nm := candidateName pre ext k
    if names.contains nm then uniqueLoop names pre ext (k + 1) fuel else some nm

/-- `CRUDFileMeta._get_unique_filename`: collects the active sibling names
matching the LIKE pattern and probes `name`, `name (1)`, `name (2)`, …
until one is free. -/
def crud_get_unique_filename (db : DB) (user_id parent_id : Nat)
    (file_name : String) (fuel : Nat) : Option String :=
  let pe := crudSplitName file_name
  let pat := likePattern pe.1 pe.2
  let existing_names := (db.files.filter (fun f =>
    f.user_id == user_id && f.parent_id == parent_id &&
    likeMatch pat f.file_name.data && !f.is_deleted)).map (fun f => f.file_name)
  if existing_names.contains file_name then
    uniqueLoop existing_names pe.1 pe.2 1 fuel
  else some file_name

/-- `schemas.FileMetaCreate` (the fields `create_with_user` reads). -/
structure FileMetaCreate where
  file_name : String
  is_folder : Bool
  parent_id : Nat
  file_hash : Option String
  deriving Repr, DecidableEq

/-- `CRUDFileMeta.create_with_user`: uniquify the name and insert the row. -/
def create_with_user (db : DB) (obj_in : FileMetaCreate) (user_id : Nat)
    (fuel : Nat) : Option (DB × FileMetaRec) :=
  match crud_get_unique_filename db user_id obj_in.parent_id obj_in.file_name fuel with
  | none => none
  | some unique_name =>
    let node : FileMetaRec :=
      { id := db.next_id, user_id := user_id, parent_id := obj_in.parent_id,
        file_name := unique_name, is_folder := obj_in.is_folder,
        file_hash := obj_in.file_hash, is_deleted := false, deleted_at := none }
    some ({ db with files := db.files ++ [node], next_id := db.next_id + 1 }, node)

/-- `CRUDFileMeta.get_by_name_and_parent`: first active row with this name. -/
def get_by_name_and_parent (db : DB) (name : String) (parent_id user_id : Nat) :
    Option FileMetaRec :=
  db.files.find? (fun f => f.user_id == user_id && f.parent_id == parent_id &&
    f.file_name == name && !f.is_deleted)

/-- `db.query(FileMeta).filter(id == id, user_id == user_id).first()`. -/
def findFile (db : DB) (id user_id : Nat) : Option FileMetaRec :=
  db.files.find? (fun f => f.id == id && f.user_id == user_id)

/-- In-place row update by primary key (session `db.add` of a mutated row). -/
def updFile (db : DB) (id : Nat) (g : FileMetaRec → FileMetaRec) : DB :=
  { db with files := db.files.map (fun f => if f.id == id then g f else f) }

/-- Mark a row as soft-deleted at tick `now`. -/
def delMark (now : Nat) (f : FileMetaRec) : FileMetaRec :=
  { f with is_deleted := true, deleted_at := some now }

/-- Clear the soft-delete fields of a row. -/
def undelMark (f : FileMetaRec) : FileMetaRec :=
  { f with is_deleted := false, deleted_at := none }

/-- Ids of all children of a node for one user (`remove`/`permanent_remove`
child query: no deletion filter). -/
def childIds (db : DB) (id user_id : Nat) : List Nat :=
  (db.files.filter (fun f => f.parent_id == id && f.user_id == user_id)).map (fun f => f.id)

/-- `CRUDFileMeta.remove` (soft delete): recursively mark the subtree
deleted, children first, with fuel for the tree recursion. -/
def removeGo : Nat → DB → Nat → Nat → Nat → Option (DB × Option FileMetaRec)
  | 0, _, _, _, _ => none
  | fuel + 1, db, id, user_id, now =>
    match findFile db id user_id with
    | none => some (db, none)
    | some obj =>
      let step : Option DB :=
        if obj.is_folder then
          (childIds db id user_id).foldlM
            (fun acc c => (removeGo fuel acc c user_id now).map (fun r => r.1)) db
        else some db
      match step with
      | none => none
      | some db1 =>
        let db2 := updFile db1 id (delMark now)
        some (db2, findFile db2 id user_id)

/-- `CRUDFileMeta._restore_downwards`: un-delete every deleted child and
recurse into it. -/
def restoreDownGo : Nat → DB → FileMetaRec → Nat → Option DB
  | 0, _, _, _ => none
  | fuel + 1, db, obj, user_id =>
    if !obj.is_folder then some db
    else
      let cs := db.files.filter (fun f =>
        f.parent_id == obj.id && f.user_id == user_id && f.is_deleted)
      cs.foldlM (fun acc c =>
        restoreDownGo fuel (updFile acc c.id undelMark) (undelMark c) user_id) db

/-- `CRUDFileMeta._restore_upwards`: walk the parent chain to the root,
un-deleting every deleted ancestor. -/
def restoreUpGo : Nat → DB → FileMetaRec → Nat → Option DB
  | 0, _, _, _ => none
  | fuel + 1, db, current, user_id =>
    if current.parent_id == 0 then some db
    else
      match db.files.find? (fun f =>
          f.id == current.parent_id && f.user_id == user_id) with
      | none => some db
      | some parent =>
        let db1 := if parent.is_deleted then updFile db parent.id undelMark else db
        restoreUpGo fuel db1 parent user_id

/-- `CRUDFileMeta.restore`: un-delete the node, then the downward pass,
then the upward pass. -/
def restoreOp (fuel : Nat) (db : DB) (id user_id : Nat) :
    Option (DB × Option FileMetaRec) :=
  match findFile db id user_id with
  | none => some (db, none)
  | some obj =>
    let db1 := updFile db id undelMark
    match restoreDownGo fuel db1 (undelMark obj) user_id with
    | none => none
    | some db2 =>
      match restoreUpGo fuel db2 (undelMark obj) user_id with
      | none => none
      | some db3 => some (db3, findFile db3 id user_id)

/-- `CRUDFileMeta.permanent_remove`: purge the subtree; for a file with a
stored blob, decrement the reference count and release the blob at zero. -/
def permRemoveGo : Nat → DB → Nat → Nat → Option (DB × Bool)
  | 0, _, _, _ => none
  | fuel + 1, db, id, user_id =>
    match findFile db id user_id with
    | none => some (db, false)
    | some obj =>
      let step : Option DB :=
        if obj.is_folder then
          (childIds db id user_id).foldlM
            (fun acc c => (permRemoveGo fuel acc c user_id).map (fun r => r.1)) db
        else
          match obj.file_hash with
          | some h =>
            if (get_by_hash db h).isSome then some (decrement_and_release db h).1
            else some db
          | none => some db
      match step with
      | none => none
      | some db1 =>
        some ({ db1 with files := db1.files.filter (fun f => !(f.id == id)) }, true)

/-- `CRUDFileMeta.get_ancestors`: the chain root → … → `folder_id`, walking
parent pointers (fuelled; the Python loop does not terminate on a cycle). -/
def ancestorsGo : Nat → DB → Nat → Nat → Option (List FileMetaRec)
  | 0, _, _, _ => none
  | fuel + 1, db, folder_id, user_id =>
    if folder_id == 0 then some []
    else
      match db.files.find? (fun f => f.id == folder_id && f.user_id == user_id) with
      | none => some []
      | some folder =>
        (ancestorsGo fuel db folder.parent_id user_id).map (fun l => l ++ [folder])

/-- One segment of `get_or_create_path`: find or create the folder, with
the residual-race duplicate cleanup of the source. -/
def resolveSegment (db : DB) (user_id current_parent : Nat) (folder_name : String) :
    DB × Nat :=
  match db.files.find? (fun f => f.user_id == user_id && f.parent_id == current_parent &&
      f.file_name == folder_name && f.is_folder && !f.is_deleted) with
  | some folder => (db, folder.id)
  | none =>
    let newFolder : FileMetaRec :=
      { id := db.next_id, user_id := user_id, parent_id := current_parent,
        file_name := folder_name, is_folder := true, file_hash := none,
        is_deleted := false, deleted_at := none }
    let db1 := { db with files := db.files ++ [newFolder], next_id := db.next_id + 1 }
    let existing := db1.files.filter (fun f =>
      f.user_id == user_id && f.parent_id == current_parent &&
      f.file_name == folder_name && f.is_folder && !f.is_deleted)
    match existing with
    | [] => (db1, newFolder.id)
    | primary :: dups =>
      if dups.isEmpty then (db1, newFolder.id)
      else
        let db2 := dups.foldl (fun acc dup =>
          if acc.files.any (fun f => f.parent_id == dup.id) then acc
          else { acc with files := acc.files.filter (fun f => !(f.id == dup.id)) }) db1
        (db2, primary.id)

/-- `CRUDFileMeta.get_or_create_path`: resolve `"A/B/file.txt"` to a parent
folder id, creating missing folders (rows are appended in id order, so list
order realises the `ORDER BY id ASC` of the duplicate query). -/
def get_or_create_path (db : DB) (user_id parent_id : Nat) (relative_path : String) :
    DB × Nat :=
  let folder_parts := (relative_path.splitOn "/").dropLast
  folder_parts.foldl (fun (acc : DB × Nat) seg =>
    if seg == "" then acc else resolveSegment acc.1 user_id acc.2 seg) (db, parent_id)

/-- `CRUDFileMeta.copy`: deep-clone a subtree (active children only),
incrementing the blob reference count for each copied file. -/
def copyGo : Nat → DB → Nat → Nat → Nat → Option (DB × Option FileMetaRec)
  | 0, _, _, _, _ => none
  | fuel + 1, db, id, target_parent_id, user_id =>
    match findFile db id user_id with
    | none => some (db, none)
    | some obj =>
      match crud_get_unique_filename db user_id target_parent_id obj.file_name (fuel + 1) with
      | none => none
      | some unique_name =>
        let newNode : FileMetaRec :=
          { id := db.next_id, user_id := user_id, parent_id := target_parent_id,
            file_name := unique_name, is_folder := obj.is_folder,
            file_hash := obj.file_hash, is_deleted := false, deleted_at := none }
        let db1 := { db with files := db.files ++ [newNode], next_id := db.next_id + 1 }
        if !obj.is_folder then
          match obj.file_hash with
          | some h => some ((increment_ref_count db1 h).1, some newNode)
          | none => some (db1, some newNode)
        else
          let cs := (db1.files.filter (fun f =>
            f.parent_id == id && f.user_id == user_id && !f.is_deleted)).map (fun f => f.id)
          match cs.foldlM (fun acc c =>
              (copyGo fuel acc c newNode.id user_id).map (fun r => r.1)) db1 with
          | none => none
          | some db2 => some (db2, some newNode)

/-- `CRUDFileMeta.move`: for folders, reject when the target's ancestor
chain contains the moved node; then reparent under a uniquified name. -/
def moveOp (fuel : Nat) (db : DB) (id target_parent_id user_id : Nat) :
    Option (DB × Option FileMetaRec) :=
  match findFile db id user_id with
  | none => some (db, none)
  | some obj =>
    let blocked : Option Bool :=
      if obj.is_folder then
        (ancestorsGo fuel db target_parent_id user_id).map
          (fun anc => anc.any (fun a => a.id == id))
      else some false
    match blocked with
    | none => none
    | some true => some (db, none)
    | some false =>
      match crud_get_unique_filename db user_id target_parent_id obj.file_name fuel with
      | none => none
      | some unique_name =>
        let db1 := updFile db id (fun f =>
          { f with parent_id := target_parent_id, file_name := unique_name })
        some (db1, findFile db1 id user_id)

/-- `CRUDFileMeta.clean_expired_trash`: permanently remove this user's
trash entries deleted before `now - 30` ticks (30 days in the source). -/
def clean_expired_trash (fuel : Nat) (db : DB) (user_id now : Nat) : Option DB :=
  let cutoff := now - 30
  let expired := db.files.filter (fun f => f.user_id == user_id && f.is_deleted &&
    (match f.deleted_at with
      | some t => decide (t < cutoff)
      | none => false))
  expired.foldlM (fun acc f =>
    (permRemoveGo fuel acc f.id user_id).map (fun r => r.1)) db

/-- `CRUDFileMeta.get_trash_files`: after the expiry sweep, list deleted
children of a folder, or the trash roots (deleted nodes whose parent is
the root, missing, or active). -/
def get_trash_files (fuel : Nat) (db : DB) (user_id : Nat) (parent_id : Option Nat)
    (now limit : Nat) : Option (DB × List FileMetaRec) :=
  match clean_expired_trash fuel db user_id now with
  | none => none
  | some db1 =>
    match parent_id with
    | some pid =>
      if pid != 0 then
        some (db1, (db1.files.filter (fun f =>
          f.user_id == user_id && f.parent_id == pid && f.is_deleted)).take limit)
      else
        some (db1, (db1.files.filter (fun f => f.user_id == user_id && f.is_deleted &&
          (f.parent_id == 0 ||
            (match db1.files.find? (fun p => p.id == f.parent_id) with
              | none => true
              | some p => !p.is_deleted)))).take limit)
    | none =>
      some (db1, (db1.files.filter (fun f => f.user_id == user_id && f.is_deleted &&
        (f.parent_id == 0 ||
          (match db1.files.find? (fun p => p.id == f.parent_id) with
            | none => true
            | some p => !p.is_deleted)))).take limit)

/-! ### endpoints/files.py -/

/-- The recoverable HTTP failures of the upload / namespace endpoints. -/
inductive ApiError
  | invalidFilename
  | nameConflict (file_id : Nat)
  | quotaExceeded
  | uploadSessionNotFound
  | chunkMissing (idx : Nat)
  | chunkTempMissing (idx : Nat)
  | hashMismatch (client server : String)
  | noStoragePath
  | fileNotFound
  deriving Repr, DecidableEq

/-- The characters rejected by `is_filename_valid`. -/
def illegalChars : List Char := ['<', '>', ':', '"', '/', '\\', '|', '?', '*']

/-- `is_filename_valid`. -/
def is_filename_valid (filename : String) : Bool :=
  !(filename.data.any (fun c => illegalChars.contains c))

/-- `get_best_storage_path`: the source picks the configured volume with
the most free bytes at call time; free disk space is a physical resource
outside this model, so the embedding selects the first configured volume
and fails when none is configured. -/
def get_best_storage_path (db : DB) : Option String :=
  db.storage_paths.head?

/-- `os.path.splitext`: split at the last dot, ignoring leading dots. -/
def pySplitExt (s : String) : String × String :=
  let cs := s.data
  let lead := (cs.takeWhile (fun c => c == '.')).length
  let idxs := (List.range cs.length).filter (fun i => cs.getD i ' ' == '.' && lead ≤ i)
  match idxs.getLast? with
  | none => (s, "")
  | some i => (⟨cs.take i⟩, ⟨cs.drop i⟩)

/-- The `while True` probe of the endpoint-level `get_unique_filename`. -/
def epUniqueLoop (db : DB) (name ext : String) (parent_id user_id : Nat) :
    Nat → Nat → Option String
  | _, 0 => none
  | k, fuel + 1 =>
    let new_name := name ++ " (" ++ toString k ++ ")" ++ ext
    if (get_by_name_and_parent db new_name parent_id user_id).isNone then some new_name
    else epUniqueLoop db name ext parent_id user_id (k + 1) fuel

/-- Endpoint-level `get_unique_filename` (files.py lines 66-80). -/
def ep_unique_filename (db : DB) (filename : String) (parent_id user_id : Nat)
    (fuel : Nat) : Option String :=
  if (get_by_name_and_parent db filename parent_id user_id).isNone then some filename
  else
    let ne := pySplitExt filename
    epUniqueLoop db ne.1 ne.2 parent_id user_id 1 fuel

/-- The shared name-resolution prologue of the upload endpoints: either
auto-rename, or fail with 409 when an active sibling already holds the name. -/
def resolveFinalName (db : DB) (filename : String) (target_parent_id user_id : Nat)
    (auto_rename : Bool) (fuel : Nat) : Option (Except ApiError String) :=
  if auto_rename then
    match ep_unique_filename db filename target_parent_id user_id fuel with
    | none => none
    | some n => some (.ok n)
  else
    match get_by_name_and_parent db filename target_parent_id user_id with
    | some existing => some (.error (.nameConflict existing.id))
    | none => some (.ok filename)

/-- The commit tail shared by `upload_file`'s two dedup branches: create the
`FileMeta` row and charge the quota. -/
def finishUpload (db : DB) (user_id : Nat) (final_filename : String)
    (target_parent_id : Nat) (file_hash : String) (file_size : Nat) (fuel : Nat) :
    Option (DB × Except ApiError FileMetaRec) :=
  match create_with_user db
      ⟨final_filename, false, target_parent_id, some file_hash⟩ user_id fuel with
  | none => none
  | some r => some (update_quota_used r.1 user_id (file_size : Int), .ok r.2)

/-- `upload_file` (the whole-file, non-chunked path): spool the stream to a
temp file while hashing it, check quota, dedup against the blob store,
then create the node and charge the quota. -/
def uploadFile (hashFn : List Nat → String) (fuel : Nat) (db : DB) (user_id : Nat)
    (content : List Nat) (filename : String) (parent_id : Nat)
    (relative_path : Option String) (auto_rename : Bool) :
    Option (DB × Except ApiError FileMetaRec) :=
  match findUser db user_id with
  | none => none
  | some user =>
    if !is_filename_valid filename then some (db, .error .invalidFilename)
    else
      let tp := match relative_path with
        | some rp => get_or_create_path db user_id parent_id rp
        | none => (db, parent_id)
      let db0 := tp.1
      let target_parent_id := tp.2
      match resolveFinalName db0 filename target_parent_id user_id auto_rename fuel with
      | none => none
      | some (.error e) => some (db0, .error e)
      | some (.ok final_filename) =>
        let temp_path := "tmp:" ++ toString db0.next_tmp
        let db1 := { db0 with
          disk := diskSet db0.disk temp_path content
          next_tmp := db0.next_tmp + 1 }
        let file_hash := hashFn content
        let file_size := content.length
        if user.quota_used + (file_size : Int) > user.quota_total then
          some ({ db1 with disk := diskDel db1.disk temp_path }, .error .quotaExceeded)
        else
          match get_by_hash db1 file_hash with
          | some _ =>
            let db2 := (increment_ref_count db1 file_hash).1
            let db3 := { db2 with disk := diskDel db2.disk temp_path }
            finishUpload db3 user_id final_filename target_parent_id file_hash file_size fuel
          | none =>
            match get_best_storage_path db1 with
            | none => some (db1, .error .noStoragePath)
            | some base =>
              let final_path := base ++ "/" ++ file_hash
              let db2 :=
                if (diskGet db1.disk final_path).isNone then
                  { db1 with disk := diskSet (diskDel db1.disk temp_path) final_path content }
                else
                  { db1 with disk := diskDel db1.disk temp_path }
              let db3 := (create_file_store db2 file_hash final_path file_size).1
              finishUpload db3 user_id final_filename target_parent_id file_hash file_size fuel

/-- `check_fast_upload`: when a blob with the claimed hash exists, commit a
node against it (quota-checked with the stored size) without any transfer. -/
def checkFastUpload (fuel : Nat) (db : DB) (user_id : Nat) (file_hash file_name : String)
    (parent_id : Nat) (relative_path : Option String) (auto_rename : Bool) :
    Option (DB × Except ApiError (Bool × Option FileMetaRec)) :=
  match findUser db user_id with
  | none => none
  | some user =>
    if !is_filename_valid file_name then some (db, .error .invalidFilename)
    else
      let tp := match relative_path with
        | some rp => get_or_create_path db user_id parent_id rp
        | none => (db, parent_id)
      let db0 := tp.1
      let target_parent_id := tp.2
      match resolveFinalName db0 file_name target_parent_id user_id auto_rename fuel with
      | none => none
      | some (.error e) => some (db0, .error e)
      | some (.ok final_filename) =>
        match get_by_hash db0 file_hash with
        | some existing_store =>
          if user.quota_used + (existing_store.file_size : Int) > user.quota_total then
            some (db0, .error .quotaExceeded)
          else
            let db1 := (increment_ref_count db0 file_hash).1
            match create_with_user db1
                ⟨final_filename, false, target_parent_id, some file_hash⟩ user_id fuel with
            | none => none
            | some r =>
              some (update_quota_used r.1 user_id (existing_store.file_size : Int),
                    .ok (true, some r.2))
        | none => some (db0, .ok (false, none))

/-- The chunk-concatenation loop of `merge_chunks`: read each temp file in
index order, append its bytes to the output and delete it; a missing temp
file aborts, leaving the partial output on disk.  Returns the disk, the
concatenated bytes and the index of the offending chunk, if any. -/
def mergeLoop (final_path : String) : List FileChunkRec → List (String × List Nat) →
    List Nat → List (String × List Nat) × List Nat × Option Nat
  | [], disk, acc => (diskSet disk final_path acc, acc, none)
  | c :: cs, disk, acc =>
    match c.temp_path with
    | some p =>
      match diskGet disk p with
      | some bytes => mergeLoop final_path cs (diskDel disk p) (acc ++ bytes)
      | none => (diskSet disk final_path acc, acc, some c.chunk_index)
    | none => (diskSet disk final_path acc, acc, some c.chunk_index)

/-- The commit tail of `merge_chunks` after the output exists on disk:
size from the file, quota check (discarding a freshly written orphan
output), blob commit, node creation, quota charge, session cleanup. -/
def mergeCommit (fuel : Nat) (db : DB) (user : UserRec)
    (upload_id final_filename file_hash final_path : String)
    (target_parent_id : Nat) : Option (DB × Except ApiError FileMetaRec) :=
  let file_size := ((diskGet db.disk final_path).getD []).length
  if user.quota_used + (file_size : Int) > user.quota_total then
    match get_by_hash db file_hash with
    | some _ => some (db, .error .quotaExceeded)
    | none => some ({ db with disk := diskDel db.disk final_path }, .error .quotaExceeded)
  else
    let db1 :=
      match get_by_hash db file_hash with
      | some _ => (increment_ref_count db file_hash).1
      | none => (create_file_store db file_hash final_path file_size).1
    match create_with_user db1
        ⟨final_filename, false, target_parent_id, some file_hash⟩ user.id fuel with
    | none => none
    | some r =>
      let db3 := update_quota_used r.1 user.id (file_size : Int)
      some (delete_chunks db3 upload_id, .ok r.2)

/-- `merge_chunks`: verify the session (tolerating a missing session when
the claimed hash is the hash of the empty byte string), concatenate and
verify when the output blob is not already on disk, then commit. -/
def mergeChunks (hashFn : List Nat → String) (fuel : Nat) (db : DB) (user_id : Nat)
    (upload_id file_name file_hash : String) (parent_id : Nat)
    (relative_path : Option String) (auto_rename : Bool) :
    Option (DB × Except ApiError FileMetaRec) :=
  match findUser db user_id with
  | none => none
  | some user =>
    if !is_filename_valid file_name then some (db, .error .invalidFilename)
    else
      let tp := match relative_path with
        | some rp => get_or_create_path db user_id parent_id rp
        | none => (db, parent_id)
      let db0 := tp.1
      let target_parent_id := tp.2
      match resolveFinalName db0 file_name target_parent_id user_id auto_rename fuel with
      | none => none
      | some (.error e) => some (db0, .error e)
      | some (.ok final_filename) =>
        let chunks := get_all_chunks db0 upload_id
        if chunks.isEmpty && !(file_hash == hashFn []) then
          some (db0, .error .uploadSessionNotFound)
        else
          match chunks.find? (fun c => !c.is_uploaded) with
          | some c => some (db0, .error (.chunkMissing c.chunk_index))
          | none =>
            match get_best_storage_path db0 with
            | none => some (db0, .error .noStoragePath)
            | some base =>
              let final_path := base ++ "/" ++ file_hash
              if (diskGet db0.disk final_path).isNone then
                let r := mergeLoop final_path chunks db0.disk []
                match r.2.2 with
                | some idx =>
                  some ({ db0 with disk := r.1 }, .error (.chunkTempMissing idx))
                | none =>
                  let calculated_hash := hashFn r.2.1
                  if !(calculated_hash == file_hash) then
                    some ({ db0 with disk := diskDel r.1 final_path },
                          .error (.hashMismatch file_hash calculated_hash))
                  else
                    mergeCommit fuel { db0 with disk := r.1 } user upload_id
                      final_filename file_hash final_path target_parent_id
              else
                let disk1 := chunks.foldl (fun d c =>
                  match c.temp_path with
                  | some p => if (diskGet d p).isSome then diskDel d p else d
                  | none => d) db0.disk
                mergeCommit fuel { db0 with disk := disk1 } user upload_id
                  final_filename file_hash final_path target_parent_id

/-- Modelled from the spec: `CRUDBase.get` (crud/base.py is not among the
sources).  §6 persists the Node table keyed by id, so `get` is the
primary-key lookup of one row. -/
def crud_get (db : DB) (id : Nat) : Option FileMetaRec :=
  db.files.find? (fun f => f.id == id)

/-- The `FileMeta.file_size` ORM property: 0 for folders, otherwise the
byte size of the referenced blob (0 when absent). -/
def fileSizeOf (db : DB) (f : FileMetaRec) : Nat :=
  if f.is_folder then 0
  else match f.file_hash with
    | some h => ((get_by_hash db h).map (fun s => s.file_size)).getD 0
    | none => 0

/-- The nested `calculate_size` of `permanent_delete_file`: for a folder,
sum over its trashed children (which runs the expiry sweep as a side
effect), otherwise the node's effective size. -/
def calcSizeGo : Nat → DB → Nat → Nat → FileMetaRec → Option (DB × Nat)
  | 0, _, _, _, _ => none
  | fuel + 1, db, user_id, now, meta =>
    if meta.is_folder then
      match get_trash_files fuel db user_id (some meta.id) now 10000 with
      | none => none
      | some r =>
        r.2.foldlM (fun (acc : DB × Nat) child =>
          (calcSizeGo fuel acc.1 user_id now child).map (fun s => (s.1, acc.2 + s.2)))
          (r.1, 0)
    else
      some (db, fileSizeOf db meta)

/-- `permanent_delete_file` (the DELETE /trash/file_id endpoint): compute
the size to free, purge the subtree, and credit the quota. -/
def permanentDeleteFile (fuel : Nat) (db : DB) (user_id file_id now : Nat) :
    Option (DB × Except ApiError Unit) :=
  match findUser db user_id with
  | none => none
  | some _user =>
    match crud_get db file_id with
    | none => some (db, .error .fileNotFound)
    | some file_meta =>
      match calcSizeGo fuel db user_id now file_meta with
      | none => none
      | some r =>
        match permRemoveGo fuel r.1 file_id user_id with
        | none => none
        | some r2 =>
          some (update_quota_used r2.1 user_id (-(r.2 : Int)), .ok ())

/-- A demonstration content digest for concrete scenarios: the length of
the byte stream in unary (collision-free on lengths, which is all the
concrete scenarios need). -/
def lenHash : List Nat → String := fun bs => String.mk (List.replicate bs.length 'x')

/-- The concatenation of the chunk temp files as read from a fixed disk
(the content `merge_chunks` hashes when every temp file is present). -/
def chunksContent (disk : List (String × List Nat)) : List FileChunkRec → Option (List Nat)
  | [] => some []
  | c :: cs =>
    match c.temp_path with
    | some p =>
      match diskGet disk p with
      | some bs => (chunksContent disk cs).map (fun r => bs ++ r)
      | none => none
    | none => none

/-- A one-user state with one configured volume and nothing stored. -/
def cexBase : DB :=
  { files := [], stores := [], chunks := [],
    users := [{ id := 1, quota_used := 0, quota_total := 1000 }],
    disk := [], storage_paths := ["vol"], next_id := 1, next_tmp := 0 }

/-! ### Parent-chain machinery

The namespace walks (`get_ancestors`, `_restore_upwards`, the cycle check
of `move`) follow parent pointers.  `parF` is the parent function induced
by the table (per owner, as every walk in the source filters on
`user_id`), `parIter` its iteration, and `AcyclicU` the absence of parent
cycles (every chain eventually falls off the table; the virtual root 0 has
no row, so chains reaching the root also escape). -/

def parF (db : DB) (user_id id : Nat) : Option Nat :=
  (db.files.find? (fun f => f.id == id && f.user_id == user_id)).map
    (fun f => f.parent_id)

def parIter (db : DB) (user_id : Nat) : Nat → Nat → Option Nat
  | 0, id => some id
  | n + 1, id =>
    match parF db user_id id with
    | none => none
    | some p => parIter db user_id n p

/-- The parent chain of `id` eventually leaves the table. -/
def escapes (db : DB) (user_id id : Nat) : Prop :=
  ∃ n, parIter db user_id n id = none

/-- No parent cycle among one owner's rows. -/
def AcyclicU (db : DB) (user_id : Nat) : Prop :=
  ∀ id, escapes db user_id id

/-! ### Upload-path events (for the dedup / reference-count invariant)

One "successful upload path" of the specification is an endpoint call that
returns a committed node: `upload_file`, `check_fast_upload` with
`can_fast_upload = true`, or `merge_chunks`. -/

inductive UploadOp
  | whole (content : List Nat) (filename : String) (parent_id : Nat)
      (relative_path : Option String) (auto_rename : Bool)
  | fastCheck (file_hash file_name : String) (parent_id : Nat)
      (relative_path : Option String) (auto_rename : Bool)
  | merge (upload_id file_name file_hash : String) (parent_id : Nat)
      (relative_path : Option String) (auto_rename : Bool)
  deriving Repr

/-- The blob hash an upload event commits under: the digest of the
uploaded bytes for the whole-file path, the claimed hash otherwise. -/
def UploadOp.opHash (hashFn : List Nat → String) : UploadOp → String
  | whole content _ _ _ _ => hashFn content
  | fastCheck h _ _ _ _ => h
  | merge _ _ h _ _ _ => h

/-- Run one upload event; `some db'` iff the endpoint committed a node. -/
def execUpload (hashFn : List Nat → String) (fuel user_id : Nat) (db : DB) :
    UploadOp → Option DB
  | .whole content fn pid rp ar =>
    match uploadFile hashFn fuel db user_id content fn pid rp ar with
    | some (db', .ok _) => some db'
    | _ => none
  | .fastCheck h fn pid rp ar =>
    match checkFastUpload fuel db user_id h fn pid rp ar with
    | some (db', .ok (true, some _)) => some db'
    | _ => none
  | .merge upid fn h pid rp ar =>
    match mergeChunks hashFn fuel db user_id upid fn h pid rp ar with
    | some (db', .ok _) => some db'
    | _ => none

/-- Run a sequence of upload events, all of which must succeed. -/
def execUploads (hashFn : List Nat → String) (fuel user_id : Nat) :
    List UploadOp → DB → Option DB
  | [], db => some db
  | op :: ops, db =>
    match execUpload hashFn fuel user_id db op with
    | none => none
    | some db' => execUploads hashFn fuel user_id ops db'

/-- The `FileStore` rows recorded for one hash. -/
def hashStores (db : DB) (h : String) : List FileStoreRec :=
  db.stores.filter (fun s => s.file_hash == h)

/-- The number of (file) nodes referencing one hash. -/
def hashNodeCount (db : DB) (h : String) : Nat :=
  (db.files.filter (fun f => !f.is_folder && f.file_hash == some h)).length

/-! ## Theorems -/

section ListLemmas

variable {α : Type}

theorem find?_map_comm (f : α → α) (p : α → Bool)
    (hf : ∀ x, p (f x) = p x) :
    ∀ l : List α, (l.map f).find? p = (l.find? p).map f := by
  intro l
  induction l with
  | nil => rfl
  | cons a t ih =>
    by_cases h : p a
    · simp [List.find?_cons, hf, h]
    · simp only [Bool.not_eq_true] at h
      simp [List.find?_cons, hf, h, ih]

theorem filter_map_comm (f : α → α) (p : α → Bool)
    (hf : ∀ x, p (f x) = p x) :
    ∀ l : List α, (l.map f).filter p = (l.filter p).map f := by
  intro l
  induction l with
  | nil => rfl
  | cons a t ih =>
    by_cases h : p a
    · simp [List.filter_cons, hf, h, ih]
    · simp only [Bool.not_eq_true] at h
      simp [List.filter_cons, hf, h, ih]

theorem find?_filter_not (p : α → Bool) (l : List α) :
    (l.filter (fun x => !(p x))).find? p = none := by
  induction l with
  | nil => rfl
  | cons a t ih =>
    by_cases h : p a
    · simp only [List.filter_cons, h, Bool.not_true]
      exact ih
    · simp only [Bool.not_eq_true] at h
      simp [List.filter_cons, h, List.find?_cons, ih]

theorem filter_eq_single_find? {p : α → Bool} {l : List α} {s : α}
    (h : l.filter p = [s]) : l.find? p = some s := by
  induction l with
  | nil => simp at h
  | cons a t ih =>
    by_cases ha : p a
    · rw [List.filter_cons_of_pos ha] at h
      obtain ⟨rfl, -⟩ := List.cons_eq_cons.mp h
      simp [List.find?_cons, ha]
    · simp only [Bool.not_eq_true] at ha
      rw [List.filter_cons_of_neg (by simp [ha])] at h
      simp [List.find?_cons, ha, ih h]

theorem filter_eq_single_pred (p : α → Bool) {l : List α} {s : α}
    (h : l.filter p = [s]) : p s = true := by
  have : s ∈ l.filter p := by rw [h]; exact List.mem_singleton.mpr rfl
  exact (List.mem_filter.mp this).2

theorem filter_not_filter_self (p : α → Bool) (l : List α) :
    (l.filter (fun x => !(p x))).filter p = [] := by
  induction l with
  | nil => rfl
  | cons a t ih =>
    by_cases h : p a
    · simp [List.filter_cons, h, ih]
    · simp only [Bool.not_eq_true] at h
      simp [List.filter_cons, h, ih]

end ListLemmas

theorem diskGet_del_self (d : List (String × List Nat)) (p : String) :
    diskGet (diskDel d p) p = none := by
  unfold diskGet diskDel
  rw [find?_filter_not (fun e => e.1 == p) d]
  rfl

/-- C3: for a stored hash with reference count `r ≥ 1`, the decrement step
of `permanent_remove` decrements the count; at zero it deletes the record
and the physical bytes and yields no record, otherwise it yields the
record with count `r - 1`. -/
theorem C3_decrement_releases_at_zero (db : DB) (h : String) (s : FileStoreRec)
    (hs : db.stores.filter (fun t => t.file_hash == h) = [s]) :
    (s.ref_count = 1 →
      (decrement_and_release db h).2 = none ∧
      (decrement_and_release db h).1.stores.filter (fun t => t.file_hash == h) = [] ∧
      diskGet (decrement_and_release db h).1.disk s.real_path = none) ∧
    (1 < s.ref_count →
      (decrement_and_release db h).2 = some { s with ref_count := s.ref_count - 1 } ∧
      (decrement_and_release db h).1.stores.filter (fun t => t.file_hash == h) =
        [{ s with ref_count := s.ref_count - 1 }]) := by
  have hps : (s.file_hash == h) = true :=
    filter_eq_single_pred (fun t : FileStoreRec => t.file_hash == h) hs
  have hf : ∀ t : FileStoreRec,
      ((if t.file_hash == h then ({ t with ref_count := t.ref_count - 1 } : FileStoreRec)
        else t).file_hash == h) = (t.file_hash == h) := by
    intro t
    by_cases ht : t.file_hash == h <;> simp [ht]
  have hfind : db.stores.find? (fun t => t.file_hash == h) = some s :=
    filter_eq_single_find? hs
  have hdec2 : (decrement_ref_count db h).2 =
      some { s with ref_count := s.ref_count - 1 } := by
    show (db.stores.map (fun t : FileStoreRec =>
        if t.file_hash == h then { t with ref_count := t.ref_count - 1 } else t)).find?
        (fun t : FileStoreRec => t.file_hash == h) = _
    rw [find?_map_comm
      (fun t : FileStoreRec =>
        if t.file_hash == h then { t with ref_count := t.ref_count - 1 } else t)
      (fun t : FileStoreRec => t.file_hash == h) hf, hfind]
    simp only [Option.map_some']
    rw [if_pos hps]
  constructor
  · intro h1
    have hle : ({ s with ref_count := s.ref_count - 1 } : FileStoreRec).ref_count ≤ 0 := by
      simp [h1]
    unfold decrement_and_release
    simp only [hdec2, hle, if_true, ite_true]
    refine ⟨?_, ?_, ?_⟩
    · exact trivial
    · exact filter_not_filter_self _ _
    · by_cases hd : (diskGet (decrement_ref_count db h).1.disk
          ({ s with ref_count := s.ref_count - 1 } : FileStoreRec).real_path).isSome
      · simp only [hd, if_pos]
        exact diskGet_del_self _ _
      · simp only [hd, Bool.false_eq_true, if_neg, not_false_iff]
        rcases hg : diskGet (decrement_ref_count db h).1.disk s.real_path with _ | v
        · rfl
        · rw [hg] at hd; simp at hd
  · intro h1
    have hgt : ¬ ({ s with ref_count := s.ref_count - 1 } : FileStoreRec).ref_count ≤ 0 := by
      simp; omega
    unfold decrement_and_release
    simp only [hdec2, hgt, if_false, ite_false]
    refine ⟨?_, ?_⟩
    · exact trivial
    show (db.stores.map _).filter _ = _
    have hs2 : db.stores.filter (fun t : FileStoreRec => t.file_hash == h) =
        [s] := hs
    rw [filter_map_comm
      (fun t : FileStoreRec =>
        if t.file_hash == h then { t with ref_count := t.ref_count - 1 } else t)
      (fun t : FileStoreRec => t.file_hash == h) hf, hs2]
    simp only [List.map_cons, List.map_nil]
    rw [if_pos hps]

/-- Witness for C3 at a concrete store with `ref_count = 2`, then `1`. -/
theorem C3_decrement_releases_at_zero_witness :
    let s2 : FileStoreRec :=
      { file_hash := "h", real_path := "vol/h", file_size := 3, ref_count := 2 }
    let db2 : DB :=
      { files := [], stores := [s2], chunks := [], users := [],
        disk := [("vol/h", [1, 2, 3])], storage_paths := ["vol"],
        next_id := 1, next_tmp := 0 }
    (decrement_and_release db2 "h").2 = some { s2 with ref_count := 1 } := by
  intro s2 db2
  have hs : db2.stores.filter (fun t => t.file_hash == "h") = [s2] := by decide
  have := (C3_decrement_releases_at_zero db2 "h" s2 hs).2 (by decide)
  exact this.1

/-- C9: re-initialising an existing chunk session with the same slot count
returns the existing slots and leaves the table unchanged; a different
count discards the session's slots and creates `total` fresh pending ones. -/
theorem C9_init_idempotent_or_reset (db : DB) (upid : String) (user_id : Nat)
    (h : String) (total : Nat)
    (hne : db.chunks.filter (fun c => c.upload_id == upid) ≠ []) :
    ((db.chunks.filter (fun c => c.upload_id == upid)).length = total →
      create_init_chunks db upid user_id h total =
        (db, db.chunks.filter (fun c => c.upload_id == upid))) ∧
    ((db.chunks.filter (fun c => c.upload_id == upid)).length ≠ total →
      create_init_chunks db upid user_id h total =
        ({ db with chunks := db.chunks.filter (fun c => !(c.upload_id == upid)) ++
            mkPendingChunks upid user_id h total },
         mkPendingChunks upid user_id h total)) ∧
    (mkPendingChunks upid user_id h total).map (fun c => c.chunk_index) =
      List.range total ∧
    ∀ c ∈ mkPendingChunks upid user_id h total, c.is_uploaded = false := by
  have hempty : (db.chunks.filter (fun c => c.upload_id == upid)).isEmpty = false := by
    rcases hc : db.chunks.filter (fun c => c.upload_id == upid) with _ | ⟨a, t⟩
    · exact absurd hc hne
    · rw [hc]; rfl
  refine ⟨?_, ?_, ?_, ?_⟩
  · intro hlen
    unfold create_init_chunks
    simp [hempty, hlen]
  · intro hlen
    unfold create_init_chunks
    have hb : ((db.chunks.filter (fun c => c.upload_id == upid)).length == total) = false := by
      simp [hlen]
    simp [hempty, hb, delete_chunks]
  · unfold mkPendingChunks
    rw [List.map_map]
    exact List.map_id _
  · intro c hc
    unfold mkPendingChunks at hc
    obtain ⟨i, -, rfl⟩ := List.mem_map.mp hc
    rfl

/-- Witness for C9 on a one-slot session re-initialised with counts 1 and 2. -/
theorem C9_init_idempotent_or_reset_witness :
    let c0 : FileChunkRec :=
      { upload_id := "u", user_id := 1, file_hash := "h", chunk_index := 0,
        chunk_size := 4, is_uploaded := true, temp_path := some "t0" }
    let db : DB :=
      { files := [], stores := [], chunks := [c0], users := [],
        disk := [], storage_paths := [], next_id := 1, next_tmp := 0 }
    create_init_chunks db "u" 1 "h" 1 = (db, [c0]) ∧
    (create_init_chunks db "u" 1 "h" 2).2 = mkPendingChunks "u" 1 "h" 2 := by
  intro c0 db
  have hne : db.chunks.filter (fun c => c.upload_id == "u") ≠ [] := by decide
  constructor
  · have := (C9_init_idempotent_or_reset db "u" 1 "h" 1 hne).1 (by decide)
    rw [this]
    decide
  · have := ((C9_init_idempotent_or_reset db "u" 1 "h" 2 hne).2.1 (by decide))
    rw [this]

/-- C7 counterexample: with no chunk session at all, a merge whose claimed
hash is the hash of the empty byte string succeeds and commits a blob
record and a node — the claim's "fails with a not-found error and no blob
or node is committed" is false for this input. -/
theorem C7_counterexample :
    mergeChunks lenHash 10 cexBase 1 "nosess" "a.txt" (lenHash []) 0 none false =
      some ({ files := [{ id := 1, user_id := 1, parent_id := 0, file_name := "a.txt",
                          is_folder := false, file_hash := some "", is_deleted := false,
                          deleted_at := none }],
              stores := [{ file_hash := "", real_path := "vol/", file_size := 0,
                           ref_count := 1 }],
              chunks := [], users := [{ id := 1, quota_used := 0, quota_total := 1000 }],
              disk := [("vol/", [])], storage_paths := ["vol"], next_id := 2,
              next_tmp := 0 },
            .ok { id := 1, user_id := 1, parent_id := 0, file_name := "a.txt",
                  is_folder := false, file_hash := some "", is_deleted := false,
                  deleted_at := none }) := by
  rfl

/-- C7 (amended): with a resolvable name, a merge fails with the
not-found error when the session is missing — unless the claimed hash is
the empty-content hash — and fails with the incomplete-upload error when a
slot is not uploaded, in both cases leaving the state unchanged; a merge
returns a node only when every slot of the session is uploaded, or the
session is absent and the claimed hash is the empty-content hash. -/
theorem C7_merge_preconditions (hashFn : List Nat → String) (fuel : Nat) (db : DB)
    (user_id : Nat) (upid file_name file_hash : String) (parent_id : Nat)
    (auto_rename : Bool) (u : UserRec) (final_name : String)
    (hu : findUser db user_id = some u)
    (hv : is_filename_valid file_name = true)
    (hres : resolveFinalName db file_name parent_id user_id auto_rename fuel =
      some (.ok final_name)) :
    (get_all_chunks db upid = [] → file_hash ≠ hashFn [] →
      mergeChunks hashFn fuel db user_id upid file_name file_hash parent_id none auto_rename =
        some (db, .error .uploadSessionNotFound)) ∧
    (∀ c, (get_all_chunks db upid).find? (fun d => !d.is_uploaded) = some c →
      mergeChunks hashFn fuel db user_id upid file_name file_hash parent_id none auto_rename =
        some (db, .error (.chunkMissing c.chunk_index))) ∧
    (∀ db' node,
      mergeChunks hashFn fuel db user_id upid file_name file_hash parent_id none auto_rename =
        some (db', .ok node) →
      (∀ c ∈ get_all_chunks db upid, c.is_uploaded = true) ∧
      (get_all_chunks db upid = [] → file_hash = hashFn [])) := by
  have h1 : get_all_chunks db upid = [] → file_hash ≠ hashFn [] →
      mergeChunks hashFn fuel db user_id upid file_name file_hash parent_id none auto_rename =
        some (db, .error .uploadSessionNotFound) := by
    intro hc hne
    unfold mergeChunks
    rw [hu]
    simp only [hv, Bool.not_true, Bool.false_eq_true, if_neg, not_false_iff]
    rw [hres]
    have hbe : (file_hash == hashFn []) = false := by
      simp [hne]
    simp only [hc, List.isEmpty_nil, hbe, Bool.not_false, Bool.and_self, if_true,
      List.find?_nil]
  have h2 : ∀ c, (get_all_chunks db upid).find? (fun d => !d.is_uploaded) = some c →
      mergeChunks hashFn fuel db user_id upid file_name file_hash parent_id none auto_rename =
        some (db, .error (.chunkMissing c.chunk_index)) := by
    intro c hfc
    have hcne : (get_all_chunks db upid).isEmpty = false := by
      rcases hg : get_all_chunks db upid with _ | ⟨a, t⟩
      · rw [hg] at hfc; simp at hfc
      · rfl
    unfold mergeChunks
    rw [hu]
    simp only [hv, Bool.not_true, Bool.false_eq_true, if_neg, not_false_iff]
    rw [hres]
    simp only [hcne, Bool.false_and, Bool.false_eq_true, if_neg, not_false_iff, hfc]
  refine ⟨h1, h2, ?_⟩
  intro db' node hok
  constructor
  · intro c hc
    by_contra hcu
    rcases hfo : (get_all_chunks db upid).find? (fun d => !d.is_uploaded) with _ | c'
    · rw [List.find?_eq_none] at hfo
      have := hfo c hc
      simp at this
      exact hcu this
    · rw [h2 c' hfo] at hok
      simp at hok
  · intro hce
    by_cases hne : file_hash = hashFn []
    · exact hne
    · rw [h1 hce hne] at hok
      simp at hok

/-- Witness for C7 (amended) at a session with one pending slot: the merge
fails with the incomplete-upload error and the state is unchanged. -/
theorem C7_merge_preconditions_witness :
    let c0 : FileChunkRec :=
      { upload_id := "u", user_id := 1, file_hash := "x", chunk_index := 0,
        chunk_size := 0, is_uploaded := false, temp_path := none }
    let db : DB := { cexBase with chunks := [c0] }
    mergeChunks lenHash 5 db 1 "u" "b.txt" "x" 0 none false =
      some (db, .error (.chunkMissing 0)) := by
  intro c0 db
  exact (C7_merge_preconditions lenHash 5 db 1 "u" "b.txt" "x" 0 false
    { id := 1, quota_used := 0, quota_total := 1000 } "b.txt"
    (by rfl) (by rfl) (by rfl)).2.1 c0 (by rfl)

theorem diskGet_set_self (d : List (String × List Nat)) (p : String) (bs : List Nat) :
    diskGet (diskSet d p bs) p = some bs := by
  simp [diskGet, diskSet, List.find?_cons]

theorem find?_filter_of_imp {α : Type} (pa q : α → Bool)
    (himp : ∀ a, pa a = true → q a = true) :
    ∀ l : List α, (l.filter q).find? pa = l.find? pa := by
  intro l
  induction l with
  | nil => rfl
  | cons a t ih =>
    by_cases hq : q a
    · by_cases hp : pa a
      · simp [List.filter_cons, hq, List.find?_cons, hp]
      · simp only [Bool.not_eq_true] at hp
        simp [List.filter_cons, hq, List.find?_cons, hp, ih]
    · have hp : pa a = false := by
        rcases hpa : pa a with _ | _
        · rfl
        · exact absurd (himp a hpa) hq
      simp only [Bool.not_eq_true] at hq
      simp [List.filter_cons, hq, List.find?_cons, hp, ih]

theorem diskGet_del_other (d : List (String × List Nat)) (p p' : String)
    (hne : p' ≠ p) : diskGet (diskDel d p) p' = diskGet d p' := by
  unfold diskGet diskDel
  have himp : ∀ a : String × List Nat, (a.1 == p') = true → (!(a.1 == p)) = true := by
    intro a ha
    have h1 : a.1 = p' := by simpa using ha
    simp [h1, hne]
  rw [find?_filter_of_imp _ _ himp d]

theorem diskGet_set_other (d : List (String × List Nat)) (p p' : String) (bs : List Nat)
    (hne : p' ≠ p) : diskGet (diskSet d p bs) p' = diskGet d p' := by
  have hb : (p == p') = false := by
    rw [beq_eq_false_iff_ne]
    exact fun h => hne h.symm
  show diskGet ((p, bs) :: diskDel d p) p' = _
  unfold diskGet
  rw [List.find?_cons]
  simp only [hb]
  exact diskGet_del_other d p p' hne

theorem diskGet_del_none (d : List (String × List Nat)) (p q : String)
    (h : diskGet d p = none) : diskGet (diskDel d q) p = none := by
  by_cases hpq : p = q
  · rw [hpq]; exact diskGet_del_self d q
  · rw [diskGet_del_other d q p hpq]; exact h

theorem chunksContent_del_stable (d : List (String × List Nat)) (p : String) :
    ∀ cs : List FileChunkRec, p ∉ cs.filterMap (fun c => c.temp_path) →
    chunksContent (diskDel d p) cs = chunksContent d cs := by
  intro cs
  induction cs with
  | nil => intro _; rfl
  | cons c t ih =>
    intro hnp
    rcases htp : c.temp_path with _ | q
    · simp [chunksContent, htp]
    · have hqp : q ≠ p := by
        intro he
        exact hnp (by simp [List.filterMap_cons, htp, he])
      have hnt : p ∉ t.filterMap (fun c => c.temp_path) := by
        intro hmem
        exact hnp (by simp [List.filterMap_cons, htp, hmem])
      simp only [chunksContent, htp]
      rw [diskGet_del_other d p q hqp, ih hnt]

theorem mergeLoop_spec (fp : String) :
    ∀ (cs : List FileChunkRec) (disk : List (String × List Nat))
      (acc content : List Nat),
    chunksContent disk cs = some content →
    (cs.filterMap (fun c => c.temp_path)).Nodup →
    mergeLoop fp cs disk acc =
      (diskSet (cs.foldl (fun d c =>
          match c.temp_path with
          | some p => diskDel d p
          | none => d) disk) fp (acc ++ content),
       acc ++ content, none) := by
  intro cs
  induction cs with
  | nil =>
    intro disk acc content hc _
    unfold chunksContent at hc
    obtain rfl := Option.some.inj hc
    simp [mergeLoop]
  | cons c t ih =>
    intro disk acc content hc hnd
    rcases htp : c.temp_path with _ | p
    · simp only [chunksContent, htp] at hc
      exact absurd hc (by simp)
    · simp only [chunksContent, htp] at hc
      rcases hg : diskGet disk p with _ | bs
      · simp only [hg] at hc
        exact absurd hc (by simp)
      · simp only [hg] at hc
        rcases hrest : chunksContent disk t with _ | rest
        · simp only [hrest, Option.map_none'] at hc
          exact absurd hc (by simp)
        · simp only [hrest, Option.map_some', Option.some.injEq] at hc
          subst hc
          have hnp : p ∉ t.filterMap (fun c => c.temp_path) := by
            rw [List.filterMap_cons, htp] at hnd
            exact (List.nodup_cons.mp hnd).1
          have hndt : (t.filterMap (fun c => c.temp_path)).Nodup := by
            rw [List.filterMap_cons, htp] at hnd
            exact (List.nodup_cons.mp hnd).2
          simp only [mergeLoop, htp, hg]
          rw [ih (diskDel disk p) (acc ++ bs) rest
            (by rw [chunksContent_del_stable disk p t hnp]; exact hrest) hndt]
          simp [List.foldl_cons, htp, List.append_assoc]

theorem foldl_del_preserve_none (cs : List FileChunkRec) :
    ∀ (d : List (String × List Nat)) (p : String), diskGet d p = none →
    diskGet (cs.foldl (fun d c =>
        match c.temp_path with
        | some q => diskDel d q
        | none => d) d) p = none := by
  induction cs with
  | nil => intro d p h; exact h
  | cons c t ih =>
    intro d p h
    rw [List.foldl_cons]
    rcases htp : c.temp_path with _ | q
    · simp only [htp]
      exact ih d p h
    · simp only [htp]
      exact ih (diskDel d q) p (diskGet_del_none d p q h)

theorem foldl_del_mem_none (cs : List FileChunkRec) :
    ∀ (d : List (String × List Nat)) (p : String),
    p ∈ cs.filterMap (fun c => c.temp_path) →
    diskGet (cs.foldl (fun d c =>
        match c.temp_path with
        | some q => diskDel d q
        | none => d) d) p = none := by
  induction cs with
  | nil => intro d p h; simp at h
  | cons c t ih =>
    intro d p h
    rw [List.foldl_cons]
    rcases htp : c.temp_path with _ | q
    · rw [List.filterMap_cons, htp] at h
      simp only [htp]
      exact ih d p h
    · rw [List.filterMap_cons, htp] at h
      simp only [htp]
      rcases List.mem_cons.mp h with rfl | hmem
      · exact foldl_del_preserve_none t (diskDel d p) p (diskGet_del_self d p)
      · exact ih (diskDel d q) p hmem

theorem crud_unique_congr (db1 db2 : DB) (user_id parent_id : Nat)
    (file_name : String) (fuel : Nat) (h : db1.files = db2.files) :
    crud_get_unique_filename db1 user_id parent_id file_name fuel =
    crud_get_unique_filename db2 user_id parent_id file_name fuel := by
  unfold crud_get_unique_filename
  rw [h]

/-- C2 (amended): when the output blob for the claimed hash is **not**
already on disk, a merge of a complete session with all temp data present
is accepted iff the hash recomputed over the concatenated chunk bytes
equals the client-claimed hash; on a mismatch the partial output is
deleted, every chunk temp file is deleted, no `FileStore` record and no
node are created, and the call fails with the integrity-mismatch error.
(When the output path already exists, the source skips recomputation and
trusts the claimed hash — see `C2_counterexample`.) -/
theorem C2_merge_verifies (hashFn : List Nat → String) (fuel : Nat) (db : DB)
    (user_id : Nat) (upid file_name file_hash : String) (parent_id : Nat)
    (auto_rename : Bool) (u : UserRec) (final_name base : String) (content : List Nat)
    (hu : findUser db user_id = some u)
    (hv : is_filename_valid file_name = true)
    (hres : resolveFinalName db file_name parent_id user_id auto_rename fuel =
      some (.ok final_name))
    (hne : get_all_chunks db upid ≠ [])
    (hall : (get_all_chunks db upid).find? (fun d => !d.is_uploaded) = none)
    (hbase : get_best_storage_path db = some base)
    (hdisk : diskGet db.disk (base ++ "/" ++ file_hash) = none)
    (hcont : chunksContent db.disk (get_all_chunks db upid) = some content)
    (hnd : ((get_all_chunks db upid).filterMap (fun c => c.temp_path)).Nodup) :
    (hashFn content ≠ file_hash →
      ∃ db2, mergeChunks hashFn fuel db user_id upid file_name file_hash parent_id
          none auto_rename =
        some (db2, .error (.hashMismatch file_hash (hashFn content))) ∧
      db2.stores = db.stores ∧ db2.files = db.files ∧ db2.chunks = db.chunks ∧
      db2.users = db.users ∧
      diskGet db2.disk (base ++ "/" ++ file_hash) = none ∧
      (∀ c ∈ get_all_chunks db upid, ∀ p, c.temp_path = some p →
        diskGet db2.disk p = none)) ∧
    (hashFn content = file_hash →
      u.quota_used + (content.length : Int) ≤ u.quota_total →
      (crud_get_unique_filename db user_id parent_id final_name fuel).isSome →
      ∃ db2 node, mergeChunks hashFn fuel db user_id upid file_name file_hash parent_id
          none auto_rename = some (db2, .ok node)) ∧
    (∀ db2 node, mergeChunks hashFn fuel db user_id upid file_name file_hash parent_id
        none auto_rename = some (db2, .ok node) →
      hashFn content = file_hash) := by
  have hcne : (get_all_chunks db upid).isEmpty = false := by
    rcases hg : get_all_chunks db upid with _ | ⟨a, t⟩
    · exact absurd hg hne
    · rfl
  have hmain : mergeChunks hashFn fuel db user_id upid file_name file_hash parent_id
      none auto_rename =
      (if (hashFn ([] ++ content) == file_hash) = true then
        mergeCommit fuel { db with disk :=
            (diskSet ((get_all_chunks db upid).foldl (fun d c =>
              match c.temp_path with
              | some p => diskDel d p
              | none => d) db.disk) (base ++ "/" ++ file_hash) ([] ++ content)) } u upid
          final_name file_hash (base ++ "/" ++ file_hash) parent_id
      else
        some ({ db with
            disk := diskDel
              (diskSet ((get_all_chunks db upid).foldl (fun d c =>
                match c.temp_path with
                | some p => diskDel d p
                | none => d) db.disk) (base ++ "/" ++ file_hash) ([] ++ content))
              (base ++ "/" ++ file_hash) },
          .error (.hashMismatch file_hash (hashFn ([] ++ content))))) := by
    unfold mergeChunks
    rw [hu]
    simp only [hv, Bool.not_true, Bool.false_eq_true, if_neg, not_false_iff]
    rw [hres]
    simp only [hcne, Bool.false_and, Bool.false_eq_true, if_neg, not_false_iff, hall]
    rw [hbase]
    simp only [hdisk, Option.isNone_none, if_true]
    rw [mergeLoop_spec (base ++ "/" ++ file_hash) (get_all_chunks db upid) db.disk []
      content hcont hnd]
    by_cases hcmp : (hashFn ([] ++ content) == file_hash) = true
    · simp only [hcmp, Bool.not_true, Bool.false_eq_true, if_neg, not_false_iff, if_true]
    · have hcmp' : (hashFn ([] ++ content) == file_hash) = false := by
        rcases hb : (hashFn ([] ++ content) == file_hash) with _ | _
        · rfl
        · exact absurd hb hcmp
      simp only [hcmp', Bool.not_false, if_true, Bool.false_eq_true, if_neg,
        not_false_iff]
  simp only [List.nil_append] at hmain
  have hid : u.id = user_id := by
    have := List.find?_some hu
    simpa using this
  have part1 : hashFn content ≠ file_hash →
      ∃ db2, mergeChunks hashFn fuel db user_id upid file_name file_hash parent_id
          none auto_rename =
        some (db2, .error (.hashMismatch file_hash (hashFn content))) ∧
      db2.stores = db.stores ∧ db2.files = db.files ∧ db2.chunks = db.chunks ∧
      db2.users = db.users ∧
      diskGet db2.disk (base ++ "/" ++ file_hash) = none ∧
      (∀ c ∈ get_all_chunks db upid, ∀ p, c.temp_path = some p →
        diskGet db2.disk p = none) := by
    intro hmis
    have hcmp' : (hashFn content == file_hash) = false := by
      rw [beq_eq_false_iff_ne]
      exact hmis
    rw [hmain, if_neg (by simp [hcmp'])]
    refine ⟨_, rfl, rfl, rfl, rfl, rfl, ?_, ?_⟩
    · exact diskGet_del_self _ _
    · intro c hc p hp
      by_cases hpf : p = base ++ "/" ++ file_hash
      · subst hpf
        exact diskGet_del_self _ _
      · show diskGet (diskDel (diskSet _ (base ++ "/" ++ file_hash) content)
          (base ++ "/" ++ file_hash)) p = none
        rw [diskGet_del_other _ _ _ hpf, diskGet_set_other _ _ _ _ hpf]
        exact foldl_del_mem_none _ _ _ (List.mem_filterMap.mpr ⟨c, hc, hp⟩)
  refine ⟨part1, ?_, ?_⟩
  · intro heq hq hname
    have hcmp : (hashFn content == file_hash) = true := beq_iff_eq.mpr heq
    rw [hmain, if_pos hcmp]
    set dbX : DB := { db with
      disk := diskSet ((get_all_chunks db upid).foldl (fun d c =>
        match c.temp_path with
        | some p => diskDel d p
        | none => d) db.disk) (base ++ "/" ++ file_hash) content } with hdbX
    obtain ⟨uname, hun⟩ := Option.isSome_iff_exists.mp hname
    unfold mergeCommit
    have hsz : diskGet dbX.disk (base ++ "/" ++ file_hash) = some content := by
      rw [hdbX]
      exact diskGet_set_self _ _ _
    simp only [hsz, Option.getD_some]
    have hqn : ¬ (u.quota_used + (content.length : Int) > u.quota_total) := by omega
    rw [if_neg hqn]
    rcases hgb : get_by_hash dbX file_hash with _ | s
    · simp only [hgb]
      have hany : (dbX.stores.any (fun s => s.file_hash == file_hash)) = false := by
        rw [List.any_eq_false]
        intro x hx
        have := List.find?_eq_none.mp hgb x hx
        simpa using this
      have hcfs : (create_file_store dbX file_hash (base ++ "/" ++ file_hash)
          content.length).1.files = db.files := by
        unfold create_file_store
        rw [hgb, hany]
        rfl
      unfold create_with_user
      rw [crud_unique_congr (create_file_store dbX file_hash (base ++ "/" ++ file_hash)
        content.length).1 db u.id parent_id final_name fuel hcfs, hid, hun]
      exact ⟨_, _, rfl⟩
    · simp only [hgb]
      have hinc : (increment_ref_count dbX file_hash).1.files = db.files := rfl
      unfold create_with_user
      rw [crud_unique_congr (increment_ref_count dbX file_hash).1 db u.id parent_id
        final_name fuel hinc, hid, hun]
      exact ⟨_, _, rfl⟩
  · intro db2 node hok
    by_cases heq2 : hashFn content = file_hash
    · exact heq2
    · exfalso
      obtain ⟨dbx, hmerge, -⟩ := part1 heq2
      rw [hmerge] at hok
      simp at hok

/-- C2 counterexample: the blob file for the claimed hash "h1" is already
on disk, so the merge never recomputes the hash: it is accepted although
the concatenated chunk bytes hash to `lenHash [9, 9] ≠ "h1"`, refuting the
"accepted if and only if" claim. -/
theorem C2_counterexample :
    mergeChunks lenHash 10
      { cexBase with
        chunks := [{ upload_id := "u", user_id := 1, file_hash := "h1",
                     chunk_index := 0, chunk_size := 2, is_uploaded := true,
                     temp_path := some "t0" }]
        disk := [("t0", [9, 9]), ("vol/h1", [1])] }
      1 "u" "c.bin" "h1" 0 none false =
      some ({ files := [{ id := 1, user_id := 1, parent_id := 0, file_name := "c.bin",
                          is_folder := false, file_hash := some "h1", is_deleted := false,
                          deleted_at := none }],
              stores := [{ file_hash := "h1", real_path := "vol/h1", file_size := 1,
                           ref_count := 1 }],
              chunks := [], users := [{ id := 1, quota_used := 1, quota_total := 1000 }],
              disk := [("vol/h1", [1])], storage_paths := ["vol"], next_id := 2,
              next_tmp := 0 },
            .ok { id := 1, user_id := 1, parent_id := 0, file_name := "c.bin",
                  is_folder := false, file_hash := some "h1", is_deleted := false,
                  deleted_at := none }) ∧
    lenHash [9, 9] ≠ "h1" := by
  constructor
  · rfl
  · decide

/-- Witness for C2 (amended) at a one-chunk session whose bytes do not
match the claimed hash, with no blob on disk: the merge fails with the
integrity error and creates no store record and no node. -/
theorem C2_merge_verifies_witness :
    let db : DB := { cexBase with
      chunks := [{ upload_id := "u", user_id := 1, file_hash := "h1",
                   chunk_index := 0, chunk_size := 2, is_uploaded := true,
                   temp_path := some "t0" }]
      disk := [("t0", [9, 9])] }
    ∃ db2, mergeChunks lenHash 6 db 1 "u" "c.bin" "h1" 0 none false =
        some (db2, .error (.hashMismatch "h1" (lenHash [9, 9]))) ∧
      db2.stores = db.stores ∧ db2.files = db.files := by
  intro db
  obtain ⟨db2, hm, hs, hf, -⟩ :=
    (C2_merge_verifies lenHash 6 db 1 "u" "c.bin" "h1" 0 false
      { id := 1, quota_used := 0, quota_total := 1000 } "c.bin" "vol" [9, 9]
      rfl rfl rfl (by decide) rfl rfl rfl rfl (by decide)).1 (by decide)
  exact ⟨db2, hm, hs, hf⟩


theorem parIter_one (db : DB) (user_id w : Nat) :
    parIter db user_id 1 w = parF db user_id w := by
  rcases h : parF db user_id w with _ | p <;> simp [parIter, h]

theorem parIter_add (db : DB) (user_id : Nat) :
    ∀ (m n id : Nat), parIter db user_id (m + n) id =
      (parIter db user_id m id).bind (fun w => parIter db user_id n w) := by
  intro m
  induction m with
  | zero =>
    intro n id
    rw [Nat.zero_add]
    rfl
  | succ k ih =>
    intro n id
    have harith : (k + 1) + n = (k + n) + 1 := by omega
    rw [harith]
    rcases h : parF db user_id id with _ | p
    · show (match parF db user_id id with
        | none => none
        | some p => parIter db user_id (k + n) p) = _
      rw [h]
      have : parIter db user_id (k + 1) id = none := by
        show (match parF db user_id id with
          | none => none
          | some p => parIter db user_id k p) = none
        rw [h]
      rw [this]
      rfl
    · show (match parF db user_id id with
        | none => none
        | some q => parIter db user_id (k + n) q) = _
      rw [h]
      have h2 : parIter db user_id (k + 1) id = parIter db user_id k p := by
        show (match parF db user_id id with
          | none => none
          | some q => parIter db user_id k q) = _
        rw [h]
      rw [h2]
      exact ih n p

theorem parIter_succ_tail (db : DB) (user_id : Nat) (n id : Nat) :
    parIter db user_id (n + 1) id =
      (parIter db user_id n id).bind (fun w => parF db user_id w) := by
  rw [parIter_add db user_id n 1 id]
  rcases h : parIter db user_id n id with _ | w
  · rfl
  · simp only [Option.some_bind]
    exact parIter_one db user_id w

theorem parIter_step (db : DB) (user_id : Nat) (n id p : Nat)
    (h : parF db user_id id = some p) :
    parIter db user_id (n + 1) id = parIter db user_id n p := by
  show (match parF db user_id id with
    | none => none
    | some q => parIter db user_id n q) = _
  rw [h]

theorem parIter_step_none (db : DB) (user_id : Nat) (n id : Nat)
    (h : parF db user_id id = none) :
    parIter db user_id (n + 1) id = none := by
  show (match parF db user_id id with
    | none => none
    | some q => parIter db user_id n q) = none
  rw [h]

theorem ancestorsGo_any (db : DB) (user_id : Nat)
    (hnz : ∀ f ∈ db.files, f.id ≠ 0) :
    ∀ (fuel start : Nat) (l : List FileMetaRec) (z : Nat),
    ancestorsGo fuel db start user_id = some l →
    (l.any (fun f => f.id == z) = true ↔
      ∃ n, parIter db user_id n start = some z ∧
        (db.files.find? (fun f => f.id == z && f.user_id == user_id)).isSome) := by
  intro fuel
  induction fuel with
  | zero =>
    intro start l z h
    exact absurd h (by simp [ancestorsGo])
  | succ m ih =>
    intro start l z h
    by_cases h0 : (start == 0) = true
    · rw [ancestorsGo, if_pos h0] at h
      obtain rfl := (Option.some.inj h).symm
      simp only [List.any_nil, Bool.false_eq_true, false_iff]
      rintro ⟨n, hn, hrow⟩
      have hz0 : start = 0 := by simpa using h0
      subst hz0
      rcases n with _ | k
      · simp only [parIter] at hn
        obtain rfl := Option.some.inj hn
        rcases hf : db.files.find? (fun f => f.id == 0 && f.user_id == user_id) with _ | f
        · rw [hf] at hrow; simp at hrow
        · have hmem := List.mem_of_find?_eq_some hf
          have hpred := List.find?_some hf
          have : f.id = 0 := by
            have := (Bool.and_eq_true _ _).mp hpred
            simpa using this.1
          exact hnz f hmem this
      · have hpf : parF db user_id 0 = none := by
          unfold parF
          rcases hf : db.files.find? (fun f => f.id == 0 && f.user_id == user_id) with _ | f
          · rw [hf]; rfl
          · exfalso
            have hmem := List.mem_of_find?_eq_some hf
            have hpred := List.find?_some hf
            have : f.id = 0 := by
              have := (Bool.and_eq_true _ _).mp hpred
              simpa using this.1
            exact hnz f hmem this
        rw [parIter_step_none db user_id k 0 hpf] at hn
        exact absurd hn (by simp)
    · rw [ancestorsGo, if_neg (by simpa using h0)] at h
      rcases hfind : db.files.find? (fun f => f.id == start && f.user_id == user_id)
        with _ | folder
      · simp only [hfind] at h
        obtain rfl := (Option.some.inj h).symm
        simp only [List.any_nil, Bool.false_eq_true, false_iff]
        rintro ⟨n, hn, hrow⟩
        rcases n with _ | k
        · simp only [parIter] at hn
          obtain rfl := Option.some.inj hn
          rw [hfind] at hrow
          simp at hrow
        · have hpf : parF db user_id start = none := by
            unfold parF
            rw [hfind]
            rfl
          rw [parIter_step_none db user_id k start hpf] at hn
          exact absurd hn (by simp)
      · simp only [hfind] at h
        rcases hrec : ancestorsGo m db folder.parent_id user_id with _ | l'
        · rw [hrec] at h
          exact absurd h (by simp)
        · rw [hrec] at h
          simp only [Option.map_some', Option.some.injEq] at h
          subst h
          have hsid : folder.id = start := by
            have hpred := List.find?_some hfind
            have := (Bool.and_eq_true _ _).mp hpred
            simpa using this.1
          have hpf : parF db user_id start = some folder.parent_id := by
            unfold parF
            rw [hfind]
            rfl
          rw [List.any_append]
          constructor
          · intro hor
            rcases Bool.or_eq_true_iff.mp hor with hl' | hself
            · obtain ⟨n, hn, hrow⟩ := (ih folder.parent_id l' z hrec).mp hl'
              refine ⟨n + 1, ?_, hrow⟩
              rw [parIter_step db user_id n start folder.parent_id hpf]
              exact hn
            · have hz : folder.id = z := by
                simp only [List.any_cons, List.any_nil, Bool.or_false] at hself
                simpa using hself
              refine ⟨0, by simp [parIter, ← hz, hsid], ?_⟩
              rw [← hz, hsid, hfind]
              rfl
          · rintro ⟨n, hn, hrow⟩
            rcases n with _ | k
            · simp only [parIter] at hn
              obtain rfl := Option.some.inj hn
              apply Bool.or_eq_true_iff.mpr
              right
              simp [hsid]
            · rw [parIter_step db user_id k start folder.parent_id hpf] at hn
              apply Bool.or_eq_true_iff.mpr
              left
              exact (ih folder.parent_id l' z hrec).mpr ⟨k, hn, hrow⟩


theorem findFile_updFile (db : DB) (upd_id q user_id : Nat) (g : FileMetaRec → FileMetaRec)
    (hg : ∀ f, (g f).id = f.id ∧ (g f).user_id = f.user_id) :
    findFile (updFile db upd_id g) q user_id =
      (findFile db q user_id).map (fun f => if f.id == upd_id then g f else f) := by
  unfold findFile updFile
  exact find?_map_comm _ _ (by
    intro x
    by_cases hx : x.id == upd_id
    · simp [hx, (hg x).1, (hg x).2]
    · simp only [Bool.not_eq_true] at hx
      simp [hx]) db.files

theorem parF_updFile (db : DB) (upd_id user_id : Nat) (g : FileMetaRec → FileMetaRec)
    (hg : ∀ f, (g f).id = f.id ∧ (g f).user_id = f.user_id) (w : Nat) :
    parF (updFile db upd_id g) user_id w =
      ((db.files.find? (fun f => f.id == w && f.user_id == user_id)).map
        (fun f => if f.id == upd_id then (g f).parent_id else f.parent_id)) := by
  unfold parF updFile
  rw [find?_map_comm (fun f => if f.id == upd_id then g f else f)
    (fun f => f.id == w && f.user_id == user_id) (by
      intro x
      by_cases hx : x.id == upd_id
      · simp [hx, (hg x).1, (hg x).2]
      · simp only [Bool.not_eq_true] at hx
        simp [hx]) db.files]
  rcases h : db.files.find? (fun f => f.id == w && f.user_id == user_id) with _ | f
  · rw [h]; rfl
  · rw [h]
    simp only [Option.map_some']
    by_cases hx : f.id == upd_id
    · simp [hx]
    · simp only [Bool.not_eq_true] at hx
      simp [hx]

theorem parIter_congr_avoid (dbA dbB : DB) (user_id x : Nat)
    (hother : ∀ w, w ≠ x → parF dbB user_id w = parF dbA user_id w) :
    ∀ n w, (∀ m, m < n → ∀ p, parIter dbA user_id m w = some p → p ≠ x) →
    parIter dbB user_id n w = parIter dbA user_id n w := by
  intro n
  induction n with
  | zero => intro w _; rfl
  | succ k ih =>
    intro w havoid
    rw [parIter_succ_tail, parIter_succ_tail]
    have hk : parIter dbB user_id k w = parIter dbA user_id k w :=
      ih w (fun m hm p hp => havoid m (by omega) p hp)
    rw [hk]
    rcases hp : parIter dbA user_id k w with _ | p
    · rfl
    · simp only [Option.some_bind]
      exact hother p (havoid k (by omega) p hp)


theorem acyclic_updFile_move (db : DB) (user_id id target : Nat) (uname : String)
    (obj : FileMetaRec)
    (hobj : findFile db id user_id = some obj)
    (hacy : AcyclicU db user_id)
    (hnb : ∀ n, parIter db user_id n target ≠ some id) :
    AcyclicU (updFile db id (fun f =>
      { f with parent_id := target, file_name := uname })) user_id := by
  set dbB := updFile db id (fun f =>
    { f with parent_id := target, file_name := uname }) with hdbB
  have hg : ∀ f : FileMetaRec,
      ((fun f : FileMetaRec => { f with parent_id := target, file_name := uname }) f).id = f.id ∧
      ((fun f : FileMetaRec => { f with parent_id := target, file_name := uname }) f).user_id
        = f.user_id := by
    intro f
    exact ⟨rfl, rfl⟩
  have hother : ∀ w, w ≠ id → parF dbB user_id w = parF db user_id w := by
    intro w hw
    rw [hdbB, parF_updFile db id user_id _ hg w]
    unfold parF
    rcases h : db.files.find? (fun f => f.id == w && f.user_id == user_id) with _ | f
    · rw [h]; rfl
    · rw [h]
      simp only [Option.map_some']
      have hfw : f.id = w := by
        have hp := List.find?_some h
        have := (Bool.and_eq_true _ _).mp hp
        simpa using this.1
      have : (f.id == id) = false := by
        simp [hfw, hw]
      simp [this]
  have hself : parF dbB user_id id = some target := by
    rw [hdbB, parF_updFile db id user_id _ hg id]
    unfold findFile at hobj
    rw [hobj]
    have hoid : obj.id = id := by
      have hp := List.find?_some hobj
      have := (Bool.and_eq_true _ _).mp hp
      simpa using this.1
    simp [hoid]
  intro z
  by_cases hx : ∃ k, parIter dbB user_id k z = some id
  · have k := Nat.find hx
    have hk : parIter dbB user_id (Nat.find hx) z = some id := Nat.find_spec hx
    have hstep : parIter dbB user_id (Nat.find hx + 1) z = some target := by
      rw [parIter_succ_tail, hk]
      simp only [Option.some_bind]
      exact hself
    have htar : ∀ n, parIter dbB user_id n target = parIter db user_id n target := by
      intro n
      exact parIter_congr_avoid db dbB user_id id hother n target
        (fun m _ p hp => by
          intro hpid
          exact hnb m (by rw [← hpid]; exact hp))
    obtain ⟨N, hN⟩ := hacy target
    refine ⟨(Nat.find hx + 1) + N, ?_⟩
    rw [parIter_add, hstep]
    simp only [Option.some_bind]
    rw [htar N]
    exact hN
  · push_neg at hx
    have htrans : ∀ n, parIter db user_id n z = parIter dbB user_id n z := by
      intro n
      exact parIter_congr_avoid dbB db user_id id
        (fun w hw => (hother w hw).symm) n z
        (fun m _ p hp => by
          intro hpid
          exact hx m (by rw [← hpid]; exact hp))
    obtain ⟨N, hN⟩ := hacy z
    exact ⟨N, by rw [← htrans N]; exact hN⟩


/-- C5 (amended): for a **folder** node `x`, `move` refuses (returning the
unchanged state and `None`) iff the target's parent chain contains `x`
(that is, the target equals `x` or is a descendant of `x`); otherwise it
reparents `x` under the target with the uniquified name, and the
parent-pointer graph stays acyclic.  File nodes are reparented without any
check (see `C5_counterexample`). -/
theorem C5_move_cycle_iff (fuel : Nat) (db : DB) (id target user_id : Nat)
    (obj : FileMetaRec) (l : List FileMetaRec) (uname : String)
    (hobj : findFile db id user_id = some obj)
    (hfold : obj.is_folder = true)
    (hnz : ∀ f ∈ db.files, f.id ≠ 0)
    (hanc : ancestorsGo fuel db target user_id = some l)
    (hun : crud_get_unique_filename db user_id target obj.file_name fuel = some uname) :
    (moveOp fuel db id target user_id = some (db, none) ↔
      ∃ n, parIter db user_id n target = some id) ∧
    ((¬ ∃ n, parIter db user_id n target = some id) →
      moveOp fuel db id target user_id =
        some (updFile db id (fun f : FileMetaRec =>
            { f with parent_id := target, file_name := uname }),
          some { obj with parent_id := target, file_name := uname }) ∧
      (AcyclicU db user_id →
        AcyclicU (updFile db id (fun f : FileMetaRec =>
          { f with parent_id := target, file_name := uname })) user_id)) := by
  have hoid : obj.id = id := by
    have hp := List.find?_some hobj
    have := (Bool.and_eq_true _ _).mp hp
    simpa using this.1
  have hrow : (db.files.find? (fun f => f.id == id && f.user_id == user_id)).isSome := by
    unfold findFile at hobj
    rw [hobj]
    rfl
  have hiff := ancestorsGo_any db user_id hnz fuel target l id hanc
  have hg : ∀ f : FileMetaRec,
      ((fun f : FileMetaRec => { f with parent_id := target, file_name := uname }) f).id
        = f.id ∧
      ((fun f : FileMetaRec => { f with parent_id := target, file_name := uname }) f).user_id
        = f.user_id := fun f => ⟨rfl, rfl⟩
  by_cases hany : l.any (fun a => a.id == id) = true
  · have hex : ∃ n, parIter db user_id n target = some id := by
      obtain ⟨n, hn, -⟩ := hiff.mp hany
      exact ⟨n, hn⟩
    have hres : moveOp fuel db id target user_id = some (db, none) := by
      unfold moveOp
      rw [hobj]
      simp only [hfold, if_true, hanc, Option.map_some', hany]
    exact ⟨by constructor <;> intro _ <;> [exact hex; exact hres],
      fun hno => absurd hex hno⟩
  · have hnotex : ¬ ∃ n, parIter db user_id n target = some id := by
      rintro ⟨n, hn⟩
      exact hany (hiff.mpr ⟨n, hn, hrow⟩)
    have hany' : l.any (fun a => a.id == id) = false := by
      rcases hb : l.any (fun a => a.id == id) with _ | _
      · rfl
      · exact absurd hb hany
    have hres : moveOp fuel db id target user_id =
        some (updFile db id (fun f : FileMetaRec =>
          { f with parent_id := target, file_name := uname }),
          some { obj with parent_id := target, file_name := uname }) := by
      unfold moveOp
      rw [hobj]
      simp only [hfold, if_true, hanc, Option.map_some', hany', hun]
      rw [findFile_updFile db id id user_id _ hg, hobj]
      simp only [Option.map_some']
      have : (obj.id == id) = true := by simp [hoid]
      simp [this, hfold]
    refine ⟨?_, fun _ => ⟨hres, fun hacy => ?_⟩⟩
    · constructor
      · intro heq
        rw [hres] at heq
        simp at heq
      · intro hex
        exact absurd hex hnotex
    · exact acyclic_updFile_move db user_id id target uname obj hobj hacy
        (fun n hn => hnotex ⟨n, hn⟩)


/-- C5 counterexample: moving a **file** into itself is not rejected: the
claim requires `Move(x, x)` to fail with `CyclicMove`, but the source only
runs the ancestor check for folders, so the move succeeds and creates a
self-referential parent pointer (a cycle). -/
theorem C5_counterexample :
    moveOp 10
      { cexBase with
        files := [{ id := 1, user_id := 1, parent_id := 0, file_name := "f.txt",
                    is_folder := false, file_hash := none, is_deleted := false,
                    deleted_at := none }]
        next_id := 2 } 1 1 1 =
      some ({ cexBase with
          files := [{ id := 1, user_id := 1, parent_id := 1, file_name := "f.txt",
                      is_folder := false, file_hash := none, is_deleted := false,
                      deleted_at := none }]
          next_id := 2 },
        some { id := 1, user_id := 1, parent_id := 1, file_name := "f.txt",
               is_folder := false, file_hash := none, is_deleted := false,
               deleted_at := none }) := by
  rfl

/-- Witness for C5 (amended): a folder under the root moved into its own
child is refused, and moved under the root it succeeds. -/
theorem C5_move_cycle_iff_witness :
    let fA : FileMetaRec :=
      { id := 1, user_id := 1, parent_id := 0, file_name := "A", is_folder := true,
        file_hash := none, is_deleted := false, deleted_at := none }
    let fB : FileMetaRec :=
      { id := 2, user_id := 1, parent_id := 1, file_name := "B", is_folder := true,
        file_hash := none, is_deleted := false, deleted_at := none }
    let db : DB := { cexBase with files := [fA, fB], next_id := 3 }
    moveOp 10 db 1 2 1 = some (db, none) := by
  intro fA fB db
  exact ((C5_move_cycle_iff 10 db 1 2 1 fA [fA, fB] "A" rfl rfl
      (by intro f hf; fin_cases hf <;> decide) rfl rfl).1).mpr
    ⟨1, by decide⟩


end SkyDrive

namespace SkyDrive

theorem filter_nil_find? {α : Type} {p : α → Bool} {l : List α}
    (h : l.filter p = []) : l.find? p = none := by
  induction l with
  | nil => rfl
  | cons a t ih =>
    by_cases ha : p a
    · rw [List.filter_cons_of_pos ha] at h
      simp at h
    · simp only [Bool.not_eq_true] at ha
      rw [List.filter_cons_of_neg (by simp [ha])] at h
      simp [List.find?_cons, ha, ih h]

theorem hashStores_increment (db : DB) (h : String) :
    hashStores (increment_ref_count db h).1 h =
      (hashStores db h).map (fun s => { s with ref_count := s.ref_count + 1 }) := by
  unfold hashStores increment_ref_count
  simp only
  rw [filter_map_comm
    (fun s : FileStoreRec =>
      if s.file_hash == h then { s with ref_count := s.ref_count + 1 } else s)
    (fun s : FileStoreRec => s.file_hash == h)
    (by
      intro t
      by_cases ht : t.file_hash == h <;> simp [ht]) db.stores]
  apply List.map_congr_left
  intro s hs
  have := (List.mem_filter.mp hs).2
  simp [this]

theorem increment_files (db : DB) (h : String) :
    (increment_ref_count db h).1.files = db.files := rfl

theorem hashStores_create (db : DB) (h path : String) (size : Nat)
    (hnil : hashStores db h = []) :
    hashStores (create_file_store db h path size).1 h =
      [{ file_hash := h, real_path := path, file_size := size, ref_count := 1 }] := by
  have hfind : db.stores.find? (fun s => s.file_hash == h) = none :=
    filter_nil_find? hnil
  have hany : (db.stores.any (fun s => s.file_hash == h)) = false := by
    rw [List.any_eq_false]
    intro x hx
    have := List.find?_eq_none.mp hfind x hx
    simpa using this
  unfold create_file_store get_by_hash
  rw [hfind, hany]
  simp only [Bool.false_eq_true, if_neg, not_false_iff]
  unfold hashStores
  simp only
  rw [List.filter_append]
  unfold hashStores at hnil
  rw [hnil]
  simp

theorem create_files (db : DB) (h path : String) (size : Nat)
    (hnil : hashStores db h = []) :
    (create_file_store db h path size).1.files = db.files := by
  have hfind : db.stores.find? (fun s => s.file_hash == h) = none :=
    filter_nil_find? hnil
  have hany : (db.stores.any (fun s => s.file_hash == h)) = false := by
    rw [List.any_eq_false]
    intro x hx
    have := List.find?_eq_none.mp hfind x hx
    simpa using this
  unfold create_file_store get_by_hash
  rw [hfind, hany]
  simp

theorem create_with_user_effects (db : DB) (obj : FileMetaCreate) (user_id fuel : Nat)
    (db' : DB) (node : FileMetaRec)
    (hok : create_with_user db obj user_id fuel = some (db', node)) :
    db'.stores = db.stores ∧ db'.users = db.users ∧ db'.disk = db.disk ∧
    db'.files = db.files ++ [node] ∧ node.is_folder = obj.is_folder ∧
    node.file_hash = obj.file_hash := by
  unfold create_with_user at hok
  rcases hu : crud_get_unique_filename db user_id obj.parent_id obj.file_name fuel
    with _ | uname
  · rw [hu] at hok; exact absurd hok (by simp)
  · rw [hu] at hok
    simp only [Option.some.injEq, Prod.mk.injEq] at hok
    obtain ⟨hdb, hnode⟩ := hok
    subst hdb
    subst hnode
    exact ⟨rfl, rfl, rfl, rfl, rfl, rfl⟩

theorem update_quota_tables (db : DB) (user_id : Nat) (d : Int) :
    (update_quota_used db user_id d).stores = db.stores ∧
    (update_quota_used db user_id d).files = db.files := ⟨rfl, rfl⟩

theorem hashNodeCount_append (db db' : DB) (node : FileMetaRec) (h : String)
    (hf : db'.files = db.files ++ [node])
    (hn : node.is_folder = false) (hh : node.file_hash = some h) :
    hashNodeCount db' h = hashNodeCount db h + 1 := by
  unfold hashNodeCount
  rw [hf, List.filter_append]
  simp [hn, hh]

theorem hashNodeCount_append_other (db db' : DB) (node : FileMetaRec) (h : String)
    (hf : db'.files = db.files ++ [node])
    (hn : node.is_folder = true) :
    hashNodeCount db' h = hashNodeCount db h := by
  unfold hashNodeCount
  rw [hf, List.filter_append]
  simp [hn]

end SkyDrive

namespace SkyDrive

theorem resolveSegment_effects (db : DB) (uid cp : Nat) (seg : String) :
    (resolveSegment db uid cp seg).1.stores = db.stores ∧
    (resolveSegment db uid cp seg).1.users = db.users ∧
    (resolveSegment db uid cp seg).1.disk = db.disk ∧
    (resolveSegment db uid cp seg).1.storage_paths = db.storage_paths ∧
    (resolveSegment db uid cp seg).1.chunks = db.chunks ∧
    ∀ h, hashNodeCount (resolveSegment db uid cp seg).1 h = hashNodeCount db h := by
  unfold resolveSegment
  rcases hf : db.files.find? (fun f => f.user_id == uid && f.parent_id == cp &&
      f.file_name == seg && f.is_folder && !f.is_deleted) with _ | folder
  · rw [hf]
    simp only
    have hfil : db.files.filter (fun f => f.user_id == uid && f.parent_id == cp &&
        f.file_name == seg && f.is_folder && !f.is_deleted) = [] := by
      rcases hl : db.files.filter (fun f => f.user_id == uid && f.parent_id == cp &&
          f.file_name == seg && f.is_folder && !f.is_deleted) with _ | ⟨a, t⟩
      · exact hl
      · exfalso
        have ha : a ∈ db.files ∧ _ := List.mem_filter.mp (by rw [hl]; exact List.mem_cons_self a t)
        have := List.find?_eq_none.mp hf a ha.1
        exact this ha.2
    rw [List.filter_append, hfil]
    simp only [List.nil_append, List.filter_cons, List.filter_nil]
    have hself : ((fun f : FileMetaRec => f.user_id == uid && f.parent_id == cp &&
        f.file_name == seg && f.is_folder && !f.is_deleted)
        { id := db.next_id, user_id := uid, parent_id := cp, file_name := seg,
          is_folder := true, file_hash := none, is_deleted := false,
          deleted_at := none }) = true := by
      simp
    rw [if_pos hself]
    simp only [List.isEmpty_nil, if_true]
    refine ⟨by trivial, by trivial, by trivial, by trivial, by trivial, ?_⟩
    intro h
    exact hashNodeCount_append_other db _ _ h rfl rfl
  · rw [hf]
    exact ⟨by trivial, by trivial, by trivial, by trivial, by trivial,
      fun h => by trivial⟩

theorem gocp_effects (db : DB) (uid pid : Nat) (rp : String) :
    (get_or_create_path db uid pid rp).1.stores = db.stores ∧
    (get_or_create_path db uid pid rp).1.users = db.users ∧
    (get_or_create_path db uid pid rp).1.disk = db.disk ∧
    (get_or_create_path db uid pid rp).1.storage_paths = db.storage_paths ∧
    (get_or_create_path db uid pid rp).1.chunks = db.chunks ∧
    ∀ h, hashNodeCount (get_or_create_path db uid pid rp).1 h = hashNodeCount db h := by
  unfold get_or_create_path
  generalize (rp.splitOn "/").dropLast = parts
  induction parts generalizing db pid with
  | nil => exact ⟨rfl, rfl, rfl, rfl, rfl, fun h => rfl⟩
  | cons seg rest ih =>
    rw [List.foldl_cons]
    by_cases hs : (seg == "") = true
    · simp only [hs, if_true]
      exact ih db pid
    · have hs' : (seg == "") = false := by
        rcases hb : (seg == "") with _ | _
        · rfl
        · exact absurd hb hs
      simp only [hs', Bool.false_eq_true, if_neg, not_false_iff]
      obtain ⟨h1, h2, h3, h4, h5, h6⟩ :=
        resolveSegment_effects db uid pid seg
      obtain ⟨g1, g2, g3, g4, g5, g6⟩ :=
        ih (resolveSegment db uid pid seg).1 (resolveSegment db uid pid seg).2
      refine ⟨?_, ?_, ?_, ?_, ?_, ?_⟩
      · rw [g1, h1]
      · rw [g2, h2]
      · rw [g3, h3]
      · rw [g4, h4]
      · rw [g5, h5]
      · intro h
        rw [g6 h, h6 h]

end SkyDrive

namespace SkyDrive

theorem find?_none_filter_nil {α : Type} {p : α → Bool} {l : List α}
    (h : l.find? p = none) : l.filter p = [] := by
  rw [List.filter_eq_nil_iff]
  intro a ha
  have := List.find?_eq_none.mp h a ha
  simpa using this

theorem finishUpload_ok (db : DB) (uid : Nat) (fn : String) (pid : Nat)
    (h : String) (size fuel : Nat) (db' : DB) (node : FileMetaRec)
    (hok : finishUpload db uid fn pid h size fuel = some (db', .ok node)) :
    db'.stores = db.stores ∧ db'.files = db.files ++ [node] ∧
    node.is_folder = false ∧ node.file_hash = some h := by
  unfold finishUpload at hok
  rcases hc : create_with_user db ⟨fn, false, pid, some h⟩ uid fuel with _ | r
  · rw [hc] at hok
    exact absurd hok (by simp)
  · rw [hc] at hok
    simp only [Option.some.injEq, Prod.mk.injEq] at hok
    obtain ⟨hdb, hnode⟩ := hok
    obtain ⟨r1, r2⟩ := r
    obtain ⟨e1, e2, e3, e4, e5, e6⟩ := create_with_user_effects db _ uid fuel r1 r2 hc
    obtain rfl : r2 = node := Except.ok.inj hnode
    subst hdb
    refine ⟨?_, ?_, ?_, ?_⟩
    · rw [(update_quota_tables r1 uid _).1, e1]
    · rw [(update_quota_tables r1 uid _).2, e4]
    · rw [e5]
    · rw [e6]

end SkyDrive

namespace SkyDrive

theorem uploadFile_ok_counts_none (hashFn : List Nat → String) (fuel : Nat) (db : DB)
    (user_id : Nat) (content : List Nat) (fn : String) (pid : Nat) (ar : Bool)
    (db' : DB) (node : FileMetaRec)
    (hok : uploadFile hashFn fuel db user_id content fn pid none ar =
      some (db', .ok node)) :
    (hashStores db (hashFn content) = [] →
      ∃ s, hashStores db' (hashFn content) = [s] ∧ s.ref_count = 1) ∧
    (∀ s0, hashStores db (hashFn content) = [s0] →
      hashStores db' (hashFn content) =
        [{ s0 with ref_count := s0.ref_count + 1 }]) ∧
    hashNodeCount db' (hashFn content) = hashNodeCount db (hashFn content) + 1 := by
  unfold uploadFile at hok
  rcases hu : findUser db user_id with _ | user
  · rw [hu] at hok
    exact absurd hok (by simp)
  · rw [hu] at hok
    simp only at hok
    by_cases hv : is_filename_valid fn = true
    · simp only [hv, Bool.not_true, Bool.false_eq_true, if_neg, not_false_iff] at hok
      rcases hres : resolveFinalName db fn pid user_id ar fuel with _ | res
      · rw [hres] at hok
        exact absurd hok (by simp)
      · rw [hres] at hok
        rcases res with e | final
        · simp only at hok
          exact absurd hok (by simp)
        · simp only at hok
          by_cases hq : user.quota_used + (content.length : Int) > user.quota_total
          · rw [if_pos hq] at hok
            exact absurd hok (by simp)
          · rw [if_neg hq] at hok
            rcases hgb : get_by_hash { db with
                disk := diskSet db.disk ("tmp:" ++ toString db.next_tmp) content
                next_tmp := db.next_tmp + 1 } (hashFn content) with _ | s
            · rw [hgb] at hok
              rcases hbase : get_best_storage_path { db with
                  disk := diskSet db.disk ("tmp:" ++ toString db.next_tmp) content
                  next_tmp := db.next_tmp + 1 } with _ | base
              · rw [hbase] at hok
                exact absurd hok (by simp)
              · rw [hbase] at hok
                simp only at hok
                have hnil : hashStores db (hashFn content) = [] := by
                  unfold hashStores
                  exact find?_none_filter_nil hgb
                by_cases hdg : (diskGet (diskSet db.disk
                    ("tmp:" ++ toString db.next_tmp) content)
                    (base ++ "/" ++ hashFn content)).isNone = true
                · rw [if_pos hdg] at hok
                  obtain ⟨f1, f2, f3, f4⟩ := finishUpload_ok _ _ _ _ _ _ _ _ _ hok
                  have hc1 := hashStores_create
                    { db with
                      disk := diskSet (diskDel (diskSet db.disk
                        ("tmp:" ++ toString db.next_tmp) content)
                        ("tmp:" ++ toString db.next_tmp))
                        (base ++ "/" ++ hashFn content) content
                      next_tmp := db.next_tmp + 1 }
                    (hashFn content) (base ++ "/" ++ hashFn content) content.length hnil
                  have hf1 := create_files
                    { db with
                      disk := diskSet (diskDel (diskSet db.disk
                        ("tmp:" ++ toString db.next_tmp) content)
                        ("tmp:" ++ toString db.next_tmp))
                        (base ++ "/" ++ hashFn content) content
                      next_tmp := db.next_tmp + 1 }
                    (hashFn content) (base ++ "/" ++ hashFn content) content.length hnil
                  refine ⟨?_, ?_, ?_⟩
                  · intro _
                    refine ⟨{ file_hash := hashFn content
                              real_path := base ++ "/" ++ hashFn content
                              file_size := content.length
                              ref_count := 1 }, ?_, rfl⟩
                    unfold hashStores at hc1 ⊢
                    rw [f1]
                    exact hc1
                  · intro s0 hs0
                    rw [hnil] at hs0
                    exact absurd hs0 (by simp)
                  · have := hashNodeCount_append db db' node (hashFn content)
                      (by rw [f2, hf1]) f3 f4
                    rw [this]
                · rw [if_neg hdg] at hok
                  obtain ⟨f1, f2, f3, f4⟩ := finishUpload_ok _ _ _ _ _ _ _ _ _ hok
                  have hc1 := hashStores_create
                    { db with
                      disk := diskDel (diskSet db.disk
                        ("tmp:" ++ toString db.next_tmp) content)
                        ("tmp:" ++ toString db.next_tmp)
                      next_tmp := db.next_tmp + 1 }
                    (hashFn content) (base ++ "/" ++ hashFn content) content.length hnil
                  have hf1 := create_files
                    { db with
                      disk := diskDel (diskSet db.disk
                        ("tmp:" ++ toString db.next_tmp) content)
                        ("tmp:" ++ toString db.next_tmp)
                      next_tmp := db.next_tmp + 1 }
                    (hashFn content) (base ++ "/" ++ hashFn content) content.length hnil
                  refine ⟨?_, ?_, ?_⟩
                  · intro _
                    refine ⟨{ file_hash := hashFn content
                              real_path := base ++ "/" ++ hashFn content
                              file_size := content.length
                              ref_count := 1 }, ?_, rfl⟩
                    unfold hashStores at hc1 ⊢
                    rw [f1]
                    exact hc1
                  · intro s0 hs0
                    rw [hnil] at hs0
                    exact absurd hs0 (by simp)
                  · have := hashNodeCount_append db db' node (hashFn content)
                      (by rw [f2, hf1]) f3 f4
                    rw [this]
            · rw [hgb] at hok
              simp only at hok
              obtain ⟨f1, f2, f3, f4⟩ := finishUpload_ok _ _ _ _ _ _ _ _ _ hok
              have hinc := hashStores_increment
                { db with
                  disk := diskSet db.disk ("tmp:" ++ toString db.next_tmp) content
                  next_tmp := db.next_tmp + 1 } (hashFn content)
              refine ⟨?_, ?_, ?_⟩
              · intro hnil
                exfalso
                have hfs := filter_nil_find? hnil
                have hgb2 : db.stores.find? (fun t : FileStoreRec =>
                    t.file_hash == hashFn content) = some s := hgb
                rw [hfs] at hgb2
                exact absurd hgb2 (by simp)
              · intro s0 hs0
                unfold hashStores at hinc ⊢
                rw [f1]
                rw [hinc]
                unfold hashStores at hs0
                rw [hs0]
                rfl
              · have := hashNodeCount_append db db' node (hashFn content)
                  (by rw [f2]; rfl) f3 f4
                rw [this]
    · simp only [Bool.not_eq_true] at hv
      rw [hv] at hok
      simp only [Bool.not_false, if_true] at hok
      exact absurd hok (by simp)

end SkyDrive

namespace SkyDrive

theorem findUser_gocp (db : DB) (uid pid : Nat) (rp : String) :
    findUser (get_or_create_path db uid pid rp).1 uid = findUser db uid := by
  unfold findUser
  rw [(gocp_effects db uid pid rp).2.1]

theorem uploadFile_rp (hashFn : List Nat → String) (fuel : Nat) (db : DB)
    (uid : Nat) (content : List Nat) (fn : String) (pid : Nat) (rp : String)
    (ar : Bool) (hv : is_filename_valid fn = true) :
    uploadFile hashFn fuel db uid content fn pid (some rp) ar =
      uploadFile hashFn fuel (get_or_create_path db uid pid rp).1 uid content fn
        (get_or_create_path db uid pid rp).2 none ar := by
  unfold uploadFile
  rw [findUser_gocp db uid pid rp]
  rcases findUser db uid with _ | user
  · rfl
  · simp only [hv, Bool.not_true, Bool.false_eq_true, if_false]

theorem checkFastUpload_rp (fuel : Nat) (db : DB) (uid : Nat)
    (file_hash fn : String) (pid : Nat) (rp : String) (ar : Bool)
    (hv : is_filename_valid fn = true) :
    checkFastUpload fuel db uid file_hash fn pid (some rp) ar =
      checkFastUpload fuel (get_or_create_path db uid pid rp).1 uid file_hash fn
        (get_or_create_path db uid pid rp).2 none ar := by
  unfold checkFastUpload
  rw [findUser_gocp db uid pid rp]
  rcases findUser db uid with _ | user
  · rfl
  · simp only [hv, Bool.not_true, Bool.false_eq_true, if_false]

theorem mergeChunks_rp (hashFn : List Nat → String) (fuel : Nat) (db : DB)
    (uid : Nat) (upid fn file_hash : String) (pid : Nat) (rp : String)
    (ar : Bool) (hv : is_filename_valid fn = true) :
    mergeChunks hashFn fuel db uid upid fn file_hash pid (some rp) ar =
      mergeChunks hashFn fuel (get_or_create_path db uid pid rp).1 uid upid fn
        file_hash (get_or_create_path db uid pid rp).2 none ar := by
  unfold mergeChunks
  rw [findUser_gocp db uid pid rp]
  rcases findUser db uid with _ | user
  · rfl
  · simp only [hv, Bool.not_true, Bool.false_eq_true, if_false]


theorem mergeCommit_counts (fuel : Nat) (db : DB) (user : UserRec)
    (upid ffn fh fp : String) (tpid : Nat) (db' : DB) (node : FileMetaRec)
    (hok : mergeCommit fuel db user upid ffn fh fp tpid = some (db', .ok node)) :
    (hashStores db fh = [] →
      ∃ s, hashStores db' fh = [s] ∧ s.ref_count = 1) ∧
    (∀ s0, hashStores db fh = [s0] →
      hashStores db' fh = [{ s0 with ref_count := s0.ref_count + 1 }]) ∧
    hashNodeCount db' fh = hashNodeCount db fh + 1 := by
  unfold mergeCommit at hok
  simp only at hok
  by_cases hq : user.quota_used + ((((diskGet db.disk fp).getD []).length : Nat) : Int) >
      user.quota_total
  · rw [if_pos hq] at hok
    rcases hgb : get_by_hash db fh with _ | s <;> rw [hgb] at hok <;>
      exact absurd hok (by simp)
  · rw [if_neg hq] at hok
    rcases hgb : get_by_hash db fh with _ | s
    · rw [hgb] at hok
      have hnil : hashStores db fh = [] := by
        unfold hashStores
        exact find?_none_filter_nil hgb
      rcases hc : create_with_user
          (create_file_store db fh fp ((diskGet db.disk fp).getD []).length).1
          ⟨ffn, false, tpid, some fh⟩ user.id fuel with _ | r
      · rw [hc] at hok
        exact absurd hok (by simp)
      · rw [hc] at hok
        simp only [Option.some.injEq, Prod.mk.injEq] at hok
        obtain ⟨hdb, hnode⟩ := hok
        obtain ⟨r1, r2⟩ := r
        obtain ⟨e1, e2, e3, e4, e5, e6⟩ := create_with_user_effects _ _ _ _ _ _ hc
        obtain rfl : r2 = node := Except.ok.inj hnode
        subst hdb
        have hc1 := hashStores_create db fh fp ((diskGet db.disk fp).getD []).length hnil
        have hf1 := create_files db fh fp ((diskGet db.disk fp).getD []).length hnil
        refine ⟨?_, ?_, ?_⟩
        · intro _
          refine ⟨{ file_hash := fh
                    real_path := fp
                    file_size := ((diskGet db.disk fp).getD []).length
                    ref_count := 1 }, ?_, rfl⟩
          show hashStores
            (delete_chunks (update_quota_used r1 user.id _) upid) fh = _
          unfold hashStores at hc1 ⊢
          rw [show (delete_chunks (update_quota_used r1 user.id
            ((((diskGet db.disk fp).getD []).length : Nat) : Int)) upid).stores =
            r1.stores from rfl, e1]
          exact hc1
        · intro s0 hs0
          rw [hnil] at hs0
          exact absurd hs0 (by simp)
        · exact hashNodeCount_append db _ r2 fh (by rw [show (delete_chunks
              (update_quota_used r1 user.id ((((diskGet db.disk fp).getD
              []).length : Nat) : Int)) upid).files = r1.files from rfl, e4, hf1])
            e5 e6
    · rw [hgb] at hok
      have hinc := hashStores_increment db fh
      rcases hc : create_with_user (increment_ref_count db fh).1
          ⟨ffn, false, tpid, some fh⟩ user.id fuel with _ | r
      · rw [hc] at hok
        exact absurd hok (by simp)
      · rw [hc] at hok
        simp only [Option.some.injEq, Prod.mk.injEq] at hok
        obtain ⟨hdb, hnode⟩ := hok
        obtain ⟨r1, r2⟩ := r
        obtain ⟨e1, e2, e3, e4, e5, e6⟩ := create_with_user_effects _ _ _ _ _ _ hc
        obtain rfl : r2 = node := Except.ok.inj hnode
        subst hdb
        refine ⟨?_, ?_, ?_⟩
        · intro hnil
          exfalso
          have hfs := filter_nil_find? hnil
          have hgb2 : db.stores.find? (fun t : FileStoreRec =>
              t.file_hash == fh) = some s := hgb
          rw [hfs] at hgb2
          exact absurd hgb2 (by simp)
        · intro s0 hs0
          show hashStores
            (delete_chunks (update_quota_used r1 user.id _) upid) fh = _
          unfold hashStores at hinc hs0 ⊢
          rw [show (delete_chunks (update_quota_used r1 user.id
            ((((diskGet db.disk fp).getD []).length : Nat) : Int)) upid).stores =
            r1.stores from rfl, e1]
          rw [hinc, hs0]
          rfl
        · exact hashNodeCount_append db _ r2 fh (by rw [show (delete_chunks
              (update_quota_used r1 user.id ((((diskGet db.disk fp).getD
              []).length : Nat) : Int)) upid).files = r1.files from rfl, e4,
              increment_files db fh]) e5 e6


theorem mergeChunks_ok_counts_none (hashFn : List Nat → String) (fuel : Nat)
    (db : DB) (uid : Nat) (upid fn fh : String) (pid : Nat) (ar : Bool)
    (db' : DB) (node : FileMetaRec)
    (hok : mergeChunks hashFn fuel db uid upid fn fh pid none ar =
      some (db', .ok node)) :
    (hashStores db fh = [] →
      ∃ s, hashStores db' fh = [s] ∧ s.ref_count = 1) ∧
    (∀ s0, hashStores db fh = [s0] →
      hashStores db' fh = [{ s0 with ref_count := s0.ref_count + 1 }]) ∧
    hashNodeCount db' fh = hashNodeCount db fh + 1 := by
  unfold mergeChunks at hok
  rcases hu : findUser db uid with _ | user
  · rw [hu] at hok
    exact absurd hok (by simp)
  · rw [hu] at hok
    simp only at hok
    by_cases hv : is_filename_valid fn = true
    · simp only [hv, Bool.not_true, Bool.false_eq_true, if_false] at hok
      rcases hres : resolveFinalName db fn pid uid ar fuel with _ | res
      · rw [hres] at hok
        exact absurd hok (by simp)
      · rw [hres] at hok
        rcases res with e | ffn
        · simp only at hok
          exact absurd hok (by simp)
        · simp only at hok
          by_cases he : ((get_all_chunks db upid).isEmpty && !(fh == hashFn []))
              = true
          · rw [if_pos he] at hok
            exact absurd hok (by simp)
          · rw [if_neg he] at hok
            rcases hfind : (get_all_chunks db upid).find? (fun c => !c.is_uploaded)
                with _ | c
            · rw [hfind] at hok
              rcases hbase : get_best_storage_path db with _ | base
              · rw [hbase] at hok
                exact absurd hok (by simp)
              · rw [hbase] at hok
                simp only at hok
                by_cases hdg : (diskGet db.disk (base ++ "/" ++ fh)).isNone = true
                · rw [if_pos hdg] at hok
                  rcases hr : (mergeLoop (base ++ "/" ++ fh)
                      (get_all_chunks db upid) db.disk []).2.2 with _ | idx
                  · rw [hr] at hok
                    simp only at hok
                    by_cases hh : (!(hashFn (mergeLoop (base ++ "/" ++ fh)
                        (get_all_chunks db upid) db.disk []).2.1 == fh)) = true
                    · rw [if_pos hh] at hok
                      exact absurd hok (by simp)
                    · rw [if_neg hh] at hok
                      generalize (mergeLoop (base ++ "/" ++ fh)
                        (get_all_chunks db upid) db.disk []).1 = dsk at hok
                      have h3 := mergeCommit_counts _ _ _ _ _ _ _ _ _ _ hok
                      exact h3
                  · rw [hr] at hok
                    exact absurd hok (by simp)
                · rw [if_neg hdg] at hok
                  generalize ((get_all_chunks db upid).foldl (fun d c =>
                    match c.temp_path with
                    | some p => if (diskGet d p).isSome then diskDel d p else d
                    | none => d) db.disk) = dsk at hok
                  have h3 := mergeCommit_counts _ _ _ _ _ _ _ _ _ _ hok
                  exact h3
            · rw [hfind] at hok
              exact absurd hok (by simp)
    · exfalso
      simp only [Bool.not_eq_true] at hv
      simp only [hv, Bool.not_false, if_true] at hok
      exact absurd hok (by simp)


theorem checkFastUpload_ok_counts_none (fuel : Nat) (db : DB) (uid : Nat)
    (fh fn : String) (pid : Nat) (ar : Bool) (db' : DB) (node : FileMetaRec)
    (hok : checkFastUpload fuel db uid fh fn pid none ar =
      some (db', .ok (true, some node))) :
    (hashStores db fh = [] →
      ∃ s, hashStores db' fh = [s] ∧ s.ref_count = 1) ∧
    (∀ s0, hashStores db fh = [s0] →
      hashStores db' fh = [{ s0 with ref_count := s0.ref_count + 1 }]) ∧
    hashNodeCount db' fh = hashNodeCount db fh + 1 := by
  unfold checkFastUpload at hok
  rcases hu : findUser db uid with _ | user
  · rw [hu] at hok
    exact absurd hok (by simp)
  · rw [hu] at hok
    simp only at hok
    by_cases hv : is_filename_valid fn = true
    · simp only [hv, Bool.not_true, Bool.false_eq_true, if_false] at hok
      rcases hres : resolveFinalName db fn pid uid ar fuel with _ | res
      · rw [hres] at hok
        exact absurd hok (by simp)
      · rw [hres] at hok
        rcases res with e | ffn
        · simp only at hok
          exact absurd hok (by simp)
        · simp only at hok
          rcases hgb : get_by_hash db fh with _ | existing
          · rw [hgb] at hok
            exact absurd hok (by simp)
          · rw [hgb] at hok
            simp only at hok
            by_cases hq : user.quota_used + (existing.file_size : Int) >
                user.quota_total
            · rw [if_pos hq] at hok
              exact absurd hok (by simp)
            · rw [if_neg hq] at hok
              rcases hc : create_with_user (increment_ref_count db fh).1
                  ⟨ffn, false, pid, some fh⟩ uid fuel with _ | r
              · rw [hc] at hok
                exact absurd hok (by simp)
              · rw [hc] at hok
                simp only [Option.some.injEq, Prod.mk.injEq] at hok
                obtain ⟨hdb, hnode⟩ := hok
                obtain ⟨r1, r2⟩ := r
                obtain ⟨e1, e2, e3, e4, e5, e6⟩ :=
                  create_with_user_effects _ _ _ _ _ _ hc
                have hnode2 : (true, some r2) = (true, some node) :=
                  Except.ok.inj hnode
                obtain rfl : r2 = node :=
                  Option.some.inj (Prod.mk.injEq true (some r2) true
                    (some node) ▸ hnode2).2
                subst hdb
                refine ⟨?_, ?_, ?_⟩
                · intro hnil
                  exfalso
                  have hfs := filter_nil_find? hnil
                  have hgb2 : db.stores.find? (fun t : FileStoreRec =>
                      t.file_hash == fh) = some existing := hgb
                  rw [hfs] at hgb2
                  exact absurd hgb2 (by simp)
                · intro s0 hs0
                  show hashStores
                    (update_quota_used r1 uid (existing.file_size : Int)) fh = _
                  have hinc := hashStores_increment db fh
                  unfold hashStores at hinc hs0 ⊢
                  rw [show (update_quota_used r1 uid
                    (existing.file_size : Int)).stores = r1.stores from rfl, e1]
                  rw [hinc, hs0]
                  rfl
                · exact hashNodeCount_append db _ r2 fh (by rw [show
                    (update_quota_used r1 uid
                      (existing.file_size : Int)).files = r1.files from rfl, e4,
                    increment_files db fh]) e5 e6
    · exfalso
      simp only [Bool.not_eq_true] at hv
      simp only [hv, Bool.not_false, if_true] at hok
      exact absurd hok (by simp)


theorem hashStores_gocp (db : DB) (uid pid : Nat) (rp : String) (h : String) :
    hashStores (get_or_create_path db uid pid rp).1 h = hashStores db h := by
  unfold hashStores
  rw [(gocp_effects db uid pid rp).1]

theorem execUpload_counts (hashFn : List Nat → String) (fuel uid : Nat)
    (db : DB) (op : UploadOp) (db' : DB) (h : String)
    (hh : UploadOp.opHash hashFn op = h)
    (hex : execUpload hashFn fuel uid db op = some db') :
    (hashStores db h = [] →
      ∃ s, hashStores db' h = [s] ∧ s.ref_count = 1) ∧
    (∀ s0, hashStores db h = [s0] →
      hashStores db' h = [{ s0 with ref_count := s0.ref_count + 1 }]) ∧
    hashNodeCount db' h = hashNodeCount db h + 1 := by
  cases op with
  | whole content fn pid rp ar =>
    obtain rfl : hashFn content = h := hh
    unfold execUpload at hex
    simp only at hex
    rcases hup : uploadFile hashFn fuel db uid content fn pid rp ar with _ | p
    · rw [hup] at hex
      exact absurd hex (by simp)
    · rw [hup] at hex
      obtain ⟨db2, res⟩ := p
      rcases res with e | nd
      · exact absurd hex (by simp)
      · simp only [Option.some.injEq] at hex
        subst hex
        rcases rp with _ | r
        · exact uploadFile_ok_counts_none hashFn fuel db uid content fn pid ar
            db2 nd hup
        · by_cases hv : is_filename_valid fn = true
          · rw [uploadFile_rp hashFn fuel db uid content fn pid r ar hv] at hup
            have h3 := uploadFile_ok_counts_none hashFn fuel
              (get_or_create_path db uid pid r).1 uid content fn
              (get_or_create_path db uid pid r).2 ar db2 nd hup
            have hst := hashStores_gocp db uid pid r (hashFn content)
            have hcnt := (gocp_effects db uid pid r).2.2.2.2.2 (hashFn content)
            refine ⟨?_, ?_, ?_⟩
            · intro hnil
              exact h3.1 (by rw [hst]; exact hnil)
            · intro s0 hs0
              exact h3.2.1 s0 (by rw [hst]; exact hs0)
            · rw [h3.2.2, hcnt]
          · exfalso
            simp only [Bool.not_eq_true] at hv
            unfold uploadFile at hup
            rcases hu : findUser db uid with _ | user
            · rw [hu] at hup
              exact absurd hup (by simp)
            · rw [hu] at hup
              simp only [hv, Bool.not_false, if_true] at hup
              exact absurd hup (by simp)
  | fastCheck fh fn pid rp ar =>
    obtain rfl : fh = h := hh
    unfold execUpload at hex
    simp only at hex
    rcases hfc : checkFastUpload fuel db uid fh fn pid rp ar with _ | p
    · rw [hfc] at hex
      exact absurd hex (by simp)
    · rw [hfc] at hex
      obtain ⟨db2, res⟩ := p
      rcases res with e | pr
      · exact absurd hex (by simp)
      · obtain ⟨b, mn⟩ := pr
        rcases b with _ | _
        · exact absurd hex (by simp)
        · rcases mn with _ | nd
          · exact absurd hex (by simp)
          · simp only [Option.some.injEq] at hex
            subst hex
            rcases rp with _ | r
            · exact checkFastUpload_ok_counts_none fuel db uid fh fn pid ar
                db2 nd hfc
            · by_cases hv : is_filename_valid fn = true
              · rw [checkFastUpload_rp fuel db uid fh fn pid r ar hv] at hfc
                have h3 := checkFastUpload_ok_counts_none fuel
                  (get_or_create_path db uid pid r).1 uid fh fn
                  (get_or_create_path db uid pid r).2 ar db2 nd hfc
                have hst := hashStores_gocp db uid pid r fh
                have hcnt := (gocp_effects db uid pid r).2.2.2.2.2 fh
                refine ⟨?_, ?_, ?_⟩
                · intro hnil
                  exact h3.1 (by rw [hst]; exact hnil)
                · intro s0 hs0
                  exact h3.2.1 s0 (by rw [hst]; exact hs0)
                · rw [h3.2.2, hcnt]
              · exfalso
                simp only [Bool.not_eq_true] at hv
                unfold checkFastUpload at hfc
                rcases hu : findUser db uid with _ | user
                · rw [hu] at hfc
                  exact absurd hfc (by simp)
                · rw [hu] at hfc
                  simp only [hv, Bool.not_false, if_true] at hfc
                  exact absurd hfc (by simp)
  | merge upid fn fh pid rp ar =>
    obtain rfl : fh = h := hh
    unfold execUpload at hex
    simp only at hex
    rcases hmg : mergeChunks hashFn fuel db uid upid fn fh pid rp ar with _ | p
    · rw [hmg] at hex
      exact absurd hex (by simp)
    · rw [hmg] at hex
      obtain ⟨db2, res⟩ := p
      rcases res with e | nd
      · exact absurd hex (by simp)
      · simp only [Option.some.injEq] at hex
        subst hex
        rcases rp with _ | r
        · exact mergeChunks_ok_counts_none hashFn fuel db uid upid fn fh pid ar
            db2 nd hmg
        · by_cases hv : is_filename_valid fn = true
          · rw [mergeChunks_rp hashFn fuel db uid upid fn fh pid r ar hv] at hmg
            have h3 := mergeChunks_ok_counts_none hashFn fuel
              (get_or_create_path db uid pid r).1 uid upid fn fh
              (get_or_create_path db uid pid r).2 ar db2 nd hmg
            have hst := hashStores_gocp db uid pid r fh
            have hcnt := (gocp_effects db uid pid r).2.2.2.2.2 fh
            refine ⟨?_, ?_, ?_⟩
            · intro hnil
              exact h3.1 (by rw [hst]; exact hnil)
            · intro s0 hs0
              exact h3.2.1 s0 (by rw [hst]; exact hs0)
            · rw [h3.2.2, hcnt]
          · exfalso
            simp only [Bool.not_eq_true] at hv
            unfold mergeChunks at hmg
            rcases hu : findUser db uid with _ | user
            · rw [hu] at hmg
              exact absurd hmg (by simp)
            · rw [hu] at hmg
              simp only [hv, Bool.not_false, if_true] at hmg
              exact absurd hmg (by simp)


theorem execUploads_counts (hashFn : List Nat → String) (fuel uid : Nat)
    (h : String) :
    ∀ (ops : List UploadOp) (db db' : DB) (s : FileStoreRec) (n : Nat),
    (∀ op ∈ ops, UploadOp.opHash hashFn op = h) →
    execUploads hashFn fuel uid ops db = some db' →
    hashStores db h = [s] →
    hashNodeCount db h = n →
    ∃ s', hashStores db' h = [s'] ∧
      s'.ref_count = s.ref_count + ops.length ∧
      hashNodeCount db' h = n + ops.length := by
  intro ops
  induction ops with
  | nil =>
    intro db db' s n hall hex hs hn
    unfold execUploads at hex
    simp only [Option.some.injEq] at hex
    subst hex
    exact ⟨s, hs, by simp, by simpa using hn⟩
  | cons op rest ih =>
    intro db db' s n hall hex hs hn
    unfold execUploads at hex
    rcases h1 : execUpload hashFn fuel uid db op with _ | db1
    · rw [h1] at hex
      exact absurd hex (by simp)
    · rw [h1] at hex
      have hc := execUpload_counts hashFn fuel uid db op db1 h
        (hall op (List.mem_cons_self op rest)) h1
      have hs1 := hc.2.1 s hs
      obtain ⟨s', e1, e2, e3⟩ := ih db1 db'
        { s with ref_count := s.ref_count + 1 } (n + 1)
        (fun o ho => hall o (List.mem_cons_of_mem op ho)) hex hs1
        (by rw [hc.2.2, hn])
      refine ⟨s', e1, ?_, ?_⟩
      · rw [e2]
        simp only [List.length_cons]
        push_cast
        ring
      · rw [e3]
        simp only [List.length_cons]
        omega


/-- C1: starting from a state with no `FileStore` record and no node for a
hash, any non-empty sequence of successful upload events committing under
that hash — any mix of whole-file uploads, chunked merges and fast-upload
checks, executed sequentially — leaves exactly one `FileStore` record for
the hash, with `ref_count` equal to the number N of events, which is also
the number of nodes referencing the hash. -/
theorem C1_dedup_single_store (hashFn : List Nat → String) (fuel uid : Nat)
    (h : String) (ops : List UploadOp) (db db' : DB)
    (hall : ∀ op ∈ ops, UploadOp.opHash hashFn op = h)
    (h0 : hashStores db h = [])
    (hn0 : hashNodeCount db h = 0)
    (hex : execUploads hashFn fuel uid ops db = some db')
    (hne : ops ≠ []) :
    ∃ s, hashStores db' h = [s] ∧ s.ref_count = (ops.length : Int) ∧
      hashNodeCount db' h = ops.length := by
  rcases ops with _ | ⟨op, rest⟩
  · exact absurd rfl hne
  · unfold execUploads at hex
    rcases h1 : execUpload hashFn fuel uid db op with _ | db1
    · rw [h1] at hex
      exact absurd hex (by simp)
    · rw [h1] at hex
      have hc := execUpload_counts hashFn fuel uid db op db1 h
        (hall op (List.mem_cons_self op rest)) h1
      obtain ⟨s, hs, hr1⟩ := hc.1 h0
      obtain ⟨s', e1, e2, e3⟩ := execUploads_counts hashFn fuel uid h rest
        db1 db' s 1 (fun o ho => hall o (List.mem_cons_of_mem op ho)) hex hs
        (by rw [hc.2.2, hn0])
      refine ⟨s', e1, ?_, ?_⟩
      · rw [e2, hr1]
        simp only [List.length_cons]
        push_cast
        ring
      · rw [e3]
        simp only [List.length_cons]
        omega


theorem C1_dedup_single_store_witness :
    ∃ db', execUploads lenHash 12 1
        [.whole [7] "f" 0 none true, .fastCheck "x" "g" 0 none true]
        cexBase = some db' ∧
      ∃ s, hashStores db' "x" = [s] ∧ s.ref_count = ((2 : Nat) : Int) ∧
        hashNodeCount db' "x" = 2 := by
  refine ⟨_, rfl, ?_⟩
  exact C1_dedup_single_store lenHash 12 1 "x"
    [.whole [7] "f" 0 none true, .fastCheck "x" "g" 0 none true]
    cexBase _ (by decide) rfl rfl rfl (List.cons_ne_nil _ _)

end SkyDrive

namespace SkyDrive

theorem undelRel_refl : ∀ l : List FileMetaRec,
    List.Forall₂ (fun f f' => f' = f ∨ f' = undelMark f) l l := by
  intro l
  induction l with
  | nil => exact List.Forall₂.nil
  | cons a t ih => exact List.Forall₂.cons (Or.inl rfl) ih

theorem undelRel_map (g : FileMetaRec → FileMetaRec)
    (hg : ∀ a, g a = a ∨ g a = undelMark a) :
    ∀ l : List FileMetaRec,
    List.Forall₂ (fun f f' => f' = f ∨ f' = undelMark f) l (l.map g) := by
  intro l
  induction l with
  | nil => exact List.Forall₂.nil
  | cons a t ih => exact List.Forall₂.cons (hg a) ih

theorem undelRel_updFile (db : DB) (i : Nat) :
    List.Forall₂ (fun f f' => f' = f ∨ f' = undelMark f)
      db.files (updFile db i undelMark).files := by
  apply undelRel_map
  intro a
  by_cases ha : (a.id == i) = true
  · simp [ha]
  · simp [ha]

theorem undelRel_trans :
    ∀ l1 l2 l3 : List FileMetaRec,
    List.Forall₂ (fun f f' => f' = f ∨ f' = undelMark f) l1 l2 →
    List.Forall₂ (fun f f' => f' = f ∨ f' = undelMark f) l2 l3 →
    List.Forall₂ (fun f f' => f' = f ∨ f' = undelMark f) l1 l3 := by
  intro l1
  induction l1 with
  | nil =>
    intro l2 l3 h12 h23
    cases h12
    cases h23
    exact List.Forall₂.nil
  | cons a t ih =>
    intro l2 l3 h12 h23
    cases h12 with
    | cons hab h12t =>
      cases h23 with
      | cons hbc h23t =>
        refine List.Forall₂.cons ?_ (ih _ _ h12t h23t)
        rcases hab with rfl | rfl
        · exact hbc
        · rcases hbc with rfl | rfl
          · exact Or.inr rfl
          · exact Or.inr rfl

theorem undelRel_mem_right :
    ∀ l l' : List FileMetaRec,
    List.Forall₂ (fun f f' => f' = f ∨ f' = undelMark f) l l' →
    ∀ b ∈ l', ∃ a ∈ l, b = a ∨ b = undelMark a := by
  intro l
  induction l with
  | nil =>
    intro l' h b hb
    cases h
    simp at hb
  | cons a t ih =>
    intro l' h b hb
    cases h with
    | cons hab ht =>
      rcases List.mem_cons.mp hb with rfl | hb'
      · exact ⟨a, List.mem_cons_self a t, hab⟩
      · obtain ⟨a0, ha0, hr⟩ := ih _ ht b hb'
        exact ⟨a0, List.mem_cons_of_mem a ha0, hr⟩

theorem undelRel_find? :
    ∀ (l l' : List FileMetaRec),
    List.Forall₂ (fun f f' => f' = f ∨ f' = undelMark f) l l' →
    ∀ p : FileMetaRec → Bool, (∀ f, p (undelMark f) = p f) →
    (l.find? p = none → l'.find? p = none) ∧
    (∀ a, l.find? p = some a →
      ∃ b, l'.find? p = some b ∧ (b = a ∨ b = undelMark a)) := by
  intro l
  induction l with
  | nil =>
    intro l' h p hp
    cases h
    exact ⟨fun _ => rfl, fun a ha => by simp at ha⟩
  | cons x t ih =>
    intro l' h p hp
    cases h with
    | @cons _ y _ l2 hxy ht =>
      rcases ih _ ht p hp with ⟨ihn, ihs⟩
      by_cases hx : p x = true
      · constructor
        · intro hn
          rw [List.find?_cons_of_pos _ hx] at hn
          exact absurd hn (by simp)
        · intro a ha
          rw [List.find?_cons_of_pos _ hx] at ha
          obtain rfl : x = a := Option.some.inj ha
          refine ⟨_, List.find?_cons_of_pos _ ?_, hxy⟩
          rcases hxy with rfl | rfl
          · exact hx
          · rw [hp]
            exact hx
      · have hy : ¬ p y = true := by
          rcases hxy with rfl | rfl
          · exact hx
          · rw [hp]
            exact hx
        constructor
        · intro hn
          rw [List.find?_cons_of_neg _ hx] at hn
          rw [List.find?_cons_of_neg _ hy]
          exact ihn hn
        · intro a ha
          rw [List.find?_cons_of_neg _ hx] at ha
          rw [List.find?_cons_of_neg _ hy]
          exact ihs a ha

end SkyDrive

namespace SkyDrive

theorem undelRel_allId (l l' : List FileMetaRec) (x : Nat)
    (h : List.Forall₂ (fun f f' => f' = f ∨ f' = undelMark f) l l')
    (hall : ∀ f ∈ l, f.id = x → f.is_deleted = false ∧ f.deleted_at = none) :
    ∀ f' ∈ l', f'.id = x → f'.is_deleted = false ∧ f'.deleted_at = none := by
  intro f' hf' hid
  obtain ⟨a, ha, hr⟩ := undelRel_mem_right l l' h f' hf'
  rcases hr with rfl | rfl
  · exact hall _ ha hid
  · exact ⟨rfl, rfl⟩

theorem updFile_allId (db : DB) (x : Nat) :
    ∀ f' ∈ (updFile db x undelMark).files, f'.id = x →
      f'.is_deleted = false ∧ f'.deleted_at = none := by
  intro f' hf' hid
  unfold updFile at hf'
  simp only [List.mem_map] at hf'
  obtain ⟨f, hf, rfl⟩ := hf'
  by_cases hfx : (f.id == x) = true
  · rw [if_pos hfx]
    exact ⟨rfl, rfl⟩
  · rw [if_neg hfx] at hid
    exact absurd (by simp [hid]) hfx

theorem restoreDownGo_rel : ∀ (fuel : Nat) (db : DB) (obj : FileMetaRec)
    (uid : Nat) (db2 : DB), restoreDownGo fuel db obj uid = some db2 →
    List.Forall₂ (fun f f' => f' = f ∨ f' = undelMark f) db.files db2.files := by
  intro fuel
  induction fuel with
  | zero =>
    intro db obj uid db2 h
    exact absurd h (by simp [restoreDownGo])
  | succ n ih =>
    intro db obj uid db2 h
    unfold restoreDownGo at h
    by_cases hf : (!obj.is_folder) = true
    · rw [if_pos hf] at h
      obtain rfl : db = db2 := Option.some.inj h
      exact undelRel_refl db.files
    · rw [if_neg hf] at h
      simp only at h
      generalize db.files.filter (fun f =>
        f.parent_id == obj.id && f.user_id == uid && f.is_deleted) = cs at h
      clear hf
      induction cs generalizing db with
      | nil =>
        obtain rfl : db = db2 := Option.some.inj h
        exact undelRel_refl db.files
      | cons c ct ihc =>
        simp only [List.foldlM_cons] at h
        rcases h1 : restoreDownGo n (updFile db c.id undelMark) (undelMark c) uid
            with _ | acc1
        · rw [h1] at h
          exact absurd h (by simp)
        · rw [h1] at h
          simp only [Option.bind_eq_bind, Option.some_bind] at h
          refine undelRel_trans _ _ _ (undelRel_updFile db c.id)
            (undelRel_trans _ _ _ (ih _ _ _ _ h1) (ihc acc1 h))

theorem foldDown_rel (n uid : Nat) : ∀ (cs : List FileMetaRec) (acc db2 : DB),
    cs.foldlM (fun a c =>
      restoreDownGo n (updFile a c.id undelMark) (undelMark c) uid) acc =
        some db2 →
    List.Forall₂ (fun f f' => f' = f ∨ f' = undelMark f) acc.files db2.files := by
  intro cs
  induction cs with
  | nil =>
    intro acc db2 h
    obtain rfl : acc = db2 := Option.some.inj h
    exact undelRel_refl acc.files
  | cons c ct ih =>
    intro acc db2 h
    simp only [List.foldlM_cons] at h
    rcases h1 : restoreDownGo n (updFile acc c.id undelMark) (undelMark c) uid
        with _ | acc1
    · rw [h1] at h
      exact absurd h (by simp)
    · rw [h1] at h
      simp only [Option.bind_eq_bind, Option.some_bind] at h
      exact undelRel_trans _ _ _ (undelRel_updFile acc c.id)
        (undelRel_trans _ _ _ (restoreDownGo_rel n _ _ _ _ h1) (ih acc1 db2 h))

theorem restoreUpGo_rel : ∀ (fuel : Nat) (db : DB) (cur : FileMetaRec)
    (uid : Nat) (db' : DB), restoreUpGo fuel db cur uid = some db' →
    List.Forall₂ (fun f f' => f' = f ∨ f' = undelMark f) db.files db'.files := by
  intro fuel
  induction fuel with
  | zero =>
    intro db cur uid db' h
    exact absurd h (by simp [restoreUpGo])
  | succ n ih =>
    intro db cur uid db' h
    unfold restoreUpGo at h
    by_cases hp0 : (cur.parent_id == 0) = true
    · rw [if_pos hp0] at h
      obtain rfl : db = db' := Option.some.inj h
      exact undelRel_refl db.files
    · rw [if_neg hp0] at h
      rcases hfind : db.files.find? (fun f =>
          f.id == cur.parent_id && f.user_id == uid) with _ | parent
      · rw [hfind] at h
        obtain rfl : db = db' := Option.some.inj h
        exact undelRel_refl db.files
      · rw [hfind] at h
        simp only at h
        by_cases hdel : parent.is_deleted = true
        · rw [if_pos hdel] at h
          exact undelRel_trans _ _ _ (undelRel_updFile db parent.id) (ih _ _ _ _ h)
        · rw [if_neg hdel] at h
          exact ih _ _ _ _ h

end SkyDrive

namespace SkyDrive

theorem undelRel_mem_left :
    ∀ l l' : List FileMetaRec,
    List.Forall₂ (fun f f' => f' = f ∨ f' = undelMark f) l l' →
    ∀ a ∈ l, ∃ b ∈ l', b = a ∨ b = undelMark a := by
  intro l
  induction l with
  | nil =>
    intro l' h a ha
    simp at ha
  | cons x t ih =>
    intro l' h a ha
    cases h with
    | @cons _ y _ l2 hxy ht =>
      rcases List.mem_cons.mp ha with rfl | ha'
      · exact ⟨y, List.mem_cons_self y l2, hxy⟩
      · obtain ⟨b, hb, hr⟩ := ih _ ht a ha'
        exact ⟨b, List.mem_cons_of_mem y hb, hr⟩

theorem foldDown_children (n uid : Nat) : ∀ (cs : List FileMetaRec) (acc db2 : DB),
    cs.foldlM (fun a c =>
      restoreDownGo n (updFile a c.id undelMark) (undelMark c) uid) acc =
        some db2 →
    ∀ c ∈ cs, ∀ f' ∈ db2.files, f'.id = c.id →
      f'.is_deleted = false ∧ f'.deleted_at = none := by
  intro cs
  induction cs with
  | nil =>
    intro acc db2 h c hc
    simp at hc
  | cons c0 ct ih =>
    intro acc db2 h c hc
    simp only [List.foldlM_cons] at h
    rcases h1 : restoreDownGo n (updFile acc c0.id undelMark) (undelMark c0) uid
        with _ | acc1
    · rw [h1] at h
      exact absurd h (by simp)
    · rw [h1] at h
      simp only [Option.bind_eq_bind, Option.some_bind] at h
      rcases List.mem_cons.mp hc with rfl | hc'
      · have s1 := updFile_allId acc c.id
        have s2 := undelRel_allId _ _ c.id (restoreDownGo_rel n _ _ _ _ h1) s1
        exact undelRel_allId _ _ c.id (foldDown_rel n uid ct acc1 db2 h) s2
      · exact ih acc1 db2 h c hc'

theorem ancestorsGo_undelRel : ∀ (fuel : Nat) (db db1 : DB) (pid uid : Nat)
    (l : List FileMetaRec),
    List.Forall₂ (fun f f' => f' = f ∨ f' = undelMark f) db.files db1.files →
    ancestorsGo fuel db pid uid = some l →
    ∃ l', ancestorsGo fuel db1 pid uid = some l' ∧
      List.Forall₂ (fun a a' => a' = a ∨ a' = undelMark a) l l' := by
  intro fuel
  induction fuel with
  | zero =>
    intro db db1 pid uid l hrel h
    exact absurd h (by simp [ancestorsGo])
  | succ n ih =>
    intro db db1 pid uid l hrel h
    unfold ancestorsGo at h ⊢
    by_cases hp0 : (pid == 0) = true
    · rw [if_pos hp0] at h ⊢
      obtain rfl : [] = l := Option.some.inj h
      exact ⟨[], rfl, List.Forall₂.nil⟩
    · rw [if_neg hp0] at h ⊢
      obtain ⟨tn, ts⟩ := undelRel_find? db.files db1.files hrel
        (fun f => f.id == pid && f.user_id == uid) (fun f => rfl)
      rcases hfind : db.files.find? (fun f => f.id == pid && f.user_id == uid)
          with _ | folder
      · rw [hfind] at h
        rw [tn hfind]
        obtain rfl : [] = l := Option.some.inj h
        exact ⟨[], rfl, List.Forall₂.nil⟩
      · rw [hfind] at h
        obtain ⟨folder', hfind', hrelf⟩ := ts folder hfind
        rw [hfind']
        simp only
        simp only [Option.map_eq_map, Option.map_eq_some'] at h
        obtain ⟨l0, h0, rfl⟩ := h
        obtain ⟨l0', h0', hrel0⟩ := ih db db1 folder.parent_id uid l0 hrel h0
        have hpp : folder'.parent_id = folder.parent_id := by
          rcases hrelf with rfl | rfl
          · rfl
          · rfl
        rw [hpp, h0']
        refine ⟨l0' ++ [folder'], by simp, ?_⟩
        exact List.rel_append hrel0 (List.Forall₂.cons hrelf List.Forall₂.nil)

end SkyDrive

namespace SkyDrive

theorem restoreUpGo_ancestors : ∀ (fuel : Nat) (db : DB) (cur : FileMetaRec)
    (uid : Nat) (db' : DB), restoreUpGo fuel db cur uid = some db' →
    ∀ (fuel2 : Nat) (l : List FileMetaRec),
    ancestorsGo fuel2 db cur.parent_id uid = some l →
    ∀ a ∈ l, ∃ f', db'.files.find? (fun f => f.id == a.id && f.user_id == uid) =
      some f' ∧ f'.is_deleted = false := by
  intro fuel
  induction fuel with
  | zero =>
    intro db cur uid db' h
    exact absurd h (by simp [restoreUpGo])
  | succ n ih =>
    intro db cur uid db' h fuel2 l hanc a ha
    unfold restoreUpGo at h
    by_cases hp0 : (cur.parent_id == 0) = true
    · rw [if_pos hp0] at h
      obtain rfl : db = db' := Option.some.inj h
      rcases fuel2 with _ | f2
      · exact absurd hanc (by simp [ancestorsGo])
      · unfold ancestorsGo at hanc
        rw [if_pos hp0] at hanc
        obtain rfl : [] = l := Option.some.inj hanc
        simp at ha
    · rw [if_neg hp0] at h
      rcases hfind : db.files.find? (fun f =>
          f.id == cur.parent_id && f.user_id == uid) with _ | parent
      · rw [hfind] at h
        obtain rfl : db = db' := Option.some.inj h
        rcases fuel2 with _ | f2
        · exact absurd hanc (by simp [ancestorsGo])
        · unfold ancestorsGo at hanc
          rw [if_neg hp0, hfind] at hanc
          obtain rfl : [] = l := Option.some.inj hanc
          simp at ha
      · rw [hfind] at h
        simp only at h
        have hpid : parent.id = cur.parent_id := by
          have hs := List.find?_some hfind
          simp only [Bool.and_eq_true, beq_iff_eq] at hs
          exact hs.1
        have hfind2 : db.files.find? (fun f =>
            f.id == parent.id && f.user_id == uid) = some parent := by
          rw [hpid]
          exact hfind
        rcases fuel2 with _ | f2
        · exact absurd hanc (by simp [ancestorsGo])
        · unfold ancestorsGo at hanc
          rw [if_neg hp0, hfind] at hanc
          simp only [Option.map_eq_map, Option.map_eq_some'] at hanc
          obtain ⟨l0, h0, rfl⟩ := hanc
          by_cases hdel : parent.is_deleted = true
          · rw [if_pos hdel] at h
            have hrel1 : List.Forall₂ (fun f f' => f' = f ∨ f' = undelMark f)
                db.files (updFile db parent.id undelMark).files :=
              undelRel_updFile db parent.id
            have hfp : (updFile db parent.id undelMark).files.find?
                (fun f => f.id == parent.id && f.user_id == uid) =
                some (undelMark parent) := by
              have hfu := findFile_updFile db parent.id parent.id uid undelMark
                (fun f => ⟨rfl, rfl⟩)
              unfold findFile at hfu
              rw [hfind2] at hfu
              simpa using hfu
            rcases List.mem_append.mp ha with ha0 | hap
            · obtain ⟨l0', h0', hrel0⟩ := ancestorsGo_undelRel f2 db _
                parent.parent_id uid l0 hrel1 h0
              obtain ⟨a', ha', hra⟩ := undelRel_mem_left l0 l0' hrel0 a ha0
              obtain ⟨f', hf', hfd⟩ := ih _ parent uid db' h f2 l0' h0' a' ha'
              have haid : a'.id = a.id := by
                rcases hra with rfl | rfl
                · rfl
                · rfl
              rw [haid] at hf'
              exact ⟨f', hf', hfd⟩
            · have haeq : a = parent := by simpa using hap
              subst haeq
              have hrel2 := restoreUpGo_rel n _ _ _ _ h
              obtain ⟨-, ts⟩ := undelRel_find? _ _ hrel2
                (fun f => f.id == a.id && f.user_id == uid) (fun f => rfl)
              obtain ⟨f', hf', hrf⟩ := ts _ hfp
              refine ⟨f', hf', ?_⟩
              rcases hrf with rfl | rfl
              · rfl
              · rfl
          · rw [if_neg hdel] at h
            simp only [Bool.not_eq_true] at hdel
            rcases List.mem_append.mp ha with ha0 | hap
            · exact ih _ parent uid db' h f2 l0 h0 a ha0
            · have haeq : a = parent := by simpa using hap
              subst haeq
              have hrel2 := restoreUpGo_rel n _ _ _ _ h
              obtain ⟨-, ts⟩ := undelRel_find? _ _ hrel2
                (fun f => f.id == a.id && f.user_id == uid) (fun f => rfl)
              obtain ⟨f', hf', hrf⟩ := ts _ hfind2
              refine ⟨f', hf', ?_⟩
              rcases hrf with rfl | rfl
              · exact hdel
              · rfl

end SkyDrive

namespace SkyDrive

/-- C4 (amended): `restore` un-deletes the found node and returns it; the
full pass only clears deleted marks (no row is otherwise changed); every
ancestor reported by `get_ancestors` is non-deleted afterwards; and every
*deleted child* of the node is un-deleted.  (Deleted descendants below a
non-deleted intermediate node are not reached; see the counterexample.) -/
theorem C4_restore_scope (fuel fuel2 : Nat) (db : DB) (id uid : Nat)
    (obj : FileMetaRec) (db' : DB) (r : Option FileMetaRec)
    (ancs : List FileMetaRec)
    (hfind : findFile db id uid = some obj)
    (hok : restoreOp fuel db id uid = some (db', r))
    (hanc : ancestorsGo fuel2 db obj.parent_id uid = some ancs) :
    List.Forall₂ (fun f f' => f' = f ∨ f' = undelMark f) db.files db'.files ∧
    (∃ f', findFile db' id uid = some f' ∧ f'.is_deleted = false ∧
      f'.deleted_at = none ∧ r = some f') ∧
    (∀ a ∈ ancs, ∃ f', findFile db' a.id uid = some f' ∧
      f'.is_deleted = false) ∧
    (obj.is_folder = true → ∀ c ∈ db.files, c.parent_id = obj.id →
      c.user_id = uid → c.is_deleted = true →
      ∀ f' ∈ db'.files, f'.id = c.id →
        f'.is_deleted = false ∧ f'.deleted_at = none) := by
  have hoid : obj.id = id ∧ obj.user_id = uid := by
    have hs := List.find?_some hfind
    simp only [Bool.and_eq_true, beq_iff_eq] at hs
    exact hs
  unfold restoreOp at hok
  rw [hfind] at hok
  simp only at hok
  rcases hdown : restoreDownGo fuel (updFile db id undelMark) (undelMark obj)
      uid with _ | db2
  · rw [hdown] at hok
    exact absurd hok (by simp)
  · rw [hdown] at hok
    simp only at hok
    rcases hup : restoreUpGo fuel db2 (undelMark obj) uid with _ | db3
    · rw [hup] at hok
      exact absurd hok (by simp)
    · rw [hup] at hok
      simp only [Option.some.injEq, Prod.mk.injEq] at hok
      obtain ⟨hdb, hr⟩ := hok
      subst hdb
      have rel1 : List.Forall₂ (fun f f' => f' = f ∨ f' = undelMark f)
          db.files (updFile db id undelMark).files := undelRel_updFile db id
      have rel2 := restoreDownGo_rel fuel _ _ _ _ hdown
      have rel3 := restoreUpGo_rel fuel _ _ _ _ hup
      have rel12 := undelRel_trans _ _ _ rel1 rel2
      have rel123 := undelRel_trans _ _ _ rel12 rel3
      have hfind1 : findFile (updFile db id undelMark) id uid =
          some (undelMark obj) := by
        have hfu := findFile_updFile db id id uid undelMark (fun f => ⟨rfl, rfl⟩)
        rw [hfind] at hfu
        rw [hfu]
        simp [hoid.1]
      refine ⟨rel123, ?_, ?_, ?_⟩
      · -- the node itself
        have rel23 := undelRel_trans _ _ _ rel2 rel3
        obtain ⟨-, ts⟩ := undelRel_find? _ _ rel23
          (fun f => f.id == id && f.user_id == uid) (fun f => rfl)
        obtain ⟨f', hf', hrf⟩ := ts _ hfind1
        refine ⟨f', hf', ?_, ?_, ?_⟩
        · rcases hrf with rfl | rfl
          · rfl
          · rfl
        · rcases hrf with rfl | rfl
          · rfl
          · rfl
        · rw [← hr]
          exact hf'.symm ▸ rfl
      · -- ancestors
        intro a ha
        obtain ⟨ancs', hanc', hrelA⟩ := ancestorsGo_undelRel fuel2 db db2
          obj.parent_id uid ancs rel12 hanc
        obtain ⟨a', ha', hra⟩ := undelRel_mem_left ancs ancs' hrelA a ha
        have hup2 : ancestorsGo fuel2 db2 (undelMark obj).parent_id uid =
            some ancs' := hanc'
        obtain ⟨f', hf', hfd⟩ := restoreUpGo_ancestors fuel db2 (undelMark obj)
          uid db3 hup fuel2 ancs' hup2 a' ha'
        have haid : a'.id = a.id := by
          rcases hra with rfl | rfl
          · rfl
          · rfl
        rw [haid] at hf'
        exact ⟨f', hf', hfd⟩
      · -- deleted children
        intro hfolder c hc hpar huser hcdel f' hf' hfid
        rcases fuel with _ | n
        · exact absurd hdown (by simp [restoreDownGo])
        · unfold restoreDownGo at hdown
          have hnf : ¬(!(undelMark obj).is_folder) = true := by
            simp [undelMark, hfolder]
          rw [if_neg hnf] at hdown
          simp only at hdown
          by_cases hcid : (c.id == id) = true
          · -- the child shares the node's id: already un-deleted up front
            have hall1 := updFile_allId db id
            have hall2 := undelRel_allId _ _ id rel2 hall1
            have hall3 := undelRel_allId _ _ id rel3 hall2
            have : f'.id = id := by
              rw [hfid]
              simpa using hcid
            exact hall3 f' hf' this
          · have hcin1 : c ∈ (updFile db id undelMark).files := by
              unfold updFile
              simp only [List.mem_map]
              exact ⟨c, hc, by rw [if_neg hcid]⟩
            have hcs : c ∈ (updFile db id undelMark).files.filter (fun f =>
                f.parent_id == (undelMark obj).id && f.user_id == uid &&
                  f.is_deleted) := by
              rw [List.mem_filter]
              refine ⟨hcin1, ?_⟩
              simp [hpar, huser, hcdel, undelMark]
            have hall2 := foldDown_children n uid _ _ _ hdown c hcs
            have hall3 := undelRel_allId _ _ c.id rel3 hall2
            exact hall3 f' hf' hfid

end SkyDrive

namespace SkyDrive

/-- C4 counterexample: in A(1, deleted) → X(2, active) → Y(3, deleted),
restoring node 1 succeeds but leaves its deleted grandchild 3 deleted —
the downward pass only recurses into *deleted* children, so the claim
"every descendant is non-deleted" fails. -/
theorem C4_counterexample :
    let fA : FileMetaRec :=
      { id := 1, user_id := 1, parent_id := 0, file_name := "A",
        is_folder := true, file_hash := none, is_deleted := true,
        deleted_at := some 5 }
    let fX : FileMetaRec :=
      { id := 2, user_id := 1, parent_id := 1, file_name := "X",
        is_folder := true, file_hash := none, is_deleted := false,
        deleted_at := none }
    let fY : FileMetaRec :=
      { id := 3, user_id := 1, parent_id := 2, file_name := "Y",
        is_folder := false, file_hash := none, is_deleted := true,
        deleted_at := some 5 }
    let db : DB := { cexBase with files := [fA, fX, fY], next_id := 4 }
    parF db 1 3 = some 2 ∧ parF db 1 2 = some 1 ∧
    (restoreOp 10 db 1 1).map (fun p =>
        p.1.files.map (fun f => (f.id, f.is_deleted))) =
      some [(1, false), (2, false), (3, true)] := by
  intro fA fX fY db
  refine ⟨by decide, by decide, by decide⟩

theorem C4_restore_scope_witness :
    let fA : FileMetaRec :=
      { id := 1, user_id := 1, parent_id := 0, file_name := "A",
        is_folder := true, file_hash := none, is_deleted := true,
        deleted_at := some 5 }
    let fB : FileMetaRec :=
      { id := 2, user_id := 1, parent_id := 1, file_name := "B",
        is_folder := false, file_hash := none, is_deleted := true,
        deleted_at := some 5 }
    let db : DB := { cexBase with files := [fA, fB], next_id := 3 }
    ∃ p : DB × Option FileMetaRec, restoreOp 10 db 2 1 = some p ∧
      (List.Forall₂ (fun f f' => f' = f ∨ f' = undelMark f)
          db.files p.1.files ∧
        (∃ f', findFile p.1 2 1 = some f' ∧ f'.is_deleted = false ∧
          f'.deleted_at = none ∧ p.2 = some f') ∧
        (∀ a ∈ [fA], ∃ f', findFile p.1 a.id 1 = some f' ∧
          f'.is_deleted = false) ∧
        (fB.is_folder = true → ∀ c ∈ db.files, c.parent_id = fB.id →
          c.user_id = 1 → c.is_deleted = true →
          ∀ f' ∈ p.1.files, f'.id = c.id →
            f'.is_deleted = false ∧ f'.deleted_at = none)) := by
  intro fA fB db
  exact ⟨_, rfl, C4_restore_scope 10 10 db 2 1 fB _ _ [fA] rfl rfl rfl⟩

end SkyDrive

namespace SkyDrive

theorem find?_nodup_mem (l : List FileMetaRec) (c uid : Nat) (f : FileMetaRec)
    (hnodup : (l.map (fun g => g.id)).Nodup) (hf : f ∈ l) (hid : f.id = c)
    (huser : f.user_id = uid) :
    l.find? (fun g => g.id == c && g.user_id == uid) = some f := by
  induction l with
  | nil => simp at hf
  | cons x t ih =>
    rcases List.mem_cons.mp hf with rfl | hft
    · rw [List.find?_cons_of_pos _ (by simp [hid, huser])]
    · have hxid : x.id ∉ t.map (fun g => g.id) :=
        (List.nodup_cons.mp hnodup).1
      have hfid : f.id ∈ t.map (fun g => g.id) :=
        List.mem_map.mpr ⟨f, hft, rfl⟩
      have hne : x.id ≠ c := by
        intro hxc
        rw [← hid] at hxc
        rw [hxc] at hxid
        exact hxid hfid
      rw [List.find?_cons_of_neg _ (by simp [hne])]
      exact ih (List.nodup_cons.mp hnodup).2 hft

theorem storesRel_refl (l : List FileStoreRec) :
    List.Forall₂ (fun s s' : FileStoreRec =>
      s'.file_hash = s.file_hash ∧ s'.real_path = s.real_path ∧
      s'.file_size = s.file_size ∧
      s'.ref_count = s.ref_count + ((([] : List FileMetaRec).filter (fun f =>
        !f.is_folder && f.file_hash == some s.file_hash)).length : Int)) l l := by
  induction l with
  | nil => exact List.Forall₂.nil
  | cons a t ih => exact List.Forall₂.cons ⟨rfl, rfl, rfl, by simp⟩ ih

theorem storesRel_comp (a1 a2 : List FileMetaRec) :
    ∀ l1 l2 l3 : List FileStoreRec,
    List.Forall₂ (fun s s' : FileStoreRec =>
      s'.file_hash = s.file_hash ∧ s'.real_path = s.real_path ∧
      s'.file_size = s.file_size ∧
      s'.ref_count = s.ref_count + ((a1.filter (fun f =>
        !f.is_folder && f.file_hash == some s.file_hash)).length : Int)) l1 l2 →
    List.Forall₂ (fun s s' : FileStoreRec =>
      s'.file_hash = s.file_hash ∧ s'.real_path = s.real_path ∧
      s'.file_size = s.file_size ∧
      s'.ref_count = s.ref_count + ((a2.filter (fun f =>
        !f.is_folder && f.file_hash == some s.file_hash)).length : Int)) l2 l3 →
    List.Forall₂ (fun s s' : FileStoreRec =>
      s'.file_hash = s.file_hash ∧ s'.real_path = s.real_path ∧
      s'.file_size = s.file_size ∧
      s'.ref_count = s.ref_count + (((a1 ++ a2).filter (fun f =>
        !f.is_folder && f.file_hash == some s.file_hash)).length : Int)) l1 l3 := by
  intro l1
  induction l1 with
  | nil =>
    intro l2 l3 h12 h23
    cases h12
    cases h23
    exact List.Forall₂.nil
  | cons s1 t1 ih =>
    intro l2 l3 h12 h23
    cases h12 with
    | @cons _ s2 _ t2 hr12 ht12 =>
      cases h23 with
      | @cons _ s3 _ t3 hr23 ht23 =>
        refine List.Forall₂.cons ?_ (ih _ _ ht12 ht23)
        obtain ⟨e1, e2, e3, e4⟩ := hr12
        obtain ⟨g1, g2, g3, g4⟩ := hr23
        refine ⟨g1.trans e1, g2.trans e2, g3.trans e3, ?_⟩
        rw [g4, e4, e1]
        rw [List.filter_append, List.length_append]
        push_cast
        ring

end SkyDrive

namespace SkyDrive

theorem storesRel_one_skip (nd : FileMetaRec)
    (hskip : ∀ s : FileStoreRec,
      (!nd.is_folder && nd.file_hash == some s.file_hash) = false) :
    ∀ l : List FileStoreRec,
    List.Forall₂ (fun s s' : FileStoreRec =>
      s'.file_hash = s.file_hash ∧ s'.real_path = s.real_path ∧
      s'.file_size = s.file_size ∧
      s'.ref_count = s.ref_count + (([nd].filter (fun f =>
        !f.is_folder && f.file_hash == some s.file_hash)).length : Int)) l l := by
  intro l
  induction l with
  | nil => exact List.Forall₂.nil
  | cons a t ih =>
    refine List.Forall₂.cons ⟨rfl, rfl, rfl, ?_⟩ ih
    rw [List.filter_cons_of_neg (by simp [hskip a])]
    simp

theorem storesRel_bump (nd : FileMetaRec) (h : String)
    (hnf : nd.is_folder = false) (hh : nd.file_hash = some h) :
    ∀ l : List FileStoreRec,
    List.Forall₂ (fun s s' : FileStoreRec =>
      s'.file_hash = s.file_hash ∧ s'.real_path = s.real_path ∧
      s'.file_size = s.file_size ∧
      s'.ref_count = s.ref_count + (([nd].filter (fun f =>
        !f.is_folder && f.file_hash == some s.file_hash)).length : Int))
      l (l.map (fun s =>
        if s.file_hash == h then { s with ref_count := s.ref_count + 1 }
        else s)) := by
  intro l
  induction l with
  | nil => exact List.Forall₂.nil
  | cons a t ih =>
    refine List.Forall₂.cons ?_ ih
    simp only
    by_cases ha : (a.file_hash == h) = true
    · rw [if_pos ha]
      refine ⟨rfl, rfl, rfl, ?_⟩
      have : a.file_hash = h := by simpa using ha
      rw [List.filter_cons_of_pos (by simp [hnf, hh, this])]
      simp
    · rw [if_neg ha]
      refine ⟨rfl, rfl, rfl, ?_⟩
      have : ¬ a.file_hash = h := by simpa using ha
      rw [List.filter_cons_of_neg (by simp [hnf, hh]; exact fun hc => this hc.symm)]
      simp

end SkyDrive

namespace SkyDrive

theorem find?_append_left {α : Type} (l1 l2 : List α) (p : α → Bool) (a : α)
    (h : l1.find? p = some a) : (l1 ++ l2).find? p = some a := by
  induction l1 with
  | nil => simp at h
  | cons x t ih =>
    by_cases hx : p x = true
    · rw [List.find?_cons_of_pos _ hx] at h
      rw [List.cons_append, List.find?_cons_of_pos _ hx]
      exact h
    · rw [List.find?_cons_of_neg _ hx] at h
      rw [List.cons_append, List.find?_cons_of_neg _ hx]
      exact ih h

theorem nodup_snoc_fresh (l : List FileMetaRec) (x : FileMetaRec)
    (hb : ∀ f ∈ l, f.id < x.id) (hn : (l.map (fun f => f.id)).Nodup) :
    ((l ++ [x]).map (fun f => f.id)).Nodup := by
  rw [List.map_append, List.nodup_append]
  refine ⟨hn, List.nodup_singleton _, ?_⟩
  intro y hy hy2
  simp only [List.mem_map] at hy
  obtain ⟨f, hf, rfl⟩ := hy
  simp only [List.map_cons, List.map_nil, List.mem_singleton] at hy2
  have := hb f hf
  rw [hy2] at this
  exact Nat.lt_irrefl _ this

theorem copyGo_effects : ∀ (fuel : Nat) (db : DB) (id tpid uid : Nat)
    (db' : DB) (r : Option FileMetaRec),
    (∀ f ∈ db.files, f.id < db.next_id) →
    ((db.files.map (fun f => f.id)).Nodup) →
    copyGo fuel db id tpid uid = some (db', r) →
    ∃ added : List FileMetaRec,
      db'.files = db.files ++ added ∧
      db.next_id ≤ db'.next_id ∧
      (∀ f' ∈ added, f'.is_deleted = false ∧ db.next_id ≤ f'.id ∧
        f'.id < db'.next_id) ∧
      (added.map (fun f => f.id)).Nodup ∧
      List.Forall₂ (fun s s' : FileStoreRec =>
        s'.file_hash = s.file_hash ∧ s'.real_path = s.real_path ∧
        s'.file_size = s.file_size ∧
        s'.ref_count = s.ref_count + ((added.filter (fun f =>
          !f.is_folder && f.file_hash == some s.file_hash)).length : Int))
        db.stores db'.stores ∧
      (∀ f' ∈ added, f'.id = db.next_id ∨ ∃ src ∈ db.files ++ added,
        src.is_deleted = false ∧ src.is_folder = f'.is_folder ∧
        src.file_hash = f'.file_hash) ∧
      (r = none → added = []) ∧
      (∀ nd, r = some nd → ∃ rest obj0, added = nd :: rest ∧
        nd.id = db.next_id ∧ findFile db id uid = some obj0 ∧
        nd.is_folder = obj0.is_folder ∧ nd.file_hash = obj0.file_hash ∧
        ∀ f' ∈ rest, db.next_id < f'.id) := by
  intro fuel
  induction fuel with
  | zero =>
    intro db id tpid uid db' r hfresh hnodup hok
    exact absurd hok (by simp [copyGo])
  | succ n ih =>
    intro db id tpid uid db' r hfresh hnodup hok
    unfold copyGo at hok
    rcases hfind : findFile db id uid with _ | obj
    · rw [hfind] at hok
      simp only [Option.some.injEq, Prod.mk.injEq] at hok
      obtain ⟨rfl, rfl⟩ := hok.symm
      refine ⟨[], by simp, Nat.le_refl _, by simp, by simp, ?_, by simp,
        fun _ => rfl, ?_⟩
      · exact storesRel_refl db.stores
      · intro nd hnd
        exact absurd hnd (by simp)
    · rw [hfind] at hok
      simp only at hok
      rcases hu : crud_get_unique_filename db uid tpid obj.file_name (n + 1)
          with _ | uname
      · rw [hu] at hok
        exact absurd hok (by simp)
      · rw [hu] at hok
        simp only at hok
        by_cases hfold : (!obj.is_folder) = true
        · rw [if_pos hfold] at hok
          simp only [Bool.not_eq_true'] at hfold
          rcases hh : obj.file_hash with _ | h
          · rw [hh] at hok
            simp only [Option.some.injEq, Prod.mk.injEq] at hok
            obtain ⟨rfl, rfl⟩ := hok.symm
            refine ⟨_, rfl, by simp, ?_, by simp, ?_, ?_, ?_, ?_⟩
            · intro f' hf'
              obtain rfl : f' = _ := by simpa using hf'
              exact ⟨rfl, Nat.le_refl _, by simp⟩
            · refine storesRel_one_skip _ ?_ db.stores
              intro s
              simp [hh]
            · intro f' hf'
              obtain rfl : f' = _ := by simpa using hf'
              exact Or.inl rfl
            · intro hr
              exact absurd hr (by simp)
            · intro nd hnd
              injection hnd with hnd2
              subst hnd2
              exact ⟨[], obj, rfl, rfl, rfl, rfl, hh.symm,
                fun f' hf' => absurd hf' (by simp)⟩
          · rw [hh] at hok
            simp only [Option.some.injEq, Prod.mk.injEq] at hok
            obtain ⟨rfl, rfl⟩ := hok.symm
            refine ⟨_, increment_files _ h, Nat.le_succ _, ?_, by simp,
              ?_, ?_, ?_, ?_⟩
            · intro f' hf'
              obtain rfl : f' = _ := by simpa using hf'
              exact ⟨rfl, Nat.le_refl _, Nat.lt_succ_self _⟩
            · exact storesRel_bump
                  { id := db.next_id, user_id := uid, parent_id := tpid,
                    file_name := uname, is_folder := obj.is_folder,
                    file_hash := some h, is_deleted := false,
                    deleted_at := none } h hfold rfl db.stores
            · intro f' hf'
              obtain rfl : f' = _ := by simpa using hf'
              exact Or.inl rfl
            · intro hr
              exact absurd hr (by simp)
            · intro nd hnd
              injection hnd with hnd2
              subst hnd2
              exact ⟨[], obj, rfl, rfl, rfl, rfl, hh.symm,
                fun f' hf' => absurd hf' (by simp)⟩
        · rw [if_neg hfold] at hok
          have hft : obj.is_folder = true := by
            revert hfold
            cases obj.is_folder <;> simp
          have aux : ∀ (K : Nat) (cs : List Nat) (acc db2 : DB),
              (∀ f ∈ acc.files, f.id < acc.next_id) →
              ((acc.files.map (fun f => f.id)).Nodup) →
              (∀ c ∈ cs, ∃ fc, findFile acc c uid = some fc ∧
                fc.is_deleted = false) →
              cs.foldlM (fun a c =>
                (copyGo n a c K uid).map (fun r => r.1)) acc = some db2 →
              ∃ added : List FileMetaRec,
                db2.files = acc.files ++ added ∧
                acc.next_id ≤ db2.next_id ∧
                (∀ f' ∈ added, f'.is_deleted = false ∧ acc.next_id ≤ f'.id ∧
                  f'.id < db2.next_id) ∧
                (added.map (fun f => f.id)).Nodup ∧
                List.Forall₂ (fun s s' : FileStoreRec =>
                  s'.file_hash = s.file_hash ∧ s'.real_path = s.real_path ∧
                  s'.file_size = s.file_size ∧
                  s'.ref_count = s.ref_count + ((added.filter (fun f =>
                    !f.is_folder && f.file_hash == some s.file_hash)).length :
                      Int)) acc.stores db2.stores ∧
                (∀ f' ∈ added, ∃ src ∈ acc.files ++ added,
                  src.is_deleted = false ∧ src.is_folder = f'.is_folder ∧
                  src.file_hash = f'.file_hash) := by
            intro K cs
            induction cs with
            | nil =>
              intro acc db2 hfr hnd hact h
              obtain rfl : acc = db2 := Option.some.inj h
              exact ⟨[], by simp, Nat.le_refl _, by simp, by simp,
                storesRel_refl acc.stores, by simp⟩
            | cons c ct ihc =>
              intro acc db2 hfr hnd hact h
              simp only [List.foldlM_cons] at h
              rcases h1 : copyGo n acc c K uid with _ | p
              · rw [h1] at h
                exact absurd h (by simp)
              · rw [h1] at h
                simp only [Option.map_some', Option.some_bind] at h
                obtain ⟨a1, A1, N1, B1, G1, C1, D1, Fn1, Fs1⟩ :=
                  ih acc c K uid p.1 p.2 hfr hnd h1
                have hfr1 : ∀ f ∈ p.1.files, f.id < p.1.next_id := by
                  intro f hf
                  rw [A1] at hf
                  rcases List.mem_append.mp hf with hl | hr
                  · exact Nat.lt_of_lt_of_le (hfr f hl) N1
                  · exact (B1 f hr).2.2
                have hnd1 : (p.1.files.map (fun f => f.id)).Nodup := by
                  rw [A1, List.map_append]
                  rw [List.nodup_append]
                  refine ⟨hnd, G1, ?_⟩
                  intro x hx hx2
                  simp only [List.mem_map] at hx hx2
                  obtain ⟨f, hf, rfl⟩ := hx
                  obtain ⟨g, hg, hgid⟩ := hx2
                  have h3 := hfr f hf
                  have h4 := (B1 g hg).2.1
                  rw [hgid] at h4
                  exact Nat.lt_irrefl _ (Nat.lt_of_lt_of_le h3 h4)
                have hact1 : ∀ c2 ∈ ct, ∃ fc, findFile p.1 c2 uid = some fc ∧
                    fc.is_deleted = false := by
                  intro c2 hc2
                  obtain ⟨fc, hfc, hfcd⟩ := hact c2 (List.mem_cons_of_mem c hc2)
                  refine ⟨fc, ?_, hfcd⟩
                  unfold findFile at hfc ⊢
                  rw [A1]
                  exact find?_append_left _ _ _ _ hfc
                obtain ⟨a2, A2, N2, B2, G2, C2, D2⟩ :=
                  ihc p.1 db2 hfr1 hnd1 hact1 h
                refine ⟨a1 ++ a2, ?_, Nat.le_trans N1 N2, ?_, ?_, ?_, ?_⟩
                · rw [A2, A1, List.append_assoc]
                · intro f' hf'
                  rcases List.mem_append.mp hf' with hl | hr
                  · obtain ⟨e1, e2, e3⟩ := B1 f' hl
                    exact ⟨e1, e2, Nat.lt_of_lt_of_le e3 N2⟩
                  · obtain ⟨e1, e2, e3⟩ := B2 f' hr
                    exact ⟨e1, Nat.le_trans N1 e2, e3⟩
                · rw [List.map_append, List.nodup_append]
                  refine ⟨G1, G2, ?_⟩
                  intro x hx hx2
                  simp only [List.mem_map] at hx hx2
                  obtain ⟨f, hf, rfl⟩ := hx
                  obtain ⟨g, hg, hgid⟩ := hx2
                  have h3 := (B1 f hf).2.2
                  have h4 := (B2 g hg).2.1
                  rw [hgid] at h4
                  exact Nat.lt_irrefl _ (Nat.lt_of_lt_of_le h3 h4)
                · exact storesRel_comp a1 a2 _ _ _ C1 C2
                · intro f' hf'
                  rcases List.mem_append.mp hf' with hl | hr
                  · rcases D1 f' hl with hid | ⟨src, hsrc, hs1, hs2, hs3⟩
                    · -- f' is the clone made by this step
                      rcases hp2 : p.2 with _ | nd
                      · rw [Fn1 hp2] at hl
                        exact absurd hl (by simp)
                      · obtain ⟨rest, obj0, ha1, hndid, hfobj, hm1, hm2, hrest⟩ :=
                          Fs1 nd hp2
                        obtain ⟨fc, hfc, hfcd⟩ :=
                          hact c (List.mem_cons_self c ct)
                        have hobj0 : obj0 = fc := by
                          rw [hfobj] at hfc
                          exact Option.some.inj hfc
                        subst hobj0
                        have hf'nd : f' = nd := by
                          rw [ha1] at hl
                          rcases List.mem_cons.mp hl with rfl | hrr
                          · rfl
                          · exact absurd hid (Nat.ne_of_gt (hrest f' hrr))
                        subst hf'nd
                        refine ⟨obj0, ?_, hfcd, hm1.symm, hm2.symm⟩
                        have : obj0 ∈ acc.files := by
                          unfold findFile at hfobj
                          exact List.mem_of_find?_eq_some hfobj
                        exact List.mem_append_left _ this
                    · refine ⟨src, ?_, hs1, hs2, hs3⟩
                      rcases List.mem_append.mp hsrc with h5 | h6
                      · exact List.mem_append_left _ h5
                      · exact List.mem_append_right _ (List.mem_append_left _ h6)
                  · obtain ⟨src, hsrc, hs1, hs2, hs3⟩ := D2 f' hr
                    refine ⟨src, ?_, hs1, hs2, hs3⟩
                    rw [A1, List.append_assoc] at hsrc
                    exact hsrc
          split at hok
          · exact absurd hok (by simp)
          · rename_i db2 hfd
            simp only [Option.some.injEq, Prod.mk.injEq] at hok
            obtain ⟨rfl, rfl⟩ := hok.symm
            set nn : FileMetaRec :=
              { id := db.next_id, user_id := uid, parent_id := tpid,
                file_name := uname, is_folder := obj.is_folder,
                file_hash := obj.file_hash, is_deleted := false,
                deleted_at := none } with hnn
            set acc1 : DB :=
              { db with files := db.files ++ [nn], next_id := db.next_id + 1 }
              with hacc1
            have hfr1 : ∀ f ∈ acc1.files, f.id < acc1.next_id := by
              intro f hf
              rcases List.mem_append.mp hf with hl | hr
              · exact Nat.lt_succ_of_lt (hfresh f hl)
              · obtain rfl : f = nn := by simpa using hr
                exact Nat.lt_succ_self _
            have hnd1 : (acc1.files.map (fun f => f.id)).Nodup :=
              nodup_snoc_fresh db.files nn (fun f hf => hfresh f hf) hnodup
            have hact1 : ∀ c ∈ (acc1.files.filter (fun f =>
                f.parent_id == id && f.user_id == uid && !f.is_deleted)).map
                  (fun f => f.id),
                ∃ fc, findFile acc1 c uid = some fc ∧
                  fc.is_deleted = false := by
              intro c hc
              simp only [List.mem_map, List.mem_filter] at hc
              obtain ⟨f, ⟨hfmem, hpred⟩, rfl⟩ := hc
              simp only [Bool.and_eq_true, beq_iff_eq,
                Bool.not_eq_true'] at hpred
              exact ⟨f, find?_nodup_mem acc1.files f.id uid f hnd1 hfmem rfl
                hpred.1.2, hpred.2⟩
            obtain ⟨a, A, N, B, G, C, D⟩ :=
              aux db.next_id _ acc1 db2 hfr1 hnd1 hact1 hfd
            refine ⟨nn :: a, ?_, ?_, ?_, ?_, ?_, ?_, ?_, ?_⟩
            · rw [A, show acc1.files = db.files ++ [nn] from rfl,
                List.append_assoc]
              rfl
            · exact Nat.le_trans (Nat.le_succ _) N
            · intro f' hf'
              rcases List.mem_cons.mp hf' with rfl | hr
              · exact ⟨rfl, Nat.le_refl _,
                  Nat.lt_of_lt_of_le (Nat.lt_succ_self _) N⟩
              · obtain ⟨e1, e2, e3⟩ := B f' hr
                exact ⟨e1, Nat.le_trans (Nat.le_succ _) e2, e3⟩
            · rw [List.map_cons, List.nodup_cons]
              refine ⟨?_, G⟩
              intro hmem
              simp only [List.mem_map] at hmem
              obtain ⟨g, hg, hgid⟩ := hmem
              have hb2 := (B g hg).2.1
              rw [hgid] at hb2
              exact Nat.not_succ_le_self db.next_id hb2
            · refine storesRel_comp [nn] a db.stores db.stores db2.stores
                ?_ C
              refine storesRel_one_skip nn ?_ db.stores
              intro s
              simp [hnn, hft]
            · intro f' hf'
              rcases List.mem_cons.mp hf' with rfl | hr
              · exact Or.inl rfl
              · obtain ⟨src, hsrc, hs1, hs2, hs3⟩ := D f' hr
                refine Or.inr ⟨src, ?_, hs1, hs2, hs3⟩
                rw [show acc1.files = db.files ++ [nn] from rfl,
                  List.append_assoc] at hsrc
                exact hsrc
            · intro hr
              exact absurd hr (by simp)
            · intro nd hnd
              injection hnd with h2
              subst h2
              exact ⟨a, obj, rfl, rfl, rfl, rfl, rfl,
                fun f' hf' => (B f' hf').2.1⟩



/-- C10: copying a node (with fresh primary keys) appends only brand-new,
non-deleted rows; every cloned row below the root of the copy mirrors an
*active* row (so no soft-deleted descendant acquires a counterpart); and
each blob's reference count grows exactly by the number of cloned file
rows carrying its hash — deleted children contribute nothing. -/
theorem C10_copy_skips_deleted (fuel : Nat) (db : DB) (id tpid uid : Nat)
    (db' : DB) (nd : FileMetaRec)
    (hfresh : ∀ f ∈ db.files, f.id < db.next_id)
    (hnodup : (db.files.map (fun f => f.id)).Nodup)
    (hok : copyGo fuel db id tpid uid = some (db', some nd)) :
    ∃ rest : List FileMetaRec,
      db'.files = db.files ++ (nd :: rest) ∧
      (∀ f' ∈ nd :: rest, f'.is_deleted = false ∧ db.next_id ≤ f'.id) ∧
      (∀ f' ∈ nd :: rest, f'.id = db.next_id ∨
        ∃ src ∈ db.files ++ (nd :: rest), src.is_deleted = false ∧
          src.is_folder = f'.is_folder ∧ src.file_hash = f'.file_hash) ∧
      List.Forall₂ (fun s s' : FileStoreRec =>
        s'.file_hash = s.file_hash ∧ s'.real_path = s.real_path ∧
        s'.file_size = s.file_size ∧
        s'.ref_count = s.ref_count + (((nd :: rest).filter (fun f =>
          !f.is_folder && f.file_hash == some s.file_hash)).length : Int))
        db.stores db'.stores := by
  obtain ⟨added, A, N, B, G, C, D, Fn, Fs⟩ :=
    copyGo_effects fuel db id tpid uid db' (some nd) hfresh hnodup hok
  obtain ⟨rest, obj0, ha, hndid, hfobj, hm1, hm2, hrest⟩ := Fs nd rfl
  subst ha
  exact ⟨rest, A, fun f' hf' => ⟨(B f' hf').1, (B f' hf').2.1⟩, D, C⟩

theorem C10_copy_skips_deleted_witness :
    let fA : FileMetaRec :=
      { id := 1, user_id := 1, parent_id := 0, file_name := "A",
        is_folder := true, file_hash := none, is_deleted := false,
        deleted_at := none }
    let fB : FileMetaRec :=
      { id := 2, user_id := 1, parent_id := 1, file_name := "B",
        is_folder := false, file_hash := some "x", is_deleted := false,
        deleted_at := none }
    let fC : FileMetaRec :=
      { id := 3, user_id := 1, parent_id := 1, file_name := "C",
        is_folder := false, file_hash := some "y", is_deleted := true,
        deleted_at := some 7 }
    let sX : FileStoreRec :=
      { file_hash := "x", real_path := "vol/x", file_size := 1,
        ref_count := 1 }
    let sY : FileStoreRec :=
      { file_hash := "y", real_path := "vol/y", file_size := 1,
        ref_count := 1 }
    let db : DB :=
      { cexBase with files := [fA, fB, fC], stores := [sX, sY], next_id := 4 }
    ∃ p : DB × Option FileMetaRec, ∃ nd : FileMetaRec,
      copyGo 10 db 1 0 1 = some p ∧ p.2 = some nd ∧
      (∃ rest : List FileMetaRec,
        p.1.files = db.files ++ (nd :: rest) ∧
        (∀ f' ∈ nd :: rest, f'.is_deleted = false ∧ db.next_id ≤ f'.id) ∧
        (∀ f' ∈ nd :: rest, f'.id = db.next_id ∨
          ∃ src ∈ db.files ++ (nd :: rest), src.is_deleted = false ∧
            src.is_folder = f'.is_folder ∧ src.file_hash = f'.file_hash) ∧
        List.Forall₂ (fun s s' : FileStoreRec =>
          s'.file_hash = s.file_hash ∧ s'.real_path = s.real_path ∧
          s'.file_size = s.file_size ∧
          s'.ref_count = s.ref_count + (((nd :: rest).filter (fun f =>
            !f.is_folder && f.file_hash == some s.file_hash)).length : Int))
          db.stores p.1.stores) ∧
      ((p.1.files.filter (fun f => f.file_hash == some "y")).map
        (fun f => f.id) = [3]) ∧
      ((p.1.stores.map (fun s => (s.file_hash, s.ref_count))) =
        [("x", 2), ("y", 1)]) := by
  intro fA fB fC sX sY db
  refine ⟨_, _, rfl, rfl,
    C10_copy_skips_deleted 10 db 1 0 1 _ _ (by decide) (by decide) rfl,
    by decide, by decide⟩

end SkyDrive

namespace SkyDrive

theorem decRel_frame (db : DB) (h : String) :
    (decrement_and_release db h).1.files = db.files ∧
    (decrement_and_release db h).1.users = db.users ∧
    (decrement_and_release db h).1.chunks = db.chunks := by
  unfold decrement_and_release
  rcases h2 : (decrement_ref_count db h).2 with _ | s
  · simp only [h2]
    exact ⟨rfl, rfl, rfl⟩
  · simp only [h2]
    by_cases hle : s.ref_count ≤ 0
    · simp only [hle, if_true, ite_true]
      exact ⟨rfl, rfl, rfl⟩
    · simp only [hle, if_false, ite_false]
      exact ⟨rfl, rfl, rfl⟩

theorem decRel_other (db : DB) (h h' : String) (hne : h' ≠ h) :
    hashStores (decrement_and_release db h).1 h' = hashStores db h' := by
  have hf : ∀ t : FileStoreRec,
      ((if t.file_hash == h then ({ t with ref_count := t.ref_count - 1 } :
        FileStoreRec) else t).file_hash == h') = (t.file_hash == h') := by
    intro t
    by_cases ht : t.file_hash == h <;> simp [ht]
  have hmap : hashStores (decrement_ref_count db h).1 h' =
      hashStores db h' := by
    show (db.stores.map _).filter _ = _
    rw [filter_map_comm
      (fun t : FileStoreRec =>
        if t.file_hash == h then { t with ref_count := t.ref_count - 1 } else t)
      (fun t : FileStoreRec => t.file_hash == h') hf]
    have hid : ∀ t ∈ db.stores.filter (fun u : FileStoreRec =>
        u.file_hash == h'),
        (if t.file_hash == h then ({ t with ref_count := t.ref_count - 1 } :
          FileStoreRec) else t) = t := by
      intro t ht
      have ht0 : (t.file_hash == h') = true := (List.mem_filter.mp ht).2
      have ht' : t.file_hash = h' := by simpa using ht0
      rw [if_neg (by simp [ht', hne])]
    exact (List.map_congr_left hid).trans (by simp [hashStores])
  unfold decrement_and_release
  rcases h2 : (decrement_ref_count db h).2 with _ | s
  · simp only [h2]
    exact hmap
  · simp only [h2]
    by_cases hle : s.ref_count ≤ 0
    · simp only [hle, if_true, ite_true]
      show ((decrement_ref_count db h).1.stores.filter
        (fun t => !(t.file_hash == h))).filter
          (fun t : FileStoreRec => t.file_hash == h') = _
      rw [List.filter_filter]
      rw [List.filter_congr (fun t ht => ?_), ← hmap]
      · rfl
      · show ((t.file_hash == h') && !(t.file_hash == h)) = (t.file_hash == h')
        by_cases ht' : (t.file_hash == h') = true
        · have ht2 : t.file_hash = h' := by simpa using ht'
          simp [ht', ht2, hne]
        · simp at ht'
          simp [ht']
    · simp only [hle, if_false, ite_false]
      exact hmap

theorem decRel_self (db : DB) (h : String) (s : FileStoreRec)
    (hs : hashStores db h = [s]) :
    (s.ref_count ≤ 1 → hashStores (decrement_and_release db h).1 h = []) ∧
    (1 < s.ref_count → hashStores (decrement_and_release db h).1 h =
      [{ s with ref_count := s.ref_count - 1 }]) := by
  have hps : (s.file_hash == h) = true :=
    filter_eq_single_pred (fun t : FileStoreRec => t.file_hash == h) hs
  have hf : ∀ t : FileStoreRec,
      ((if t.file_hash == h then ({ t with ref_count := t.ref_count - 1 } :
        FileStoreRec) else t).file_hash == h) = (t.file_hash == h) := by
    intro t
    by_cases ht : t.file_hash == h <;> simp [ht]
  have hfind : db.stores.find? (fun t => t.file_hash == h) = some s :=
    filter_eq_single_find? hs
  have hdec2 : (decrement_ref_count db h).2 =
      some { s with ref_count := s.ref_count - 1 } := by
    show (db.stores.map (fun t : FileStoreRec =>
        if t.file_hash == h then { t with ref_count := t.ref_count - 1 }
        else t)).find? (fun t : FileStoreRec => t.file_hash == h) = _
    rw [find?_map_comm
      (fun t : FileStoreRec =>
        if t.file_hash == h then { t with ref_count := t.ref_count - 1 } else t)
      (fun t : FileStoreRec => t.file_hash == h) hf, hfind]
    simp only [Option.map_some']
    rw [if_pos hps]
  constructor
  · intro h1
    have hle : ({ s with ref_count := s.ref_count - 1 } :
        FileStoreRec).ref_count ≤ 0 := by
      simp
      omega
    unfold decrement_and_release
    simp only [hdec2, hle, if_true, ite_true]
    exact filter_not_filter_self _ _
  · intro h1
    have hgt : ¬ ({ s with ref_count := s.ref_count - 1 } :
        FileStoreRec).ref_count ≤ 0 := by
      simp
      omega
    unfold decrement_and_release
    simp only [hdec2, hgt, if_false, ite_false]
    show (db.stores.map _).filter _ = _
    have hs2 : db.stores.filter (fun t : FileStoreRec => t.file_hash == h) =
        [s] := hs
    rw [filter_map_comm
      (fun t : FileStoreRec =>
        if t.file_hash == h then { t with ref_count := t.ref_count - 1 } else t)
      (fun t : FileStoreRec => t.file_hash == h) hf, hs2]
    simp only [List.map_cons, List.map_nil]
    rw [if_pos hps]

end SkyDrive

namespace SkyDrive

theorem nodup_ids_filter (l : List FileMetaRec) (q : FileMetaRec → Bool)
    (h : (l.map (fun f => f.id)).Nodup) :
    ((l.filter q).map (fun f => f.id)).Nodup :=
  h.sublist ((l.filter_sublist).map (fun f => f.id))

theorem permFold (db : DB) (uid m : Nat) :
    ∀ (ks : List FileMetaRec) (acc db1 : DB),
    (∀ f ∈ ks, f.is_folder = false) →
    (∀ f ∈ ks, f.user_id = uid) →
    ((ks.map (fun f => f.id)).Nodup) →
    (∀ f ∈ ks, ∀ g ∈ ks, ∀ h, f.file_hash = some h → g.file_hash = some h →
      f = g) →
    (∀ f ∈ ks, findFile acc f.id uid = some f) →
    (∀ f ∈ ks, ∀ h, f.file_hash = some h →
      hashStores acc h = hashStores db h) →
    ((acc.files.map (fun f => f.id)).Nodup) →
    ((ks.map (fun f => f.id)).foldlM (fun a c =>
      (permRemoveGo m a c uid).map (fun r => r.1)) acc = some db1) →
    (∀ g ∈ db1.files, g ∈ acc.files ∧ ∀ f ∈ ks, g.id ≠ f.id) ∧
    db1.users = acc.users ∧
    ((db1.files.map (fun f => f.id)).Nodup) ∧
    (∀ h', (∀ f ∈ ks, f.file_hash ≠ some h') →
      hashStores db1 h' = hashStores acc h') ∧
    (∀ f ∈ ks, ∀ h, f.file_hash = some h → ∀ s0, hashStores db h = [s0] →
      (s0.ref_count ≤ 1 → hashStores db1 h = []) ∧
      (1 < s0.ref_count → hashStores db1 h =
        [{ s0 with ref_count := s0.ref_count - 1 }])) := by
  intro ks
  induction ks with
  | nil =>
    intro acc db1 _ _ _ _ _ _ hnd hfold
    obtain rfl : acc = db1 := Option.some.inj hfold
    exact ⟨fun g hg => ⟨hg, by simp⟩, rfl, hnd, fun h' _ => rfl,
      fun f hf => absurd hf (by simp)⟩
  | cons f0 kt ihc =>
    intro acc db1 hkfile huser hknd hkdist hI1 hI2 hnd hfold
    simp only [List.map_cons, List.foldlM_cons] at hfold
    rcases h1 : permRemoveGo m acc f0.id uid with _ | rr
    · rw [h1] at hfold
      exact absurd hfold (by simp)
    · rw [h1] at hfold
      simp only [Option.map_some', Option.some_bind] at hfold
      -- f0.id is not among the tail ids
      have hf0nt : ∀ g ∈ kt, g.id ≠ f0.id := by
        intro g hg he
        exact (List.nodup_cons.mp hknd).1 (List.mem_map.mpr ⟨g, hg, he⟩)
      have main : ∀ (acc1 : DB),
          acc1.files = acc.files.filter (fun f => !(f.id == f0.id)) →
          acc1.users = acc.users →
          (∀ h', f0.file_hash ≠ some h' →
            hashStores acc1 h' = hashStores acc h') →
          (∀ h, f0.file_hash = some h → ∀ s0, hashStores db h = [s0] →
            (s0.ref_count ≤ 1 → hashStores acc1 h = []) ∧
            (1 < s0.ref_count → hashStores acc1 h =
              [{ s0 with ref_count := s0.ref_count - 1 }])) →
          rr.1 = acc1 →
          (∀ g ∈ db1.files, g ∈ acc.files ∧ ∀ f ∈ f0 :: kt, g.id ≠ f.id) ∧
          db1.users = acc.users ∧
          ((db1.files.map (fun f => f.id)).Nodup) ∧
          (∀ h', (∀ f ∈ f0 :: kt, f.file_hash ≠ some h') →
            hashStores db1 h' = hashStores acc h') ∧
          (∀ f ∈ f0 :: kt, ∀ h, f.file_hash = some h →
            ∀ s0, hashStores db h = [s0] →
            (s0.ref_count ≤ 1 → hashStores db1 h = []) ∧
            (1 < s0.ref_count → hashStores db1 h =
              [{ s0 with ref_count := s0.ref_count - 1 }])) := by
        intro acc1 hfiles husers hother hself hrr
        rw [hrr] at hfold
        have hnd1 : (acc1.files.map (fun f => f.id)).Nodup := by
          rw [hfiles]
          exact nodup_ids_filter acc.files _ hnd
        have hI1t : ∀ f ∈ kt, findFile acc1 f.id uid = some f := by
          intro f hf
          have hmem : f ∈ acc.files := by
            unfold findFile at hI1
            exact List.mem_of_find?_eq_some
              (hI1 f (List.mem_cons_of_mem f0 hf))
          refine find?_nodup_mem acc1.files f.id uid f hnd1 ?_ rfl
            (huser f (List.mem_cons_of_mem f0 hf))
          rw [hfiles]
          rw [List.mem_filter]
          exact ⟨hmem, by simp [hf0nt f hf]⟩
        have hI2t : ∀ f ∈ kt, ∀ h, f.file_hash = some h →
            hashStores acc1 h = hashStores db h := by
          intro f hf h hh
          have hne : f0.file_hash ≠ some h := by
            intro hc
            have := hkdist f0 (List.mem_cons_self f0 kt) f
              (List.mem_cons_of_mem f0 hf) h hc hh
            exact hf0nt f hf (by rw [this])
          rw [hother h hne]
          exact hI2 f (List.mem_cons_of_mem f0 hf) h hh
        obtain ⟨ta, tb, tc, td, te⟩ := ihc acc1 db1
          (fun f hf => hkfile f (List.mem_cons_of_mem f0 hf))
          (fun f hf => huser f (List.mem_cons_of_mem f0 hf))
          (List.nodup_cons.mp hknd).2
          (fun f hf g hg h hfh hgh => hkdist f (List.mem_cons_of_mem f0 hf)
            g (List.mem_cons_of_mem f0 hg) h hfh hgh)
          hI1t hI2t hnd1 hfold
        refine ⟨?_, tb.trans husers, tc, ?_, ?_⟩
        · intro g hg
          obtain ⟨hg1, hg2⟩ := ta g hg
          rw [hfiles, List.mem_filter] at hg1
          refine ⟨hg1.1, ?_⟩
          intro f hf
          rcases List.mem_cons.mp hf with rfl | hft
          · have := hg1.2
            simpa using this
          · exact hg2 f hft
        · intro h' hall
          rw [td h' (fun f hf => hall f (List.mem_cons_of_mem f0 hf))]
          exact hother h' (hall f0 (List.mem_cons_self f0 kt))
        · intro f hf h hfh s0 hs0
          rcases List.mem_cons.mp hf with rfl | hft
          · have hframe : hashStores db1 h = hashStores acc1 h := by
              refine td h ?_
              intro g hg hc
              have := hkdist f (List.mem_cons_self f kt) g
                (List.mem_cons_of_mem f hg) h hfh hc
              exact hf0nt g hg (by rw [this])
            obtain ⟨c1, c2⟩ := hself h hfh s0 hs0
            exact ⟨fun hle => by rw [hframe]; exact c1 hle,
              fun hgt => by rw [hframe]; exact c2 hgt⟩
          · exact te f hft h hfh s0 hs0
      -- unfold the head step and discharge `main`'s interface per branch
      rcases m with _ | k
      · exact absurd h1 (by simp [permRemoveGo])
      · unfold permRemoveGo at h1
        rw [show findFile acc f0.id uid = some f0 from
          hI1 f0 (List.mem_cons_self f0 kt)] at h1
        simp only at h1
        rw [if_neg (by simp [hkfile f0 (List.mem_cons_self f0 kt)])] at h1
        rcases hfh : f0.file_hash with _ | h
        · rw [hfh] at h1
          simp only [Option.some.injEq] at h1
          refine main _ ?_ ?_ ?_ ?_ (congrArg Prod.fst h1.symm)
          · rfl
          · rfl
          · intro h' _
            rfl
          · intro h hc
            exact absurd hc (by rw [hfh]; simp)
        · rw [hfh] at h1
          simp only at h1
          by_cases hsome : (get_by_hash acc h).isSome = true
          · rw [if_pos hsome] at h1
            simp only [Option.some.injEq] at h1
            refine main _ ?_ ?_ ?_ ?_ (congrArg Prod.fst h1.symm)
            · show ((decrement_and_release acc h).1.files).filter _ = _
              rw [(decRel_frame acc h).1]
            · show (decrement_and_release acc h).1.users = _
              exact (decRel_frame acc h).2.1
            · intro h' hne
              show hashStores (decrement_and_release acc h).1 h' = _
              refine decRel_other acc h h' ?_
              intro hc
              rw [hfh, hc] at hne
              exact hne rfl
            · intro h2 hc s0 hs0
              obtain rfl : h = h2 := by
                rw [hfh] at hc
                exact Option.some.inj hc
              have hacc : hashStores acc h = [s0] := by
                rw [hI2 f0 (List.mem_cons_self f0 kt) h hfh]
                exact hs0
              obtain ⟨c1, c2⟩ := decRel_self acc h s0 hacc
              exact ⟨c1, c2⟩
          · rw [if_neg hsome] at h1
            simp only [Option.some.injEq] at h1
            refine main _ ?_ ?_ ?_ ?_ (congrArg Prod.fst h1.symm)
            · rfl
            · rfl
            · intro h' _
              rfl
            · intro h2 hc s0 hs0
              exfalso
              obtain rfl : h = h2 := by
                rw [hfh] at hc
                exact Option.some.inj hc
              have hacc : hashStores acc h = [s0] := by
                rw [hI2 f0 (List.mem_cons_self f0 kt) h hfh]
                exact hs0
              have : acc.stores.find? (fun t => t.file_hash == h) = some s0 :=
                filter_eq_single_find? hacc
              rw [show get_by_hash acc h =
                acc.stores.find? (fun t => t.file_hash == h) from rfl, this]
                at hsome
              simp at hsome

end SkyDrive

namespace SkyDrive

theorem clean_noop (fuel : Nat) (db : DB) (uid now : Nat)
    (hnoexp : db.files.filter (fun f => f.user_id == uid && f.is_deleted &&
      (match f.deleted_at with
        | some t => decide (t < now - 30)
        | none => false)) = []) :
    clean_expired_trash fuel db uid now = some db := by
  unfold clean_expired_trash
  simp only
  rw [hnoexp]
  rfl

theorem calcFold (uid now n : Nat) :
    ∀ (ks : List FileMetaRec) (d : DB) (t : Nat) (res : DB × Nat),
    (∀ f ∈ ks, f.is_folder = false) →
    (ks.foldlM (fun (acc : DB × Nat) child =>
      (calcSizeGo n acc.1 uid now child).map (fun s => (s.1, acc.2 + s.2)))
      (d, t) = some res) →
    res = (d, t + (ks.map (fun f => fileSizeOf d f)).sum) := by
  intro ks
  induction ks with
  | nil =>
    intro d t res _ hfold
    obtain rfl : (d, t) = res := Option.some.inj hfold
    simp
  | cons c ct ih =>
    intro d t res hfile hfold
    simp only [List.foldlM_cons] at hfold
    rcases h1 : calcSizeGo n d uid now c with _ | p
    · rw [h1] at hfold
      exact absurd hfold (by simp)
    · rw [h1] at hfold
      simp only [Option.map_some', Option.some_bind] at hfold
      rcases n with _ | m
      · exact absurd h1 (by simp [calcSizeGo])
      · unfold calcSizeGo at h1
        rw [if_neg (by simp [hfile c (List.mem_cons_self c ct)])] at h1
        obtain rfl : (d, fileSizeOf d c) = p := Option.some.inj h1
        have := ih d (t + fileSizeOf d c) res
          (fun f hf => hfile f (List.mem_cons_of_mem c hf)) hfold
        rw [this]
        simp [List.sum_cons]
        omega

theorem quotaUsed_update (d : DB) (uid : Nat) (δ : Int) (u : UserRec)
    (hu : d.users.find? (fun x => x.id == uid) = some u) :
    quotaUsed (update_quota_used d uid δ) uid = quotaUsed d uid + δ := by
  have hg : ∀ x : UserRec,
      ((if x.id == uid then ({ x with quota_used := x.quota_used + δ } :
        UserRec) else x).id == uid) = (x.id == uid) := by
    intro x
    by_cases hx : x.id == uid <;> simp [hx]
  have hps := List.find?_some hu
  simp only at hps
  unfold quotaUsed update_quota_used
  simp only
  rw [find?_map_comm
    (fun x : UserRec =>
      if x.id == uid then { x with quota_used := x.quota_used + δ } else x)
    (fun x : UserRec => x.id == uid) hg, hu]
  simp only [Option.map_some', Option.map_map]
  rw [if_pos hps]
  simp

end SkyDrive

namespace SkyDrive

/-- C6 (amended): permanently deleting a trashed folder whose children are
soft-deleted file rows credits the owner's quota with exactly the sum of
the children's file sizes — the size swept is computed over the folder's
*trashed* children only (`get_trash_files`) — and decrements each child's
blob reference count once (the record is dropped when it reaches zero);
the folder's row and all children rows are removed.  For a folder with a
*non-deleted* descendant the credited total undercounts the freed bytes
while the reference counts are still decremented (see the
counterexample). -/
theorem C6_permanent_delete_folder (fuel : Nat) (db : DB)
    (uid fid now : Nat) (u : UserRec) (meta : FileMetaRec)
    (ks : List FileMetaRec) (db' : DB)
    (hu : findUser db uid = some u)
    (hget : crud_get db fid = some meta)
    (hfm : findFile db fid uid = some meta)
    (hmf : meta.is_folder = true)
    (hfid0 : (fid != 0) = true)
    (hnoexp : db.files.filter (fun f => f.user_id == uid && f.is_deleted &&
      (match f.deleted_at with
        | some t => decide (t < now - 30)
        | none => false)) = [])
    (hks : db.files.filter (fun f =>
      f.parent_id == fid && f.user_id == uid) = ks)
    (hkfile : ∀ f ∈ ks, f.is_folder = false ∧ f.is_deleted = true)
    (hklim : ks.length ≤ 10000)
    (hnodup : (db.files.map (fun f => f.id)).Nodup)
    (hkdist : ∀ f ∈ ks, ∀ g ∈ ks, ∀ h, f.file_hash = some h →
      g.file_hash = some h → f = g)
    (hok : permanentDeleteFile fuel db uid fid now = some (db', .ok ())) :
    quotaUsed db' uid = quotaUsed db uid -
      ((ks.map (fun f => fileSizeOf db f)).sum : Int) ∧
    (∀ f ∈ ks, ∀ h, f.file_hash = some h → ∀ s0, hashStores db h = [s0] →
      (s0.ref_count ≤ 1 → hashStores db' h = []) ∧
      (1 < s0.ref_count → hashStores db' h =
        [{ s0 with ref_count := s0.ref_count - 1 }])) ∧
    (∀ g ∈ db'.files, g.id ≠ fid ∧ ∀ f ∈ ks, g.id ≠ f.id) := by
  have hmid : meta.id = fid := by
    have := List.find?_some hget
    simpa using this
  unfold permanentDeleteFile at hok
  rw [hu, hget] at hok
  simp only at hok
  rcases hcalc : calcSizeGo fuel db uid now meta with _ | r
  · rw [hcalc] at hok
    exact absurd hok (by simp)
  · rw [hcalc] at hok
    simp only at hok
    rcases fuel with _ | n
    · exact absurd hcalc (by simp [calcSizeGo])
    · -- evaluate the size sweep
      unfold calcSizeGo at hcalc
      rw [if_pos hmf] at hcalc
      rw [show get_trash_files n db uid (some meta.id) now 10000 =
          some (db, ks) from ?gt] at hcalc
      case gt =>
        unfold get_trash_files
        rw [clean_noop n db uid now hnoexp]
        simp only
        rw [show (meta.id != 0) = true from by rw [hmid]; exact hfid0]
        simp only [if_true]
        rw [show db.files.filter (fun f => f.user_id == uid &&
            f.parent_id == meta.id && f.is_deleted) = ks from ?flt]
        rw [List.take_of_length_le hklim]
        case flt =>
          rw [← hks]
          apply List.filter_congr
          intro f hf
          by_cases hp : (f.parent_id == fid) = true
          · by_cases hus : (f.user_id == uid) = true
            · have hfks : f ∈ ks := by
                rw [← hks]
                rw [List.mem_filter]
                exact ⟨hf, by simp [hp, hus]⟩
              have hdel := (hkfile f hfks).2
              rw [hmid]
              simp [hp, hus, hdel]
            · rw [hmid]
              simp [hus]
          · rw [hmid]
            simp [hp]
      simp only at hcalc
      obtain rfl : r = (db, 0 + (ks.map (fun f => fileSizeOf db f)).sum) :=
        calcFold uid now n ks db 0 r (fun f hf => (hkfile f hf).1) hcalc
      simp only [Nat.zero_add] at hok
      -- evaluate the purge
      rcases hperm : permRemoveGo (n + 1) db fid uid with _ | r2
      · rw [hperm] at hok
        exact absurd hok (by simp)
      · rw [hperm] at hok
        simp only [Option.some.injEq, Prod.mk.injEq] at hok
        obtain ⟨hdb, -⟩ := hok
        subst hdb
        unfold permRemoveGo at hperm
        rw [hfm] at hperm
        simp only at hperm
        rw [if_pos hmf] at hperm
        rw [show childIds db fid uid = ks.map (fun f => f.id) from by
          unfold childIds
          rw [hks]] at hperm
        rcases hfold : (ks.map (fun f => f.id)).foldlM (fun acc c =>
            (permRemoveGo n acc c uid).map (fun r => r.1)) db with _ | db1
        · rw [hfold] at hperm
          exact absurd hperm (by simp)
        · rw [hfold] at hperm
          simp only [Option.some.injEq] at hperm
          subst hperm
          have hI1 : ∀ f ∈ ks, findFile db f.id uid = some f := by
            intro f hf
            have hfm2 : f ∈ db.files := by
              rw [← hks] at hf
              exact (List.mem_filter.mp hf).1
            have hus : f.user_id = uid := by
              rw [← hks] at hf
              have h3 := (List.mem_filter.mp hf).2
              have h2 := (Bool.and_eq_true _ _).mp h3
              simpa using h2.2
            exact find?_nodup_mem db.files f.id uid f hnodup hfm2 rfl hus
          obtain ⟨ta, tb, tc, td, te⟩ := permFold db uid n ks db db1
            (fun f hf => (hkfile f hf).1)
            (fun f hf => by
              rw [← hks] at hf
              have h3 := (List.mem_filter.mp hf).2
              have h2 := (Bool.and_eq_true _ _).mp h3
              simpa using h2.2)
            (by rw [← hks]; exact nodup_ids_filter db.files _ hnodup)
            hkdist hI1 (fun f hf h hh => rfl) hnodup hfold
          refine ⟨?_, ?_, ?_⟩
          · rw [quotaUsed_update _ uid _ u (by
              show db1.users.find? (fun x => x.id == uid) = some u
              rw [tb]
              exact hu)]
            have hq2 :
                quotaUsed
                  { db1 with
                    files := db1.files.filter (fun f => !(f.id == fid)) }
                  uid = quotaUsed db uid := by
              unfold quotaUsed
              show ((db1.users.find? _).map _).getD 0 = _
              rw [tb]
            rw [hq2]
            omega
          · intro f hf h hh s0 hs0
            exact te f hf h hh s0 hs0
          · intro g hg
            have hg2 : g ∈ db1.files.filter (fun f => !(f.id == fid)) := hg
            simp only [List.mem_filter] at hg2
            obtain ⟨hg1, hg3⟩ := hg2
            refine ⟨by simpa using hg3, ?_⟩
            exact (ta g hg1).2

end SkyDrive

namespace SkyDrive

/-- C6 counterexample: permanently deleting an *active* folder with an
active file child (5 bytes, blob ref-count 1) frees 0 bytes of quota —
`calculate_size` sums over `get_trash_files`, which lists only
soft-deleted children — yet the child's blob reference count is still
decremented to zero and the blob record and bytes are deleted.  The
quota counter stays at 5, not 5 − 5. -/
theorem C6_counterexample :
    let fA : FileMetaRec :=
      { id := 1, user_id := 1, parent_id := 0, file_name := "A",
        is_folder := true, file_hash := none, is_deleted := false,
        deleted_at := none }
    let fB : FileMetaRec :=
      { id := 2, user_id := 1, parent_id := 1, file_name := "B",
        is_folder := false, file_hash := some "x", is_deleted := false,
        deleted_at := none }
    let sX : FileStoreRec :=
      { file_hash := "x", real_path := "vol/x", file_size := 5,
        ref_count := 1 }
    let db : DB :=
      { files := [fA, fB], stores := [sX], chunks := [],
        users := [{ id := 1, quota_used := 5, quota_total := 1000 }],
        disk := [("vol/x", [9, 9, 9, 9, 9])], storage_paths := ["vol"],
        next_id := 3, next_tmp := 0 }
    fileSizeOf db fB = 5 ∧
    (permanentDeleteFile 10 db 1 1 100).map (fun p =>
      (quotaUsed p.1 1, p.1.stores, p.1.files.length,
        diskGet p.1.disk "vol/x")) = some (5, [], 0, none) := by
  intro fA fB sX db
  exact ⟨by decide, by decide⟩

theorem C6_permanent_delete_folder_witness :
    let fA : FileMetaRec :=
      { id := 1, user_id := 1, parent_id := 0, file_name := "A",
        is_folder := true, file_hash := none, is_deleted := true,
        deleted_at := some 100 }
    let fB : FileMetaRec :=
      { id := 2, user_id := 1, parent_id := 1, file_name := "B",
        is_folder := false, file_hash := some "x", is_deleted := true,
        deleted_at := some 100 }
    let sX : FileStoreRec :=
      { file_hash := "x", real_path := "vol/x", file_size := 4,
        ref_count := 1 }
    let u : UserRec := { id := 1, quota_used := 4, quota_total := 1000 }
    let db : DB :=
      { files := [fA, fB], stores := [sX], chunks := [], users := [u],
        disk := [("vol/x", [9, 9, 9, 9])], storage_paths := ["vol"],
        next_id := 3, next_tmp := 0 }
    ∃ db2, permanentDeleteFile 10 db 1 1 100 = some (db2, .ok ()) ∧
      (quotaUsed db2 1 = quotaUsed db 1 -
        (([fB].map (fun f => fileSizeOf db f)).sum : Int) ∧
      (∀ f ∈ [fB], ∀ h, f.file_hash = some h → ∀ s0,
        hashStores db h = [s0] →
        (s0.ref_count ≤ 1 → hashStores db2 h = []) ∧
        (1 < s0.ref_count → hashStores db2 h =
          [{ s0 with ref_count := s0.ref_count - 1 }])) ∧
      (∀ g ∈ db2.files, g.id ≠ 1 ∧ ∀ f ∈ [fB], g.id ≠ f.id)) := by
  intro fA fB sX u db
  exact ⟨_, rfl, C6_permanent_delete_folder 10 db 1 1 100 u fA [fB] _
    rfl rfl rfl rfl rfl (by decide) rfl (by decide) (by decide) (by decide)
    (by decide) rfl⟩

end SkyDrive

namespace SkyDrive

theorem likeSelf : ∀ (b : List Char) (fuel : Nat), 2 * b.length + 1 ≤ fuel →
    likeMatchF fuel b b = true := by
  intro b
  induction b with
  | nil =>
    intro fuel hf
    rcases fuel with _ | f
    · omega
    · rfl
  | cons c b' ih =>
    intro fuel hf
    rcases fuel with _ | f
    · omega
    · unfold likeMatchF
      by_cases hc : c = '%'
      · rw [if_pos hc]
        simp only
        rcases f with _ | f2
        · exact absurd hf (by simp only [List.length_cons]; omega)
        · have h2 : likeMatchF (f2 + 1) (c :: b') b' = true := by
            unfold likeMatchF
            rw [if_pos hc]
            have h3 : likeMatchF f2 b' b' = true := by
              apply ih
              simp at hf
              omega
            rw [h3]
            simp
          rw [h2]
          simp
      · rw [if_neg hc]
        simp only
        have h3 : likeMatchF f b' b' = true := by
          apply ih
          simp at hf
          omega
        rw [h3]
        simp

theorem likeAbsorb : ∀ (a m b : List Char) (fuel : Nat),
    2 * a.length + m.length + 2 * b.length + 2 ≤ fuel →
    likeMatchF fuel (a ++ '%' :: b) (a ++ (m ++ b)) = true := by
  intro a
  induction a with
  | nil =>
    intro m
    induction m with
    | nil =>
      intro b fuel hf
      rcases fuel with _ | f
      · omega
      · show likeMatchF (f + 1) ('%' :: b) ([] ++ b) = true
        unfold likeMatchF
        rw [if_pos rfl]
        have h3 : likeMatchF f b b = true := by
          apply likeSelf
          simp at hf
          omega
        simp only [List.nil_append]
        rw [h3]
        simp
    | cons x m' ihm =>
      intro b fuel hf
      rcases fuel with _ | f
      · omega
      · show likeMatchF (f + 1) ('%' :: b) (x :: (m' ++ b)) = true
        unfold likeMatchF
        rw [if_pos rfl]
        simp only
        have h3 : likeMatchF f ('%' :: b) (m' ++ b) = true := by
          have := ihm b f (by simp at hf ⊢; omega)
          simpa using this
        rw [h3]
        simp
  | cons c a' iha =>
    intro m b fuel hf
    rcases fuel with _ | f
    · omega
    · show likeMatchF (f + 1) (c :: (a' ++ '%' :: b)) (c :: (a' ++ (m ++ b)))
        = true
      unfold likeMatchF
      by_cases hc : c = '%'
      · rw [if_pos hc]
        simp only
        rcases f with _ | f2
        · exact absurd hf (by simp only [List.length_cons]; omega)
        · have h2 : likeMatchF (f2 + 1) (c :: (a' ++ '%' :: b))
              (a' ++ (m ++ b)) = true := by
            unfold likeMatchF
            rw [if_pos hc]
            have h3 : likeMatchF f2 (a' ++ '%' :: b) (a' ++ (m ++ b)) = true :=
              iha m b f2 (by simp at hf ⊢; omega)
            rw [h3]
            simp
          rw [h2]
          simp
      · rw [if_neg hc]
        simp only
        have h3 : likeMatchF f (a' ++ '%' :: b) (a' ++ (m ++ b)) = true :=
          iha m b f (by simp at hf ⊢; omega)
        rw [h3]
        simp

theorem likeMatch_pattern (a m b : List Char) :
    likeMatch (a ++ '%' :: b) (a ++ (m ++ b)) = true := by
  unfold likeMatch
  apply likeAbsorb
  simp [List.length_append]
  omega

end SkyDrive

namespace SkyDrive

theorem crudSplitName_append (n : String) :
    ((crudSplitName n).1).data ++ ((crudSplitName n).2).data = n.data := by
  unfold crudSplitName
  by_cases hc : (n.data.contains '.' && !(n.data.head? == some '.')) = true
  · rw [if_pos hc]
    simp only
    have hcont : '.' ∈ n.data.reverse := by
      have h1 := ((Bool.and_eq_true _ _).mp hc).1
      rw [List.mem_reverse]
      simpa using h1
    have hne : n.data.reverse.dropWhile (fun c => !(c == '.')) ≠ [] := by
      intro h0
      have h2 := List.dropWhile_eq_nil_iff.mp h0 '.' hcont
      simp at h2
    have hhead : (n.data.reverse.dropWhile (fun c => !(c == '.'))).head hne =
        '.' := by
      have h3 := List.head_dropWhile_not (fun c => !(c == '.'))
        n.data.reverse hne
      simpa using h3
    have hdecomp : n.data.reverse.dropWhile (fun c => !(c == '.')) =
        '.' :: (n.data.reverse.dropWhile (fun c => !(c == '.'))).drop 1 := by
      conv_lhs => rw [← List.head_cons_tail _ hne]
      rw [hhead, List.drop_one]
    show ((n.data.reverse.dropWhile (fun c => !(c == '.'))).drop 1).reverse ++
      '.' :: (n.data.reverse.takeWhile (fun c => !(c == '.'))).reverse = n.data
    have hsplit : n.data =
        ((n.data.reverse.takeWhile (fun c => !(c == '.'))) ++
          (n.data.reverse.dropWhile (fun c => !(c == '.')))).reverse := by
      rw [List.takeWhile_append_dropWhile]
      exact (List.reverse_reverse n.data).symm
    conv_rhs => rw [hsplit]
    conv_rhs => rw [hdecomp]
    rw [List.reverse_append, List.reverse_cons, List.append_assoc]
    simp
  · rw [if_neg hc]
    simp

theorem uniqueLoop_free (names : List String) (pre ext : String) :
    ∀ (fuel k : Nat) (nm : String),
    uniqueLoop names pre ext k fuel = some nm →
    names.contains nm = false ∧ ∃ j, nm = candidateName pre ext j := by
  intro fuel
  induction fuel with
  | zero =>
    intro k nm h
    exact absurd h (by simp [uniqueLoop])
  | succ f ih =>
    intro k nm h
    unfold uniqueLoop at h
    by_cases hmem : names.contains (candidateName pre ext k) = true
    · rw [if_pos hmem] at h
      exact ih (k + 1) nm h
    · rw [if_neg hmem] at h
      obtain rfl : candidateName pre ext k = nm := Option.some.inj h
      exact ⟨by simpa using hmem, k, rfl⟩

theorem crud_unique_no_conflict (db : DB) (uid pid : Nat) (name : String)
    (fuel : Nat) (uname : String)
    (hok : crud_get_unique_filename db uid pid name fuel = some uname) :
    ∀ f ∈ db.files, f.user_id = uid → f.parent_id = pid →
      f.is_deleted = false → f.file_name ≠ uname := by
  intro f hf hfu hfp hfd heq
  unfold crud_get_unique_filename at hok
  simp only at hok
  -- the returned name matches the LIKE pattern, so a same-named active
  -- sibling would have been collected into existing_names
  have hmatch : likeMatch (likePattern (crudSplitName name).1
      (crudSplitName name).2) uname.data = true := by
    by_cases hmem : ((db.files.filter (fun f =>
        f.user_id == uid && f.parent_id == pid &&
        likeMatch (likePattern (crudSplitName name).1 (crudSplitName name).2)
          f.file_name.data && !f.is_deleted)).map
          (fun f => f.file_name)).contains name = true
    · rw [if_pos hmem] at hok
      obtain ⟨-, j, rfl⟩ := uniqueLoop_free _ _ _ fuel 1 uname hok
      unfold candidateName likePattern
      have : ((crudSplitName name).1 ++ " (" ++ toString j ++ ")" ++
          (crudSplitName name).2).data =
          ((crudSplitName name).1).data ++
          ((" (" ++ toString j ++ ")" : String)).data ++
          ((crudSplitName name).2).data := by
        simp [String.data_append]
      rw [this, List.append_assoc]
      exact likeMatch_pattern _ _ _
    · rw [if_neg hmem] at hok
      obtain rfl : name = uname := Option.some.inj hok
      unfold likePattern
      have h5 : name.data = ((crudSplitName name).1).data ++
          ([] ++ ((crudSplitName name).2).data) := by
        rw [List.nil_append]
        exact (crudSplitName_append name).symm
      rw [h5]
      exact likeMatch_pattern _ _ _
  -- hence f would be in existing_names, contradicting freeness
  have hin : uname ∈ (db.files.filter (fun f =>
      f.user_id == uid && f.parent_id == pid &&
      likeMatch (likePattern (crudSplitName name).1 (crudSplitName name).2)
        f.file_name.data && !f.is_deleted)).map (fun f => f.file_name) := by
    refine List.mem_map.mpr ⟨f, ?_, heq⟩
    rw [List.mem_filter]
    refine ⟨hf, ?_⟩
    rw [heq]
    simp [hfu, hfp, hfd, hmatch]
  by_cases hmem : ((db.files.filter (fun f =>
      f.user_id == uid && f.parent_id == pid &&
      likeMatch (likePattern (crudSplitName name).1 (crudSplitName name).2)
        f.file_name.data && !f.is_deleted)).map
        (fun f => f.file_name)).contains name = true
  · rw [if_pos hmem] at hok
    obtain ⟨hfree, -⟩ := uniqueLoop_free _ _ _ fuel 1 uname hok
    rw [show (((db.files.filter (fun f =>
      f.user_id == uid && f.parent_id == pid &&
      likeMatch (likePattern (crudSplitName name).1 (crudSplitName name).2)
        f.file_name.data && !f.is_deleted)).map
        (fun f => f.file_name)).contains uname) = true from by
          simpa using hin] at hfree
    exact absurd hfree (by simp)
  · rw [if_neg hmem] at hok
    obtain rfl : name = uname := Option.some.inj hok
    rw [show (((db.files.filter (fun f =>
      f.user_id == uid && f.parent_id == pid &&
      likeMatch (likePattern (crudSplitName name).1 (crudSplitName name).2)
        f.file_name.data && !f.is_deleted)).map
        (fun f => f.file_name)).contains name) = true from by
          simpa using hin] at hmem
    exact hmem rfl

end SkyDrive

namespace SkyDrive

/-- C8 (amended): the insertion path shared by create, the upload commits,
copy and move — `create_with_user` via `_get_unique_filename` — never
duplicates an active sibling name: the chosen name differs from every
active sibling's under the target parent, and the pairwise
no-duplicate-active-sibling-names invariant is preserved.  Restore,
however, re-activates a node without re-checking its name, and
`get_or_create_path` checks only active *folders*, so those two public
operations can break the invariant (see the counterexample). -/
theorem C8_create_preserves_unique_names (db : DB) (obj : FileMetaCreate)
    (uid fuel : Nat) (db2 : DB) (node : FileMetaRec)
    (hok : create_with_user db obj uid fuel = some (db2, node))
    (hinv : ∀ f ∈ db.files, ∀ g ∈ db.files, f.user_id = g.user_id →
      f.parent_id = g.parent_id → f.is_deleted = false →
      g.is_deleted = false → f.file_name = g.file_name → f.id = g.id) :
    (∀ f ∈ db.files, f.user_id = uid → f.parent_id = obj.parent_id →
      f.is_deleted = false → f.file_name ≠ node.file_name) ∧
    (∀ f ∈ db2.files, ∀ g ∈ db2.files, f.user_id = g.user_id →
      f.parent_id = g.parent_id → f.is_deleted = false →
      g.is_deleted = false → f.file_name = g.file_name → f.id = g.id) := by
  unfold create_with_user at hok
  rcases hu : crud_get_unique_filename db uid obj.parent_id obj.file_name fuel
      with _ | uname
  · rw [hu] at hok
    exact absurd hok (by simp)
  · rw [hu] at hok
    simp only [Option.some.injEq, Prod.mk.injEq] at hok
    obtain ⟨hdb, hnode⟩ := hok
    subst hdb
    subst hnode
    have hconf := crud_unique_no_conflict db uid obj.parent_id obj.file_name
      fuel uname hu
    refine ⟨?_, ?_⟩
    · intro f hf hfu hfp hfd
      exact hconf f hf hfu hfp hfd
    · intro f hf g hg hfg hpg hfd hgd hname
      rcases List.mem_append.mp hf with hfo | hfn
      · rcases List.mem_append.mp hg with hgo | hgn
        · exact hinv f hfo g hgo hfg hpg hfd hgd hname
        · obtain rfl : g = _ := by simpa using hgn
          exact absurd hname (hconf f hfo (by simpa using hfg)
            (by simpa using hpg) hfd)
      · obtain rfl : f = _ := by simpa using hfn
        rcases List.mem_append.mp hg with hgo | hgn
        · exact absurd hname.symm (hconf g hgo (by simpa using hfg.symm)
            (by simpa using hpg.symm) hgd)
        · obtain rfl : g = _ := by simpa using hgn
          rfl

/-- C8 counterexample: a node soft-deleted under a parent, with a new
active node of the same name created afterwards; restoring the old node
yields two *active* siblings named "a.txt" under the same parent for the
same owner, violating the invariant that held before the restore. -/
theorem C8_counterexample :
    let fOld : FileMetaRec :=
      { id := 2, user_id := 1, parent_id := 0, file_name := "a.txt",
        is_folder := false, file_hash := none, is_deleted := true,
        deleted_at := some 50 }
    let fNew : FileMetaRec :=
      { id := 3, user_id := 1, parent_id := 0, file_name := "a.txt",
        is_folder := false, file_hash := none, is_deleted := false,
        deleted_at := none }
    let db : DB := { cexBase with files := [fOld, fNew], next_id := 4 }
    (db.files.filter (fun f => f.user_id == 1 && f.parent_id == 0 &&
      !f.is_deleted && f.file_name == "a.txt")).length = 1 ∧
    (restoreOp 10 db 2 1).map (fun p =>
      (p.1.files.filter (fun f => f.user_id == 1 && f.parent_id == 0 &&
        !f.is_deleted && f.file_name == "a.txt")).length) = some 2 := by
  intro fOld fNew db
  exact ⟨by decide, by decide⟩

theorem C8_create_preserves_unique_names_witness :
    let fA : FileMetaRec :=
      { id := 1, user_id := 1, parent_id := 0, file_name := "a.txt",
        is_folder := false, file_hash := none, is_deleted := false,
        deleted_at := none }
    let db : DB := { cexBase with files := [fA], next_id := 2 }
    ∃ p : DB × FileMetaRec,
      create_with_user db ⟨"a.txt", false, 0, none⟩ 1 10 = some p ∧
      ((∀ f ∈ db.files, f.user_id = 1 → f.parent_id = 0 →
        f.is_deleted = false → f.file_name ≠ p.2.file_name) ∧
       (∀ f ∈ p.1.files, ∀ g ∈ p.1.files, f.user_id = g.user_id →
        f.parent_id = g.parent_id → f.is_deleted = false →
        g.is_deleted = false → f.file_name = g.file_name → f.id = g.id)) ∧
      p.2.file_name = "a (1).txt" := by
  intro fA db
  exact ⟨_, rfl,
    C8_create_preserves_unique_names db ⟨"a.txt", false, 0, none⟩ 1 10 _ _
      rfl (by decide), by decide⟩

end SkyDrive
